import Mathlib

/-! A sharded token-bucket rate limiter: model and checked properties.

Shallow embedding of `src/src/rate_limit_manager.cpp`,
`src/include/rate_limit_manager.hpp` and `src/include/config.hpp`.

Modelling conventions.

* `double` is modelled twice.  The exact reading (`refilled`,
  `TokenBucket.check`, `is_allowed`, `run`, and `TokenBucket.allow` of
  `token_bucket.hpp`) takes token counts in `ℚ` with exact arithmetic and
  `std::floor` / `std::ceil` with value in `ℤ`; it carries the properties that
  do not depend on rounding: which entries a call reads and writes, shard
  routing, eviction, the bounds on the stored count, comparisons of two runs
  of the same computation, and runs on whole numbers.  The binary64 reading
  (`Double`, `binary64.check`, `binary64.is_allowed`, `binary64.run`) performs
  every `double` operation as IEEE 754 does: the exact result rounded to the
  nearest binary64 value, ties to even, with overflow to an infinity, division
  by zero and NaN; it carries every property that depends on the value of a
  fraction or on the range of `int`.
* A finite `double` is the rational number it denotes; a configuration value
  is the binary64 value nearest to the decimal written in the source (`0.6` is
  `5404319552844595 / 2^53`).  The two zeros are identified, so a zero divisor
  is the positive zero.
* `static_cast<int>` in the binary64 reading is `Double.to_int`: truncation
  toward zero, and `INT_MIN` for a value outside the range of `int`, an
  infinity or a NaN, as the x86-64 conversion instruction yields.
* The difference of two time points is an `int64_t` count of nanoseconds; its
  range is not modelled.
* `std::chrono::steady_clock::time_point` is a count of nanoseconds since the
  clock's epoch, a natural number; a value-initialised `time_point` is the
  epoch itself, reading `0`.  `std::chrono::milliseconds` is an integer count
  of milliseconds.
* `std::unordered_map<std::string, TokenBucket>` is modelled by an association
  list with at most one entry per key; `operator[]` is `find` with the
  value-initialised bucket as default, followed by `store`.
* `std::hash<std::string>` belongs to the standard library and is a parameter
  `hash : String → Nat` of the operations that use it.
* Each operation runs under its shard's mutex, so a run of the engine is a
  sequence of atomic steps: `is_allowed` calls and janitor sweeps, each with
  the clock reading it takes.
* Indexing `shards_` out of bounds and a zero divisor in integer division have
  no defined behaviour in C++; the model returns `none` there.
-/

namespace RateLimiter

/-- The `Config` record of `config.hpp` with its default member initialisers.
`expiry_timeout` and `janitor_interval` are counts of milliseconds. -/
structure Config where
  max_ips : Int := 1000000
  shards : Int := 16
  max_tokens : ℚ := 100
  refill_rate : ℚ := 10
  token_cost : ℚ := 1
  expiry_timeout : Int := 600000
  janitor_interval : Int := 60000
  deriving DecidableEq

/-- The `TokenBucket` aggregate of `rate_limit_manager.hpp`. -/
structure TokenBucket where
  tokens : ℚ
  last_update : Nat
  last_access : Nat
  deriving DecidableEq

/-- The value-initialised `TokenBucket` that `buckets[key]` inserts for a key
that is not in the map: `tokens = 0.0`, both time points at the epoch. -/
def TokenBucket.value_init : TokenBucket :=
  { tokens := 0, last_update := 0, last_access := 0 }

/-- The four results of `is_allowed`: the returned flag and the three `int`
output parameters. -/
structure Outcome where
  allowed : Bool
  remaining : Int
  wait_time : Int
  reset_after : Int
  deriving DecidableEq

/-- The value of `std::chrono::duration<double>(now - last).count()` in the
exact reading: the difference of two time points, in seconds. -/
def elapsed_seconds (now last : Nat) : ℚ :=
  ((now : ℚ) - (last : ℚ)) / 1000000000

/-- The token count after the refill step of `is_allowed` (line 54), in the
exact reading. -/
def refilled (cfg : Config) (now : Nat) (bucket : TokenBucket) : ℚ :=
  min cfg.max_tokens (bucket.tokens + elapsed_seconds now bucket.last_update * cfg.refill_rate)

/-- Lines 52-72 of `is_allowed` in the exact reading, acting on the bucket
reference obtained from the shard: refill, timestamps, reset calculation, then
consume or deny. -/
def TokenBucket.check (cfg : Config) (now : Nat) (bucket : TokenBucket) :
    TokenBucket × Outcome :=
  let tokens := refilled cfg now bucket
  let missing := cfg.max_tokens - tokens
  let reset_after := ⌈missing / cfg.refill_rate⌉
  if cfg.token_cost ≤ tokens then
    ({ tokens := tokens - cfg.token_cost, last_update := now, last_access := now },
     { allowed := true, remaining := ⌊tokens - cfg.token_cost⌋, wait_time := 0,
       reset_after := reset_after })
  else
    ({ tokens := tokens, last_update := now, last_access := now },
     { allowed := false, remaining := 0,
       wait_time := ⌈(cfg.token_cost - tokens) / cfg.refill_rate⌉,
       reset_after := reset_after })

/-- Lookup in the association list that models `unordered_map`. -/
def find : List (String × TokenBucket) → String → Option TokenBucket
  | [], _ => none
  | (k, b) :: rest, key => if k = key then some b else find rest key

/-- Write through the reference returned by `buckets[key]`: overwrite the
entry of `key`, or add one when there is none. -/
def store : List (String × TokenBucket) → String → TokenBucket → List (String × TokenBucket)
  | [], key, b => [(key, b)]
  | (k, b0) :: rest, key, b =>
    if k = key then (k, b) :: rest else (k, b0) :: store rest key b

/-- The `Shard` of `rate_limit_manager.hpp`; its mutex is what makes each
operation one atomic step. -/
structure Shard where
  buckets : List (String × TokenBucket)
  deriving DecidableEq

/-- The data members of `RateLimitManager` that the operations read and write. -/
structure RateLimitManager where
  cfg_ : Config
  shards_ : List Shard
  max_ips_per_shard_ : Int
  deriving DecidableEq

/-- The constructor: `shards` empty shards.  The `int` quotient
`max_ips / shards` has no value for `shards = 0`, nor for
`max_ips = INT_MIN` over `shards = -1`. -/
def RateLimitManager.new (config : Config) : Option RateLimitManager :=
  if config.shards = 0 ∨ (config.max_ips = -2147483648 ∧ config.shards = -1) then none
  else
    let per := Int.tdiv config.max_ips config.shards
    some { cfg_ := config,
           shards_ := List.replicate config.shards.toNat { buckets := [] },
           max_ips_per_shard_ := if per < 1 then 1 else per }

/-- The function `get_shard_index`: `hash(key) % shards` in `size_t` arithmetic,
the `int` divisor being converted to `size_t`. -/
def get_shard_index (m : RateLimitManager) (hash : String → Nat) (key : String) : Option Nat :=
  let d := (m.cfg_.shards % 18446744073709551616).toNat
  if d = 0 then none else some ((hash key % 18446744073709551616) % d)

/-- The function `get_shard_size`. -/
def get_shard_size (m : RateLimitManager) (index : Nat) : Nat :=
  match m.shards_[index]? with
  | none => 0
  | some shard => shard.buckets.length

/-- The function `is_allowed` at clock reading `now`, in the exact reading: the
new engine state and the four results. -/
def is_allowed (hash : String → Nat) (now : Nat) (key : String) (m : RateLimitManager) :
    Option (RateLimitManager × Outcome) :=
  match get_shard_index m hash key with
  | none => none
  | some idx =>
    match m.shards_[idx]? with
    | none => none
    | some shard =>
      let bucket := (find shard.buckets key).getD TokenBucket.value_init
      let r := bucket.check m.cfg_ now
      some ({ m with shards_ := m.shards_.set idx { buckets := store shard.buckets key r.1 } },
            r.2)

/-- The eviction test of the janitor (line 88): a nanosecond duration compared
with the millisecond `expiry_timeout`. -/
def expired (cfg : Config) (now : Nat) (bucket : TokenBucket) : Bool :=
  decide (cfg.expiry_timeout * 1000000 < (now : Int) - (bucket.last_access : Int))

/-- One sweep of `run_janitor` (lines 82-94) at clock reading `now`. -/
def janitor_sweep (now : Nat) (m : RateLimitManager) : RateLimitManager :=
  { m with shards_ := m.shards_.map fun shard =>
      { buckets := shard.buckets.filter fun kb => !expired m.cfg_ now kb.2 } }

/-- The bucket stored for `key` in shard number `idx`, if any. -/
def shard_find (m : RateLimitManager) (idx : Nat) (key : String) : Option TokenBucket :=
  match m.shards_[idx]? with
  | none => none
  | some shard => find shard.buckets key

/-- The bucket stored for `key` in the shard its hash selects, if any: what
`is_allowed` finds when it evaluates `shard->buckets[key]`. -/
def lookup (m : RateLimitManager) (hash : String → Nat) (key : String) : Option TokenBucket :=
  match get_shard_index m hash key with
  | none => none
  | some idx => shard_find m idx key

/-- The representation invariant of the engine: the shard count is a positive
`int`, the constructor built that many shards, and each map holds at most one
entry per key. -/
def RateLimitManager.valid (m : RateLimitManager) : Prop :=
  1 ≤ m.cfg_.shards ∧ m.cfg_.shards ≤ 2147483647 ∧
  m.shards_.length = m.cfg_.shards.toNat ∧
  ∀ shard ∈ m.shards_, (shard.buckets.map Prod.fst).Nodup

/-- One atomic step of a run of the engine, with the clock reading it takes. -/
inductive Event where
  | check (key : String) (now : Nat)
  | sweep (now : Nat)
  deriving DecidableEq

/-- The clock reading of a step. -/
def Event.time : Event → Nat
  | .check _ now => now
  | .sweep now => now

/-- Runs a schedule of `is_allowed` calls and janitor sweeps from state `m`:
the final state and the results of the calls, in order. -/
def run (hash : String → Nat) : List Event → RateLimitManager →
    Option (RateLimitManager × List Outcome)
  | [], m => some (m, [])
  | .check key now :: rest, m =>
    match is_allowed hash now key m with
    | none => none
    | some (m1, out) =>
      match run hash rest m1 with
      | none => none
      | some (m2, outs) => some (m2, out :: outs)
  | .sweep now :: rest, m => run hash rest (janitor_sweep now m)

/-- The test configuration `get_test_cfg` of `tests/test_limiter.cpp`. -/
def get_test_cfg : Config :=
  { max_tokens := 3, refill_rate := 10, token_cost := 1, shards := 4, max_ips := 100,
    expiry_timeout := 500, janitor_interval := 10 }

/-- A sample hash function for concrete runs: the length of the key. -/
def sample_hash (key : String) : Nat := key.length

/-- The bucket `is_allowed` works on: the stored one, or the value-initialised
one that `buckets[key]` creates. -/
def current (m : RateLimitManager) (hash : String → Nat) (key : String) : TokenBucket :=
  (lookup m hash key).getD TokenBucket.value_init

/-- The engine the tests build from `get_test_cfg`, before any call. -/
def test_manager : RateLimitManager :=
  { cfg_ := get_test_cfg, shards_ := List.replicate 4 { buckets := [] },
    max_ips_per_shard_ := 25 }

/-- The engine of `ResetTimeCalculation`: the default configuration with
`max_tokens = 10` and `refill_rate = 1`. -/
def reset_manager : RateLimitManager :=
  { cfg_ := { max_tokens := 10, refill_rate := 1 },
    shards_ := List.replicate 16 { buckets := [] }, max_ips_per_shard_ := 62500 }

/-- Closed form for a burst: the token count seen after the refill step by call
number `i + 1` of a run of back-to-back calls on a bucket that starts full.
Every admitted call has taken `token_cost`; at most `floor(max_tokens /
token_cost)` calls are admitted. -/
def burst_tokens (cfg : Config) (i : Nat) : ℚ :=
  cfg.max_tokens - ((min i ⌊cfg.max_tokens / cfg.token_cost⌋.toNat : Nat) : ℚ) * cfg.token_cost

/-- Closed form for a burst: the results of call number `i + 1`. -/
def burst_outcome (cfg : Config) (i : Nat) : Outcome :=
  if (i : ℤ) + 1 ≤ ⌊cfg.max_tokens / cfg.token_cost⌋ then
    { allowed := true, remaining := ⌊burst_tokens cfg i - cfg.token_cost⌋, wait_time := 0,
      reset_after := ⌈(cfg.max_tokens - burst_tokens cfg i) / cfg.refill_rate⌉ }
  else
    { allowed := false, remaining := 0,
      wait_time := ⌈(cfg.token_cost - burst_tokens cfg i) / cfg.refill_rate⌉,
      reset_after := ⌈(cfg.max_tokens - burst_tokens cfg i) / cfg.refill_rate⌉ }

/-- The bounds of C5 on one engine state: every bucket stored in any shard
holds between 0 and `max_tokens` tokens. -/
def tokens_in_range (m : RateLimitManager) : Prop :=
  ∀ shard ∈ m.shards_, ∀ kb ∈ shard.buckets,
    0 ≤ kb.2.tokens ∧ kb.2.tokens ≤ m.cfg_.max_tokens

/-- No stored bucket carries a `last_update` later than clock reading `t`. -/
def updated_by (m : RateLimitManager) (t : Nat) : Prop :=
  ∀ shard ∈ m.shards_, ∀ kb ∈ shard.buckets, kb.2.last_update ≤ t

/-- A short schedule on the test engine: two checks, a sweep, a check. -/
def sample_schedule : List Event :=
  [Event.check "1.1.1.1" 5000000000, Event.check "1.1.1.1" 5000000000,
   Event.sweep 5600000000, Event.check "2.2.2.2" 5700000000]

/-- The engine of `JanitorTest`: the default configuration with
`max_tokens = 10`, `refill_rate = 1`, `token_cost = 1`, `expiry_timeout` 10 ms
and `janitor_interval` 1 ms, before any call. -/
def janitor_manager : RateLimitManager :=
  { cfg_ := { max_tokens := 10, refill_rate := 1, token_cost := 1, expiry_timeout := 10,
              janitor_interval := 1 },
    shards_ := List.replicate 16 { buckets := [] }, max_ips_per_shard_ := 62500 }

/-- Every stored identity sits in the shard that `get_shard_index` names. -/
def keys_in_place (m : RateLimitManager) (hash : String → Nat) : Prop :=
  ∀ j key, shard_find m j key ≠ none → get_shard_index m hash key = some j

/-- The clock reading of the last call of a sequence that starts at `t` and
continues with `ts`. -/
def last_time : Nat → List Nat → Nat
  | t, [] => t
  | _, t1 :: ts => last_time t1 ts

/-- The engine of `ConcurrentAccess`: the test configuration with
`max_tokens = 100`, before any call. -/
def concurrent_manager : RateLimitManager :=
  { cfg_ := { get_test_cfg with max_tokens := 100 },
    shards_ := List.replicate 4 { buckets := [] }, max_ips_per_shard_ := 25 }

/-- The sizes reported by `get_shard_size`, summed over the shard indices
`0 .. shards - 1` as `ShardDistribution` does. -/
def total_size (m : RateLimitManager) : Nat :=
  ∑ i ∈ Finset.range m.cfg_.shards.toNat, get_shard_size m i

/-- A schedule of checks only: one `is_allowed` call per (identity, clock
reading) pair. -/
def checks_only (checks : List (String × Nat)) : List Event :=
  checks.map fun p => Event.check p.1 p.2

/-- The conversion `static_cast<int>` of a `double`: truncation toward zero. -/
def to_int (q : ℚ) : Int := Int.tdiv q.num q.den

/-- A parsed JSON document. -/
inductive Json where
  | null
  | bool (b : Bool)
  | int (i : Int)
  | float (q : ℚ)
  | str (s : String)
  | arr (items : List Json)
  | obj (members : List (String × Json))

/-- What `std::ifstream file(path)` followed by `file >> j` finds: no file, a
file that is not valid JSON (`parse_error`), or a document. -/
inductive ConfigFile where
  | missing
  | invalid
  | document (j : Json)

/-- Member lookup in an object's member list. -/
def Json.member : List (String × Json) → String → Option Json
  | [], _ => none
  | (k, v) :: rest, key => if k = key then some v else Json.member rest key

/-- The conversion `get<int>()`; `none` stands for a thrown `type_error`. -/
def Json.get_int : Json → Option Int
  | .int i => some (Int.bmod i 4294967296)
  | .float q => some (to_int q)
  | .bool b => some (if b then 1 else 0)
  | _ => none

/-- The conversion `get<double>()`; `none` stands for a thrown `type_error`. -/
def Json.get_double : Json → Option ℚ
  | .int i => some (i : ℚ)
  | .float q => some q
  | _ => none

/-- The call `j.value(key, default_value)` at type `int`. -/
def Json.value_int (j : Json) (key : String) (default_value : Int) : Option Int :=
  match j with
  | .obj members =>
    match Json.member members key with
    | none => some default_value
    | some v => v.get_int
  | _ => none

/-- The call `j.value(key, default_value)` at type `double`. -/
def Json.value_double (j : Json) (key : String) (default_value : ℚ) : Option ℚ :=
  match j with
  | .obj members =>
    match Json.member members key with
    | none => some default_value
    | some v => v.get_double
  | _ => none

/-- The call `j.contains(key)`. -/
def Json.contains (j : Json) (key : String) : Bool :=
  match j with
  | .obj members => (Json.member members key).isSome
  | _ => false

/-- The reference `j[key]` for a key that `contains` found. -/
def Json.at (j : Json) (key : String) : Json :=
  match j with
  | .obj members => (Json.member members key).getD Json.null
  | _ => Json.null

/-- One assignment inside the `try` block: an exception leaves the block with
the configuration as it stands (`Except.error`), a value is stored by `set`. -/
def assign {α : Type} (value : Option α) (set : α → Config) (cfg : Config) :
    Except Config Config :=
  match value with
  | none => Except.error cfg
  | some v => Except.ok (set v)

/-- The body of the `try` block of `load_from_file`, after `file >> j`. -/
def load_fields (j : Json) (cfg : Config) : Except Config Config := do
  let cfg ← assign (j.value_int "max_ips" cfg.max_ips) (fun v => { cfg with max_ips := v }) cfg
  let cfg ← assign (j.value_int "shards" cfg.shards) (fun v => { cfg with shards := v }) cfg
  if j.contains "token_bucket" then
    let tb := j.at "token_bucket"
    let cfg ← assign (tb.value_double "max_tokens" cfg.max_tokens)
      (fun v => { cfg with max_tokens := v }) cfg
    let cfg ← assign (tb.value_double "refill_rate" cfg.refill_rate)
      (fun v => { cfg with refill_rate := v }) cfg
    let cfg ← assign (tb.value_double "token_cost" cfg.token_cost)
      (fun v => { cfg with token_cost := v }) cfg
    let cfg ← if tb.contains "expiry_seconds" then
        assign (tb.at "expiry_seconds").get_int
          (fun v => { cfg with expiry_timeout := v * 1000 }) cfg
      else Except.ok cfg
    let cfg ← if tb.contains "janitor_interval_seconds" then
        assign (tb.at "janitor_interval_seconds").get_int
          (fun v => { cfg with janitor_interval := v * 1000 }) cfg
      else Except.ok cfg
    Except.ok cfg
  else Except.ok cfg

/-- The function `Config::load_from_file`; the `catch` block and the normal
exit both `return cfg`. -/
def load_from_file (file : ConfigFile) : Config :=
  let cfg : Config := {}
  match file with
  | .missing => cfg
  | .invalid => cfg
  | .document j =>
    match load_fields j cfg with
    | Except.ok loaded => loaded
    | Except.error partly => partly

/-- A configuration file whose `max_ips` is valid and whose `shards` is a
string: `{"max_ips": 5, "shards": "x"}`. -/
def bad_shards_file : ConfigFile :=
  .document (.obj [("max_ips", .int 5), ("shards", .str "x")])

/-! ### The stand-alone bucket of `token_bucket.hpp`

This header declares its own `TokenBucket`, with the admission algorithm as a
member function; the model keeps the name inside a namespace of its own. -/

namespace token_bucket_hpp

/-- The `TokenBucket` of `token_bucket.hpp`. -/
structure TokenBucket where
  current_tokens : ℚ
  last_refill_time : Nat
  last_access : Nat
  deriving DecidableEq

/-- The default constructor, run at clock reading `now`: `current_tokens` keeps
its initialiser `-1.0`. -/
def TokenBucket.new (now : Nat) : TokenBucket :=
  { current_tokens := -1, last_refill_time := now, last_access := now }

/-- The member function `allow(max_t, refill_r, requested)` at clock reading
`now`: the bucket afterwards and the returned flag. -/
def TokenBucket.allow (b : TokenBucket) (max_t refill_r requested : ℚ) (now : Nat) :
    TokenBucket × Bool :=
  let b1 : TokenBucket := { b with last_access := now }
  let b2 : TokenBucket :=
    if b1.current_tokens < 0 then
      { b1 with current_tokens := max_t, last_refill_time := now }
    else
      let tokens_to_add := elapsed_seconds now b1.last_refill_time * refill_r
      if 0 < tokens_to_add then
        { b1 with current_tokens := min max_t (b1.current_tokens + tokens_to_add),
                  last_refill_time := now }
      else b1
  let b3 : TokenBucket :=
    if max_t < b2.current_tokens then { b2 with current_tokens := max_t } else b2
  if requested ≤ b3.current_tokens then
    ({ b3 with current_tokens := b3.current_tokens - requested }, true)
  else (b3, false)

/-- One call of `allow`: the clock reading and the three arguments. -/
structure Call where
  now : Nat
  max_tokens : ℚ
  refill_rate : ℚ
  cost : ℚ

/-- The bucket of the specification's admission algorithm (section 4.1):
whether it has been used, and its three fields. -/
structure SpecBucket where
  used : Bool
  tokens : ℚ
  last_refill : Nat
  last_access : Nat
  deriving DecidableEq

/-- The six-step admission algorithm as the specification words it.
Step 1: on first use set `tokens = max_tokens`, `last_refill = now`, no refill.
Step 2: otherwise add `elapsed * refill_rate`, clamp to `max_tokens`, set
`last_refill = now`.  Step 3: clamp `tokens` to `max_tokens`.  Step 4: set
`last_access = now`.  Step 5: if `tokens ≥ cost` subtract `cost` and admit.
Step 6: else deny, leaving `tokens` unchanged. -/
def spec_allow (s : SpecBucket) (max_tokens refill_rate cost : ℚ) (now : Nat) :
    SpecBucket × Bool :=
  let s12 : SpecBucket :=
    if s.used = false then
      { s with used := true, tokens := max_tokens, last_refill := now }
    else
      { s with tokens := min max_tokens
                 (s.tokens + elapsed_seconds now s.last_refill * refill_rate),
               last_refill := now }
  let s3 : SpecBucket := { s12 with tokens := min s12.tokens max_tokens }
  let s4 : SpecBucket := { s3 with last_access := now }
  if cost ≤ s4.tokens then ({ s4 with tokens := s4.tokens - cost }, true)
  else (s4, false)

/-- A sequence of `allow` calls on one bucket: the bucket afterwards and the
returned flags. -/
def run_allow : List Call → TokenBucket → TokenBucket × List Bool
  | [], b => (b, [])
  | c :: rest, b =>
    let r := b.allow c.max_tokens c.refill_rate c.cost c.now
    let rs := run_allow rest r.1
    (rs.1, r.2 :: rs.2)

/-- The same sequence of calls through the algorithm of the specification. -/
def run_spec : List Call → SpecBucket → SpecBucket × List Bool
  | [], s => (s, [])
  | c :: rest, s =>
    let r := spec_allow s c.max_tokens c.refill_rate c.cost c.now
    let rs := run_spec rest r.1
    (rs.1, r.2 :: rs.2)

/-- A bucket of the code matches a bucket of the specification: both unused,
or both used with equal fields. -/
def matches_spec (b : TokenBucket) (s : SpecBucket) : Prop :=
  (s.used = false ∧ b.current_tokens < 0) ∨
  (s.used = true ∧ 0 ≤ b.current_tokens ∧ b.current_tokens = s.tokens ∧
    b.last_refill_time = s.last_refill ∧ b.last_access = s.last_access)

/-- Two calls with `refill_rate = 0`, at 1 s and at 5 s (`max_tokens = 10`,
`cost = 1`). -/
def zero_rate_calls : List Call :=
  [{ now := 1000000000, max_tokens := 10, refill_rate := 0, cost := 1 },
   { now := 5000000000, max_tokens := 10, refill_rate := 0, cost := 1 }]

/-- Two calls with negative `max_tokens`, lowered from -10 to -1 between them
(`refill_rate = 1`, `cost = 0`). -/
def negative_max_calls : List Call :=
  [{ now := 1000000000, max_tokens := -10, refill_rate := 1, cost := 0 },
   { now := 2000000000, max_tokens := -1, refill_rate := 1, cost := 0 }]

/-- Three ordinary calls: `max_tokens = 2`, `refill_rate = 1`, `cost = 1`, at
1 s, 1 s and 1.5 s. -/
def sample_calls : List Call :=
  [{ now := 1000000000, max_tokens := 2, refill_rate := 1, cost := 1 },
   { now := 1000000000, max_tokens := 2, refill_rate := 1, cost := 1 },
   { now := 1500000000, max_tokens := 2, refill_rate := 1, cost := 1 }]

end token_bucket_hpp

namespace token_bucket_hpp

/-- A bucket of the specification before its first use. -/
def SpecBucket.unused : SpecBucket :=
  { used := false, tokens := 0, last_refill := 0, last_access := 0 }

end token_bucket_hpp

/-! ### Binary64 arithmetic

The `double` operations of `is_allowed` as the hardware performs them: each
operation computes the exact result and rounds it to the nearest binary64
value, ties to the even significand.  The two zeros are identified (no
operation of the code tells them apart, the sign of a quotient by zero aside),
and each operation rounds on its own (no fused multiply-add). -/

/-- A `double`: a finite value, an infinity with its sign, or a NaN. -/
inductive Double where
  | fin (value : ℚ)
  | inf (negative : Bool)
  | nan
  deriving DecidableEq

/-- The nearest integer, a tie going to the even one. -/
def round_even (x : ℚ) : ℤ :=
  if x - ⌊x⌋ < 1 / 2 then ⌊x⌋
  else if 1 / 2 < x - ⌊x⌋ then ⌊x⌋ + 1
  else if ⌊x⌋ % 2 = 0 then ⌊x⌋ else ⌊x⌋ + 1

/-- The binary exponent that binary64 uses for a value of magnitude `|q|`:
`floor(log2 |q|)`, and `-1022` (the subnormal range) below `2^-1022`. -/
def Double.exponent (q : ℚ) : ℤ := max (Int.log 2 |q|) (-1022)

/-- The spacing of the binary64 values around `q`: 52 fraction bits below the
exponent. -/
def Double.ulp (q : ℚ) : ℚ := (2 : ℚ) ^ (Double.exponent q - 52)

/-- The multiple of `ulp q` nearest to `q`, ties to even. -/
def Double.nearest (q : ℚ) : ℚ := (round_even (q / Double.ulp q) : ℚ) * Double.ulp q

/-- Rounding of an exact result to binary64 (round to nearest, ties to even):
a result that rounds to `2^1024` or beyond overflows to an infinity. -/
def Double.round (q : ℚ) : Double :=
  if (2 : ℚ) ^ (1024 : ℕ) ≤ |Double.nearest q| then Double.inf (decide (q < 0))
  else Double.fin (Double.nearest q)

/-- The finite binary64 values: `m * 2^p` with a significand below `2^53` and
an exponent not below `-1074`, of magnitude below `2^1024`. -/
def Double.representable (q : ℚ) : Prop :=
  |q| < (2 : ℚ) ^ (1024 : ℕ) ∧
  ∃ m p : ℤ, |m| < 2 ^ 53 ∧ -1074 ≤ p ∧ q = (m : ℚ) * (2 : ℚ) ^ p

/-- Unary minus. -/
def Double.neg : Double → Double
  | .fin a => .fin (-a)
  | .inf s => .inf (!s)
  | .nan => .nan

/-- The sum `a + b`. -/
def Double.add : Double → Double → Double
  | .fin a, .fin b => Double.round (a + b)
  | .fin _, .inf s => .inf s
  | .inf s, .fin _ => .inf s
  | .inf s, .inf t => if s = t then .inf s else .nan
  | .nan, _ => .nan
  | _, .nan => .nan

/-- The difference `a - b`. -/
def Double.sub (a b : Double) : Double := Double.add a (Double.neg b)

/-- The product `a * b`. -/
def Double.mul : Double → Double → Double
  | .fin a, .fin b => Double.round (a * b)
  | .fin a, .inf s => if a = 0 then .nan else .inf (s != decide (a < 0))
  | .inf s, .fin b => if b = 0 then .nan else .inf (s != decide (b < 0))
  | .inf s, .inf t => .inf (s != t)
  | .nan, _ => .nan
  | _, .nan => .nan

/-- The quotient `a / b`.  A finite non-zero value over zero is an infinity,
zero over zero a NaN. -/
def Double.div : Double → Double → Double
  | .fin a, .fin b =>
    if b = 0 then (if a = 0 then .nan else .inf (decide (a < 0)))
    else Double.round (a / b)
  | .fin _, .inf _ => .fin 0
  | .inf s, .fin b => .inf (s != decide (b < 0))
  | .inf _, .inf _ => .nan
  | .nan, _ => .nan
  | _, .nan => .nan

/-- The comparison `a < b`; false when either side is a NaN. -/
def Double.lt : Double → Double → Bool
  | .fin a, .fin b => decide (a < b)
  | .fin _, .inf s => !s
  | .inf s, .fin _ => s
  | .inf s, .inf t => s && !t
  | .nan, _ => false
  | _, .nan => false

/-- The comparison `a <= b`; false when either side is a NaN. -/
def Double.le : Double → Double → Bool
  | .fin a, .fin b => decide (a ≤ b)
  | .fin _, .inf s => !s
  | .inf s, .fin _ => s
  | .inf s, .inf t => s || !t
  | .nan, _ => false
  | _, .nan => false

/-- The function `std::min(a, b)`: `b` when `b < a`, else `a`. -/
def Double.min (a b : Double) : Double := if Double.lt b a then b else a

/-- The function `std::max(a, b)`: `b` when `a < b`, else `a`. -/
def Double.max (a b : Double) : Double := if Double.lt a b then b else a

/-- The function `std::floor`. -/
def Double.floor : Double → Double
  | .fin a => .fin (⌊a⌋ : ℤ)
  | d => d

/-- The function `std::ceil`. -/
def Double.ceil : Double → Double
  | .fin a => .fin (⌈a⌉ : ℤ)
  | d => d

/-- The conversion `static_cast<int>(d)`: truncation toward zero.  For a value
outside the range of `int`, an infinity or a NaN the C++ standard defines no
result; the model returns what the x86-64 conversion instruction yields there,
`INT_MIN`. -/
def Double.to_int : Double → Int
  | .fin a =>
    if -2147483648 ≤ Int.tdiv a.num a.den ∧ Int.tdiv a.num a.den ≤ 2147483647 then
      Int.tdiv a.num a.den
    else -2147483648
  | _ => -2147483648

/-- The conversion of an integer count to `double`. -/
def Double.of_int (z : Int) : Double := Double.round z

namespace binary64

/-- The value of `std::chrono::duration<double>(now - last).count()`: the
nanosecond count converted to `double` and divided by `1e9`. -/
def elapsed_seconds (now last : Nat) : Double :=
  Double.div (Double.of_int ((now : Int) - (last : Int))) (Double.fin 1000000000)

/-- The token count after the refill step of `is_allowed` (line 54), in
binary64 arithmetic. -/
def refilled (cfg : Config) (now : Nat) (bucket : TokenBucket) : Double :=
  Double.min (Double.fin cfg.max_tokens)
    (Double.add (Double.fin bucket.tokens)
      (Double.mul (elapsed_seconds now bucket.last_update) (Double.fin cfg.refill_rate)))

/-- Lines 52-72 of `is_allowed` in binary64 arithmetic, with the conversions
to `int` of lines 60, 65 and 70.  The stored token count is a finite `double`
in every state the model describes: the result is `none` when the count would
become an infinity or a NaN. -/
def check (cfg : Config) (now : Nat) (bucket : TokenBucket) : Option (TokenBucket × Outcome) :=
  let tokens := refilled cfg now bucket
  let missing := Double.sub (Double.fin cfg.max_tokens) tokens
  let reset_after := Double.to_int (Double.ceil (Double.div missing (Double.fin cfg.refill_rate)))
  if Double.le (Double.fin cfg.token_cost) tokens then
    match Double.sub tokens (Double.fin cfg.token_cost) with
    | .fin left =>
      some ({ tokens := left, last_update := now, last_access := now },
            { allowed := true, remaining := Double.to_int (Double.floor (Double.fin left)),
              wait_time := 0, reset_after := reset_after })
    | _ => none
  else
    match tokens with
    | .fin left =>
      some ({ tokens := left, last_update := now, last_access := now },
            { allowed := false, remaining := 0,
              wait_time := Double.to_int (Double.ceil
                (Double.div (Double.sub (Double.fin cfg.token_cost) tokens)
                  (Double.fin cfg.refill_rate))),
              reset_after := reset_after })
    | _ => none

/-- The function `is_allowed` at clock reading `now`, in binary64 arithmetic:
the new engine state and the four results. -/
def is_allowed (hash : String → Nat) (now : Nat) (key : String) (m : RateLimitManager) :
    Option (RateLimitManager × Outcome) :=
  match get_shard_index m hash key with
  | none => none
  | some idx =>
    match m.shards_[idx]? with
    | none => none
    | some shard =>
      match check m.cfg_ now ((find shard.buckets key).getD TokenBucket.value_init) with
      | none => none
      | some r =>
        some ({ m with shards_ := m.shards_.set idx (Shard.mk (store shard.buckets key r.1)) },
              r.2)

/-- Runs a schedule of `is_allowed` calls and janitor sweeps from state `m`, in
binary64 arithmetic. -/
def run (hash : String → Nat) : List Event → RateLimitManager →
    Option (RateLimitManager × List Outcome)
  | [], m => some (m, [])
  | .check key now :: rest, m =>
    match is_allowed hash now key m with
    | none => none
    | some (m1, out) =>
      match run hash rest m1 with
      | none => none
      | some (m2, outs) => some (m2, out :: outs)
  | .sweep now :: rest, m => run hash rest (janitor_sweep now m)

end binary64

namespace token_bucket_hpp

/-- The `const` member function `get_tokens_remaining`:
`static_cast<int>(std::max(0.0, std::floor(current_tokens)))`. -/
def TokenBucket.get_tokens_remaining (b : TokenBucket) : Int :=
  Double.to_int (Double.max (Double.fin 0) (Double.floor (Double.fin b.current_tokens)))

/-- The `const` member function `seconds_until_next(refill_rate, cost)`, in
binary64 arithmetic. -/
def TokenBucket.seconds_until_next (b : TokenBucket) (refill_rate cost : ℚ) : Double :=
  if Double.le (Double.fin cost) (Double.fin b.current_tokens) then Double.fin 0
  else Double.div (Double.sub (Double.fin cost) (Double.fin b.current_tokens))
    (Double.fin refill_rate)

/-- A call of one of the two read-only queries. -/
inductive Query where
  | get_tokens_remaining
  | seconds_until_next (refill_rate cost : ℚ)

/-- What a query returns: an `int` or a `double`. -/
inductive Answer where
  | count (n : Int)
  | seconds (q : Double)
  deriving DecidableEq

/-- One query on a bucket: the bucket afterwards and the answer.  Both member
functions are `const`, so the bucket is handed back as it was. -/
def ask (b : TokenBucket) : Query → TokenBucket × Answer
  | .get_tokens_remaining => (b, Answer.count b.get_tokens_remaining)
  | .seconds_until_next refill_rate cost =>
    (b, Answer.seconds (b.seconds_until_next refill_rate cost))

/-- A sequence of queries with no `allow` in between: the bucket afterwards and
the answers. -/
def run_queries : List Query → TokenBucket → TokenBucket × List Answer
  | [], b => (b, [])
  | q :: rest, b =>
    let r := ask b q
    let rs := run_queries rest r.1
    (rs.1, r.2 :: rs.2)

end token_bucket_hpp

/-- The engine built from the default configuration of `config.hpp`
(`max_tokens = 100`, `refill_rate = 10`, `token_cost = 1`, 16 shards), before
any call. -/
def default_manager : RateLimitManager :=
  { cfg_ := {}, shards_ := List.replicate 16 { buckets := [] }, max_ips_per_shard_ := 62500 }

/-- The test engine with `max_tokens = 3000000000` and `refill_rate = 1`. -/
def wide_manager : RateLimitManager :=
  { cfg_ := { get_test_cfg with max_tokens := 3000000000, refill_rate := 1 },
    shards_ := List.replicate 4 { buckets := [] }, max_ips_per_shard_ := 25 }

/-- The test engine with `token_cost = 2500000000` and `refill_rate = 1`. -/
def costly_manager : RateLimitManager :=
  { cfg_ := { get_test_cfg with token_cost := 2500000000, refill_rate := 1 },
    shards_ := List.replicate 4 { buckets := [] }, max_ips_per_shard_ := 25 }

/-- The test engine with `token_cost = 0.6`: the `double` nearest to 0.6 is
`5404319552844595 / 2^53`. -/
def fraction_manager : RateLimitManager :=
  { cfg_ := { get_test_cfg with token_cost := 5404319552844595 / 9007199254740992 },
    shards_ := List.replicate 4 { buckets := [] }, max_ips_per_shard_ := 25 }

theorem find_store_self (l : List (String × TokenBucket)) (key : String) (b : TokenBucket) :
    find (store l key b) key = some b := by
  induction l with
  | nil => simp [store, find]
  | cons hd tl ih =>
    obtain ⟨k, b0⟩ := hd
    by_cases h : k = key
    · simp [store, find, h]
    · simp [store, find, h, ih]

theorem find_store_ne (l : List (String × TokenBucket)) (key other : String) (b : TokenBucket)
    (hne : other ≠ key) : find (store l key b) other = find l other := by
  induction l with
  | nil => simp [store, find, Ne.symm hne]
  | cons hd tl ih =>
    obtain ⟨k, b0⟩ := hd
    by_cases h : k = key
    · subst h
      simp [store, find, Ne.symm hne]
    · by_cases h2 : k = other
      · subst h2
        simp [store, find, h]
      · simp [store, find, h, h2, ih]

theorem mem_store (l : List (String × TokenBucket)) (key : String) (b : TokenBucket)
    (x : String × TokenBucket) (hx : x ∈ store l key b) : x = (key, b) ∨ x ∈ l := by
  induction l with
  | nil => simpa [store] using hx
  | cons hd tl ih =>
    obtain ⟨k, b0⟩ := hd
    by_cases h : k = key
    · subst h
      simp only [store, if_true, List.mem_cons] at hx
      rcases hx with hx | hx
      · exact Or.inl hx
      · exact Or.inr (List.mem_cons_of_mem _ hx)
    · simp only [store, h, if_false, List.mem_cons] at hx
      rcases hx with hx | hx
      · exact Or.inr (by simp [hx])
      · rcases ih hx with h1 | h1
        · exact Or.inl h1
        · exact Or.inr (List.mem_cons_of_mem _ h1)

theorem find_eq_none_iff (l : List (String × TokenBucket)) (key : String) :
    find l key = none ↔ key ∉ l.map Prod.fst := by
  induction l with
  | nil => simp [find]
  | cons hd tl ih =>
    obtain ⟨k, b0⟩ := hd
    by_cases h : k = key
    · simp [find, h]
    · simp [find, h, ih, Ne.symm h]

theorem keys_store (l : List (String × TokenBucket)) (key : String) (b : TokenBucket) :
    (store l key b).map Prod.fst =
      if key ∈ l.map Prod.fst then l.map Prod.fst else l.map Prod.fst ++ [key] := by
  induction l with
  | nil => simp [store]
  | cons hd tl ih =>
    obtain ⟨k, b0⟩ := hd
    by_cases h : k = key
    · simp [store, h]
    · simp only [store, h, if_false, List.map_cons, ih, List.mem_cons, Ne.symm h, false_or]
      split <;> simp

theorem nodup_keys_store (l : List (String × TokenBucket)) (key : String) (b : TokenBucket)
    (h : (l.map Prod.fst).Nodup) : ((store l key b).map Prod.fst).Nodup := by
  rw [keys_store]
  split
  · exact h
  · rename_i hk
    exact List.Nodup.append h (by simp) (by simpa using hk)

theorem length_store (l : List (String × TokenBucket)) (key : String) (b : TokenBucket) :
    (store l key b).length = if find l key = none then l.length + 1 else l.length := by
  induction l with
  | nil => simp [store, find]
  | cons hd tl ih =>
    obtain ⟨k, b0⟩ := hd
    by_cases h : k = key
    · simp [store, find, h]
    · simp only [store, find, h, if_false, List.length_cons, ih]
      split <;> rfl

theorem find_filter (l : List (String × TokenBucket)) (key : String) (q : TokenBucket → Bool)
    (h : (l.map Prod.fst).Nodup) :
    find (l.filter fun kb => q kb.2) key = (find l key).filter q := by
  induction l with
  | nil => simp [find]
  | cons hd tl ih =>
    obtain ⟨k, b0⟩ := hd
    have hnd : k ∉ tl.map Prod.fst ∧ (tl.map Prod.fst).Nodup := by simpa using h
    by_cases hk : k = key
    · subst hk
      by_cases hq : q b0 = true
      · simp [List.filter, find, hq, Option.filter]
      · have hnone : find tl k = none := (find_eq_none_iff tl k).2 hnd.1
        simp [List.filter, find, hq, Option.filter, ih hnd.2, hnone]
    · by_cases hq : q b0 = true
      · simp [List.filter, find, hq, hk, ih hnd.2]
      · simp [List.filter, find, hq, hk, ih hnd.2]

/-! ## One call of `is_allowed` -/

theorem get_shard_index_valid (m : RateLimitManager) (hash : String → Nat) (key : String)
    (hv : m.valid) :
    ∃ idx, get_shard_index m hash key = some idx ∧ idx < m.shards_.length := by
  obtain ⟨h1, h2, h3, _⟩ := hv
  have hd : (m.cfg_.shards % 18446744073709551616).toNat = m.cfg_.shards.toNat := by
    rw [Int.emod_eq_of_lt (by omega) (by omega)]
  refine ⟨(hash key % 18446744073709551616) % m.cfg_.shards.toNat, ?_, ?_⟩
  · unfold get_shard_index
    simp only [hd]
    rw [if_neg (by omega)]
  · rw [h3]
    exact Nat.mod_lt _ (by omega)

theorem is_allowed_inv (hash : String → Nat) (now : Nat) (key : String)
    (m m1 : RateLimitManager) (o : Outcome) (h : is_allowed hash now key m = some (m1, o)) :
    ∃ idx shard, get_shard_index m hash key = some idx ∧ m.shards_[idx]? = some shard ∧
      m1 = { m with shards_ := m.shards_.set idx (Shard.mk
              (store shard.buckets key ((current m hash key).check m.cfg_ now).1)) } ∧
      o = ((current m hash key).check m.cfg_ now).2 := by
  unfold is_allowed at h
  split at h
  · exact absurd h (by simp)
  · rename_i idx hidx
    split at h
    · exact absurd h (by simp)
    · rename_i shard hsh
      have hcur : current m hash key = (find shard.buckets key).getD TokenBucket.value_init := by
        simp [current, lookup, shard_find, hidx, hsh]
      simp only [Option.some.injEq, Prod.mk.injEq] at h
      exact ⟨idx, shard, hidx, hsh, by rw [hcur]; exact h.1.symm, by rw [hcur]; exact h.2.symm⟩

theorem is_allowed_defined (hash : String → Nat) (now : Nat) (key : String)
    (m : RateLimitManager) (hv : m.valid) :
    ∃ m1 o, is_allowed hash now key m = some (m1, o) := by
  obtain ⟨idx, hidx, hlt⟩ := get_shard_index_valid m hash key hv
  have hsh : m.shards_[idx]? = some (m.shards_[idx]) := List.getElem?_eq_getElem hlt
  unfold is_allowed
  simp only [hidx, hsh]
  exact ⟨_, _, rfl⟩

theorem is_allowed_outcome (hash : String → Nat) (now : Nat) (key : String)
    (m m1 : RateLimitManager) (o : Outcome) (h : is_allowed hash now key m = some (m1, o)) :
    o = ((current m hash key).check m.cfg_ now).2 := by
  obtain ⟨_, _, _, _, _, ho⟩ := is_allowed_inv hash now key m m1 o h
  exact ho

theorem is_allowed_cfg (hash : String → Nat) (now : Nat) (key : String)
    (m m1 : RateLimitManager) (o : Outcome) (h : is_allowed hash now key m = some (m1, o)) :
    m1.cfg_ = m.cfg_ := by
  obtain ⟨_, _, _, _, hm, _⟩ := is_allowed_inv hash now key m m1 o h
  rw [hm]

theorem is_allowed_index (hash : String → Nat) (now : Nat) (key other : String)
    (m m1 : RateLimitManager) (o : Outcome) (h : is_allowed hash now key m = some (m1, o)) :
    get_shard_index m1 hash other = get_shard_index m hash other := by
  unfold get_shard_index
  rw [is_allowed_cfg hash now key m m1 o h]

theorem is_allowed_length (hash : String → Nat) (now : Nat) (key : String)
    (m m1 : RateLimitManager) (o : Outcome) (h : is_allowed hash now key m = some (m1, o)) :
    m1.shards_.length = m.shards_.length := by
  obtain ⟨_, _, _, _, hm, _⟩ := is_allowed_inv hash now key m m1 o h
  rw [hm]
  simp

theorem is_allowed_lookup_self (hash : String → Nat) (now : Nat) (key : String)
    (m m1 : RateLimitManager) (o : Outcome) (h : is_allowed hash now key m = some (m1, o)) :
    lookup m1 hash key = some ((current m hash key).check m.cfg_ now).1 := by
  obtain ⟨idx, shard, hidx, hsh, hm, _⟩ := is_allowed_inv hash now key m m1 o h
  have hlt : idx < m.shards_.length := by
    rcases Nat.lt_or_ge idx m.shards_.length with hlt | hge
    · exact hlt
    · rw [List.getElem?_eq_none hge] at hsh
      exact absurd hsh (by simp)
  unfold lookup
  rw [is_allowed_index hash now key key m m1 o h, hidx]
  simp only [shard_find, hm, List.getElem?_set_self hlt, find_store_self]

theorem is_allowed_frame (hash : String → Nat) (now : Nat) (key other : String)
    (m m1 : RateLimitManager) (o : Outcome) (h : is_allowed hash now key m = some (m1, o))
    (hne : other ≠ key) (j : Nat) :
    shard_find m1 j other = shard_find m j other := by
  obtain ⟨idx, shard, hidx, hsh, hm, _⟩ := is_allowed_inv hash now key m m1 o h
  by_cases hj : idx = j
  · subst hj
    have hlt : idx < m.shards_.length := by
      rcases Nat.lt_or_ge idx m.shards_.length with hlt | hge
      · exact hlt
      · rw [List.getElem?_eq_none hge] at hsh
        exact absurd hsh (by simp)
    simp only [shard_find, hm, List.getElem?_set_self hlt, hsh, find_store_ne _ _ _ _ hne]
  · simp only [shard_find, hm, List.getElem?_set_ne hj]

theorem is_allowed_frame_lookup (hash : String → Nat) (now : Nat) (key other : String)
    (m m1 : RateLimitManager) (o : Outcome) (h : is_allowed hash now key m = some (m1, o))
    (hne : other ≠ key) :
    lookup m1 hash other = lookup m hash other := by
  unfold lookup
  rw [is_allowed_index hash now key other m m1 o h]
  cases get_shard_index m hash other with
  | none => rfl
  | some j => exact is_allowed_frame hash now key other m m1 o h hne j

theorem is_allowed_mem (hash : String → Nat) (now : Nat) (key : String)
    (m m1 : RateLimitManager) (o : Outcome) (h : is_allowed hash now key m = some (m1, o))
    (shard1 : Shard) (hs : shard1 ∈ m1.shards_) (kb : String × TokenBucket)
    (hkb : kb ∈ shard1.buckets) :
    kb = (key, ((current m hash key).check m.cfg_ now).1) ∨
      ∃ shard ∈ m.shards_, kb ∈ shard.buckets := by
  obtain ⟨idx, shard, hidx, hsh, hm, _⟩ := is_allowed_inv hash now key m m1 o h
  rw [hm] at hs
  rcases List.mem_or_eq_of_mem_set hs with hs | hs
  · exact Or.inr ⟨shard1, hs, hkb⟩
  · rw [hs] at hkb
    rcases mem_store _ _ _ _ hkb with hx | hx
    · exact Or.inl hx
    · exact Or.inr ⟨shard, List.getElem?_mem hsh, hx⟩

theorem is_allowed_valid (hash : String → Nat) (now : Nat) (key : String)
    (m m1 : RateLimitManager) (o : Outcome) (h : is_allowed hash now key m = some (m1, o))
    (hv : m.valid) : m1.valid := by
  obtain ⟨idx, shard, hidx, hsh, hm, _⟩ := is_allowed_inv hash now key m m1 o h
  obtain ⟨h1, h2, h3, h4⟩ := hv
  refine ⟨?_, ?_, ?_, ?_⟩
  · rw [hm]; exact h1
  · rw [hm]; exact h2
  · rw [hm]; simpa using h3
  · intro s hs
    rw [hm] at hs
    rcases List.mem_or_eq_of_mem_set hs with hs | hs
    · exact h4 s hs
    · rw [hs]
      exact nodup_keys_store _ _ _ (h4 shard (List.getElem?_mem hsh))

theorem is_allowed_check (hash : String → Nat) (now : Nat) (key : String)
    (m : RateLimitManager) (hv : m.valid) :
    ∃ m1, is_allowed hash now key m = some (m1, ((current m hash key).check m.cfg_ now).2) ∧
      lookup m1 hash key = some ((current m hash key).check m.cfg_ now).1 ∧
      m1.cfg_ = m.cfg_ ∧ m1.valid := by
  obtain ⟨m1, o, h⟩ := is_allowed_defined hash now key m hv
  have ho := is_allowed_outcome hash now key m m1 o h
  subst ho
  exact ⟨m1, h, is_allowed_lookup_self hash now key m m1 _ h,
    is_allowed_cfg hash now key m m1 _ h, is_allowed_valid hash now key m m1 _ h hv⟩

theorem new_valid (config : Config) (m : RateLimitManager) (h1 : 1 ≤ config.shards)
    (h2 : config.shards ≤ 2147483647) (h : RateLimitManager.new config = some m) :
    m.valid ∧ m.cfg_ = config ∧ ∀ shard ∈ m.shards_, shard.buckets = [] := by
  unfold RateLimitManager.new at h
  rw [if_neg (by omega)] at h
  simp only [Option.some.injEq] at h
  subst h
  refine ⟨⟨h1, h2, by simp, ?_⟩, rfl, ?_⟩
  · intro shard hs
    rw [List.eq_of_mem_replicate hs]
    simp
  · intro shard hs
    rw [List.eq_of_mem_replicate hs]

/-! ## The bucket step -/

theorem refilled_le_max (cfg : Config) (now : Nat) (b : TokenBucket) :
    refilled cfg now b ≤ cfg.max_tokens := min_le_left _ _

theorem check_when_admitted (cfg : Config) (now : Nat) (b : TokenBucket)
    (h : cfg.token_cost ≤ refilled cfg now b) :
    b.check cfg now =
      ({ tokens := refilled cfg now b - cfg.token_cost, last_update := now, last_access := now },
       { allowed := true, remaining := ⌊refilled cfg now b - cfg.token_cost⌋, wait_time := 0,
         reset_after := ⌈(cfg.max_tokens - refilled cfg now b) / cfg.refill_rate⌉ }) := by
  unfold TokenBucket.check
  simp [h]

theorem check_when_denied (cfg : Config) (now : Nat) (b : TokenBucket)
    (h : refilled cfg now b < cfg.token_cost) :
    b.check cfg now =
      ({ tokens := refilled cfg now b, last_update := now, last_access := now },
       { allowed := false, remaining := 0,
         wait_time := ⌈(cfg.token_cost - refilled cfg now b) / cfg.refill_rate⌉,
         reset_after := ⌈(cfg.max_tokens - refilled cfg now b) / cfg.refill_rate⌉ }) := by
  unfold TokenBucket.check
  simp [not_le.2 h]

theorem check_times (cfg : Config) (now : Nat) (b : TokenBucket) :
    (b.check cfg now).1.last_update = now ∧ (b.check cfg now).1.last_access = now := by
  unfold TokenBucket.check
  by_cases h : cfg.token_cost ≤ refilled cfg now b <;> simp [h]

theorem check_reset_after (cfg : Config) (now : Nat) (b : TokenBucket) :
    (b.check cfg now).2.reset_after =
      ⌈(cfg.max_tokens - refilled cfg now b) / cfg.refill_rate⌉ := by
  unfold TokenBucket.check
  by_cases h : cfg.token_cost ≤ refilled cfg now b <;> simp [h]

theorem test_manager_valid : test_manager.valid := by
  refine ⟨by decide, by decide, by decide, by decide⟩

/-! ## Back-to-back calls on a full bucket -/

theorem burst_tokens_le_max (cfg : Config) (i : Nat) (hcost : 0 < cfg.token_cost) :
    burst_tokens cfg i ≤ cfg.max_tokens := by
  unfold burst_tokens
  have h : (0 : ℚ) ≤ ((min i ⌊cfg.max_tokens / cfg.token_cost⌋.toNat : Nat) : ℚ) :=
    Nat.cast_nonneg _
  nlinarith [mul_nonneg h (le_of_lt hcost)]

theorem burst_admit_iff (cfg : Config) (i : Nat) (hcost : 0 < cfg.token_cost) :
    cfg.token_cost ≤ burst_tokens cfg i ↔ (i : ℤ) + 1 ≤ ⌊cfg.max_tokens / cfg.token_cost⌋ := by
  unfold burst_tokens
  constructor
  · intro h
    by_contra hn
    have hn : ⌊cfg.max_tokens / cfg.token_cost⌋ < (i : ℤ) + 1 := not_le.1 hn
    have hlt : cfg.max_tokens / cfg.token_cost < (⌊cfg.max_tokens / cfg.token_cost⌋ : ℚ) + 1 :=
      Int.lt_floor_add_one _
    rw [div_lt_iff₀ hcost] at hlt
    rcases le_or_lt 0 ⌊cfg.max_tokens / cfg.token_cost⌋ with hF | hF
    · have hmin : min i ⌊cfg.max_tokens / cfg.token_cost⌋.toNat
          = ⌊cfg.max_tokens / cfg.token_cost⌋.toNat := by
        apply min_eq_right
        omega
      have hcast : ((⌊cfg.max_tokens / cfg.token_cost⌋.toNat : Nat) : ℚ)
          = ((⌊cfg.max_tokens / cfg.token_cost⌋ : ℤ) : ℚ) := by
        have : ((⌊cfg.max_tokens / cfg.token_cost⌋.toNat : Nat) : ℤ)
            = ⌊cfg.max_tokens / cfg.token_cost⌋ := Int.toNat_of_nonneg hF
        exact_mod_cast this
      rw [hmin, hcast] at h
      linarith
    · have hmin : min i ⌊cfg.max_tokens / cfg.token_cost⌋.toNat = 0 := by
        have : ⌊cfg.max_tokens / cfg.token_cost⌋.toNat = 0 := by omega
        rw [this]
        exact Nat.min_zero _
      rw [hmin] at h
      have hF' : ((⌊cfg.max_tokens / cfg.token_cost⌋ : ℤ) : ℚ) + 1 ≤ 0 := by
        have : ⌊cfg.max_tokens / cfg.token_cost⌋ + 1 ≤ 0 := by omega
        exact_mod_cast this
      have : (⌊cfg.max_tokens / cfg.token_cost⌋ + 1 : ℚ) * cfg.token_cost ≤ 0 :=
        mul_nonpos_of_nonpos_of_nonneg hF' (le_of_lt hcost)
      simp only [Nat.cast_zero, zero_mul, sub_zero] at h
      linarith
  · intro h
    have hmin : min i ⌊cfg.max_tokens / cfg.token_cost⌋.toNat = i := by
      apply min_eq_left
      omega
    rw [hmin]
    have h' : (((i : ℤ) + 1 : ℤ) : ℚ) ≤ cfg.max_tokens / cfg.token_cost := Int.le_floor.1 h
    rw [le_div_iff₀ hcost] at h'
    push_cast at h'
    linarith

theorem burst_tokens_succ (cfg : Config) (i : Nat) :
    burst_tokens cfg (i + 1) =
      if (i : ℤ) + 1 ≤ ⌊cfg.max_tokens / cfg.token_cost⌋ then burst_tokens cfg i - cfg.token_cost
      else burst_tokens cfg i := by
  unfold burst_tokens
  split
  · rename_i h
    have h1 : min i ⌊cfg.max_tokens / cfg.token_cost⌋.toNat = i := by
      apply min_eq_left
      omega
    have h2 : min (i + 1) ⌊cfg.max_tokens / cfg.token_cost⌋.toNat = i + 1 := by
      apply min_eq_left
      omega
    rw [h1, h2]
    push_cast
    ring
  · rename_i h
    have h1 : min i ⌊cfg.max_tokens / cfg.token_cost⌋.toNat
        = ⌊cfg.max_tokens / cfg.token_cost⌋.toNat := by
      apply min_eq_right
      omega
    have h2 : min (i + 1) ⌊cfg.max_tokens / cfg.token_cost⌋.toNat
        = ⌊cfg.max_tokens / cfg.token_cost⌋.toNat := by
      apply min_eq_right
      omega
    rw [h1, h2]

theorem check_at_burst (cfg : Config) (now : Nat) (b : TokenBucket) (i : Nat)
    (hcost : 0 < cfg.token_cost) (h : refilled cfg now b = burst_tokens cfg i) :
    (b.check cfg now).2 = burst_outcome cfg i ∧
    refilled cfg now (b.check cfg now).1 = burst_tokens cfg (i + 1) := by
  have hmax := burst_tokens_le_max cfg (i + 1) hcost
  rw [burst_tokens_succ] at hmax ⊢
  unfold burst_outcome
  by_cases hi : (i : ℤ) + 1 ≤ ⌊cfg.max_tokens / cfg.token_cost⌋
  · have hle : cfg.token_cost ≤ refilled cfg now b := by
      rw [h]; exact (burst_admit_iff cfg i hcost).2 hi
    rw [check_when_admitted _ _ _ hle, if_pos hi, if_pos hi, h]
    rw [if_pos hi] at hmax
    refine ⟨rfl, ?_⟩
    simp only [refilled, elapsed_seconds, sub_self, zero_div, zero_mul, add_zero]
    exact min_eq_right hmax
  · have hlt : refilled cfg now b < cfg.token_cost := by
      rw [h]; exact not_le.1 (fun hc => hi ((burst_admit_iff cfg i hcost).1 hc))
    rw [check_when_denied _ _ _ hlt, if_neg hi, if_neg hi, h]
    rw [if_neg hi] at hmax
    refine ⟨rfl, ?_⟩
    simp only [refilled, elapsed_seconds, sub_self, zero_div, zero_mul, add_zero]
    exact min_eq_right hmax

theorem run_burst (hash : String → Nat) (now : Nat) (key : String) (n : Nat) :
    ∀ (i : Nat) (m : RateLimitManager), m.valid → 0 < m.cfg_.token_cost →
      refilled m.cfg_ now (current m hash key) = burst_tokens m.cfg_ i →
      ∃ m1, run hash (List.replicate n (Event.check key now)) m
        = some (m1, (List.range' i n).map (burst_outcome m.cfg_)) := by
  induction n with
  | zero =>
    intro i m _ _ _
    exact ⟨m, rfl⟩
  | succ n ih =>
    intro i m hv hcost hst
    obtain ⟨m1, h, hl, hcfg, hv1⟩ := is_allowed_check hash now key m hv
    obtain ⟨ho, hnext⟩ := check_at_burst m.cfg_ now (current m hash key) i hcost hst
    have hcur1 : current m1 hash key = ((current m hash key).check m.cfg_ now).1 := by
      simp [current, hl]
    obtain ⟨m2, h2⟩ := ih (i + 1) m1 hv1 (by rw [hcfg]; exact hcost)
      (by rw [hcur1, hcfg]; exact hnext)
    refine ⟨m2, ?_⟩
    rw [List.replicate_succ, List.range'_succ, List.map_cons]
    simp only [run, h, h2, ho, hcfg]

/-! ## The closed form of a burst -/

theorem burst_outcome_view (cfg : Config) (i : Nat) :
    ((burst_outcome cfg i).allowed, (burst_outcome cfg i).remaining) =
      if (i : ℤ) + 1 ≤ ⌊cfg.max_tokens / cfg.token_cost⌋ then
        (true, ⌊cfg.max_tokens - ((i : ℚ) + 1) * cfg.token_cost⌋)
      else (false, 0) := by
  unfold burst_outcome
  split
  · rename_i h
    have h1 : min i ⌊cfg.max_tokens / cfg.token_cost⌋.toNat = i := by
      apply min_eq_left
      omega
    have h2 : burst_tokens cfg i - cfg.token_cost
        = cfg.max_tokens - ((i : ℚ) + 1) * cfg.token_cost := by
      unfold burst_tokens
      rw [h1]
      ring
    simp only [h2]
  · rfl

/-! ## C9: the reset time after a burst -/

/-- C9, evaluated on the code.  In the scenario of `ResetTimeCalculation`
(`max_tokens = 10`, `refill_rate = 1`, `token_cost = 1`), five back-to-back
calls on a bucket that starts full are all admitted and return `reset_after`
0, 1, 2, 3, 4: the fifth call returns 4, not 5, because `reset_after` is
computed before the call's own token is taken. -/
theorem reset_after_five_calls :
    ∃ m1 outs, run sample_hash (List.replicate 5 (Event.check "reset_user" 50000000000))
        reset_manager = some (m1, outs) ∧
      outs.map (fun o => o.allowed) = [true, true, true, true, true] ∧
      outs.map (fun o => o.reset_after) = [0, 1, 2, 3, 4] := by
  have hv : reset_manager.valid := by
    refine ⟨by decide, by decide, by decide, by decide⟩
  have hn : lookup reset_manager sample_hash "reset_user" = none := by decide
  have hcur : current reset_manager sample_hash "reset_user" = TokenBucket.value_init := by
    simp [current, hn]
  have hm : reset_manager.cfg_.max_tokens = 10 := rfl
  have hc : reset_manager.cfg_.token_cost = 1 := rfl
  have hr : reset_manager.cfg_.refill_rate = 1 := rfl
  have h0 : refilled reset_manager.cfg_ 50000000000 (current reset_manager sample_hash "reset_user")
      = burst_tokens reset_manager.cfg_ 0 := by
    rw [hcur]
    norm_num [refilled, burst_tokens, hm, elapsed_seconds, TokenBucket.value_init, hr]
  obtain ⟨m1, h⟩ := run_burst sample_hash 50000000000 "reset_user" 5 0 reset_manager hv
    (by rw [hc]; norm_num) h0
  refine ⟨m1, _, h, ?_, ?_⟩
  · norm_num [List.range', burst_outcome, hm, hc]
  · have hF : ⌊(10 : ℚ)⌋.toNat = 10 := by
      have : ⌊(10 : ℚ)⌋ = 10 := by rw [Int.floor_eq_iff]; norm_num
      rw [this]; rfl
    norm_num [List.range', burst_outcome, burst_tokens, hm, hc, hr, hF]

/-! ## Recovery after a denial in exact arithmetic -/

/-- C4.  For two distinct identities `A` and `B`, a call `is_allowed(A)` leaves
the entry of `B` in every shard as it was: the same bucket if `B` was stored
there, still absent if it was not, also when `A` and `B` select the same
shard.  Hence a later `is_allowed(B)` returns the same results as it would
have returned had `A` not been checked. -/
theorem identity_isolation (hash : String → Nat) (tA tB : Nat) (A B : String)
    (m : RateLimitManager) (hv : m.valid) (hne : A ≠ B) :
    ∃ m1 oA, is_allowed hash tA A m = some (m1, oA) ∧
      (∀ j, shard_find m1 j B = shard_find m j B) ∧
      lookup m1 hash B = lookup m hash B ∧
      ∃ m2 m3 oB, is_allowed hash tB B m1 = some (m2, oB) ∧
        is_allowed hash tB B m = some (m3, oB) := by
  obtain ⟨m1, hA, _, hcfg, hv1⟩ := is_allowed_check hash tA A m hv
  have hfr := is_allowed_frame_lookup hash tA A B m m1 _ hA (Ne.symm hne)
  obtain ⟨m2, hB1, _⟩ := is_allowed_check hash tB B m1 hv1
  obtain ⟨m3, hB, _⟩ := is_allowed_check hash tB B m hv
  have hcur : current m1 hash B = current m hash B := by
    unfold current
    rw [hfr]
  rw [hcur, hcfg] at hB1
  exact ⟨m1, _, hA, fun j => is_allowed_frame hash tA A B m m1 _ hA (Ne.symm hne) j, hfr,
    m2, m3, _, hB1, hB⟩

/-- Witness for C4: "User_A" and "User_B" of `UserIsolation`, which select the
same shard under the sample hash. -/
theorem identity_isolation_witness :
    test_manager.valid ∧ "User_A" ≠ "User_B" ∧
    get_shard_index test_manager sample_hash "User_A"
      = get_shard_index test_manager sample_hash "User_B" ∧
    ∃ m1 oA, is_allowed sample_hash 5000000000 "User_A" test_manager = some (m1, oA) ∧
      (∀ j, shard_find m1 j "User_B" = shard_find test_manager j "User_B") ∧
      lookup m1 sample_hash "User_B" = lookup test_manager sample_hash "User_B" ∧
      ∃ m2 m3 oB, is_allowed sample_hash 5000000001 "User_B" m1 = some (m2, oB) ∧
        is_allowed sample_hash 5000000001 "User_B" test_manager = some (m3, oB) :=
  ⟨test_manager_valid, by decide, by decide,
    identity_isolation sample_hash 5000000000 5000000001 "User_A" "User_B" test_manager
      test_manager_valid (by decide)⟩

/-! ## C10: the janitor sweep -/

theorem sweep_shard_find (s : Nat) (m : RateLimitManager) (hv : m.valid) (j : Nat)
    (key : String) :
    shard_find (janitor_sweep s m) j key
      = (shard_find m j key).filter (fun b => !expired m.cfg_ s b) := by
  unfold shard_find janitor_sweep
  simp only [List.getElem?_map]
  cases hsh : m.shards_[j]? with
  | none => simp [Option.filter]
  | some shard =>
    simp only [Option.map_some']
    exact find_filter shard.buckets key (fun b => !expired m.cfg_ s b)
      (hv.2.2.2 shard (List.getElem?_mem hsh))

theorem sweep_lookup (hash : String → Nat) (s : Nat) (m : RateLimitManager) (hv : m.valid)
    (key : String) :
    lookup (janitor_sweep s m) hash key
      = (lookup m hash key).filter (fun b => !expired m.cfg_ s b) := by
  unfold lookup
  have hidx : get_shard_index (janitor_sweep s m) hash key = get_shard_index m hash key := rfl
  rw [hidx]
  cases get_shard_index m hash key with
  | none => simp [Option.filter]
  | some j => exact sweep_shard_find s m hv j key

theorem sweep_valid (s : Nat) (m : RateLimitManager) (hv : m.valid) :
    (janitor_sweep s m).valid := by
  obtain ⟨h1, h2, h3, h4⟩ := hv
  refine ⟨h1, h2, by simpa [janitor_sweep] using h3, ?_⟩
  intro shard hs
  simp only [janitor_sweep, List.mem_map] at hs
  obtain ⟨shard0, hs0, rfl⟩ := hs
  exact ((h4 shard0 hs0).sublist (List.Sublist.map _ (List.filter_sublist _)))

theorem find_mem (l : List (String × TokenBucket)) (key : String) (b : TokenBucket)
    (h : find l key = some b) : (key, b) ∈ l := by
  induction l with
  | nil => simp [find] at h
  | cons hd tl ih =>
    obtain ⟨k, b0⟩ := hd
    by_cases hk : k = key
    · simp only [find, hk, if_true, Option.some.injEq] at h
      simp [hk, h]
    · simp only [find, hk, if_false] at h
      exact List.mem_cons_of_mem _ (ih h)

theorem current_cases (m : RateLimitManager) (hash : String → Nat) (key : String) :
    current m hash key = TokenBucket.value_init ∨
      ∃ shard ∈ m.shards_, (key, current m hash key) ∈ shard.buckets := by
  unfold current
  cases hl : lookup m hash key with
  | none => exact Or.inl rfl
  | some b =>
    right
    unfold lookup at hl
    cases hidx : get_shard_index m hash key with
    | none => rw [hidx] at hl; exact absurd hl (by simp)
    | some j =>
      rw [hidx] at hl
      simp only [shard_find] at hl
      cases hsh : m.shards_[j]? with
      | none => rw [hsh] at hl; exact absurd hl (by simp)
      | some shard =>
        rw [hsh] at hl
        exact ⟨shard, List.getElem?_mem hsh, find_mem _ _ _ hl⟩

theorem check_in_range (cfg : Config) (now : Nat) (b : TokenBucket)
    (hmax : 0 ≤ cfg.max_tokens) (hrate : 0 ≤ cfg.refill_rate) (hcost : 0 ≤ cfg.token_cost)
    (hb : 0 ≤ b.tokens) (ht : b.last_update ≤ now) :
    0 ≤ (b.check cfg now).1.tokens ∧ (b.check cfg now).1.tokens ≤ cfg.max_tokens := by
  have hel : 0 ≤ elapsed_seconds now b.last_update := by
    unfold elapsed_seconds
    apply div_nonneg _ (by norm_num)
    have : (b.last_update : ℚ) ≤ (now : ℚ) := by exact_mod_cast ht
    linarith
  have h0 : 0 ≤ refilled cfg now b := by
    unfold refilled
    exact le_min hmax (add_nonneg hb (mul_nonneg hel hrate))
  have h1 := refilled_le_max cfg now b
  by_cases h : cfg.token_cost ≤ refilled cfg now b
  · rw [check_when_admitted _ _ _ h]
    exact ⟨by show 0 ≤ refilled cfg now b - cfg.token_cost; linarith,
      by show refilled cfg now b - cfg.token_cost ≤ cfg.max_tokens; linarith⟩
  · rw [check_when_denied _ _ _ (not_le.1 h)]
    exact ⟨h0, h1⟩

theorem is_allowed_keeps_bounds (hash : String → Nat) (now t : Nat) (key : String)
    (m m1 : RateLimitManager) (o : Outcome) (h : is_allowed hash now key m = some (m1, o))
    (hmax : 0 ≤ m.cfg_.max_tokens) (hrate : 0 ≤ m.cfg_.refill_rate)
    (hcost : 0 ≤ m.cfg_.token_cost) (htn : t ≤ now)
    (hr : tokens_in_range m) (hu : updated_by m t) :
    tokens_in_range m1 ∧ updated_by m1 now := by
  have hcfg := is_allowed_cfg hash now key m m1 o h
  have hcur : 0 ≤ (current m hash key).tokens ∧ (current m hash key).last_update ≤ now := by
    rcases current_cases m hash key with hc | ⟨shard, hs, hmem⟩
    · rw [hc]
      exact ⟨le_refl _, Nat.zero_le _⟩
    · exact ⟨(hr shard hs _ hmem).1, le_trans (hu shard hs _ hmem) htn⟩
  have hnew := check_in_range m.cfg_ now (current m hash key) hmax hrate hcost hcur.1 hcur.2
  constructor
  · intro shard1 hs1 kb hkb
    rw [hcfg]
    rcases is_allowed_mem hash now key m m1 o h shard1 hs1 kb hkb with hx | ⟨shard, hs, hx⟩
    · rw [hx]
      exact hnew
    · exact hr shard hs kb hx
  · intro shard1 hs1 kb hkb
    rcases is_allowed_mem hash now key m m1 o h shard1 hs1 kb hkb with hx | ⟨shard, hs, hx⟩
    · rw [hx]
      exact le_of_eq (check_times _ _ _).1
    · exact le_trans (hu shard hs kb hx) htn

theorem sweep_keeps_bounds (now t : Nat) (m : RateLimitManager) (htn : t ≤ now)
    (hr : tokens_in_range m) (hu : updated_by m t) :
    tokens_in_range (janitor_sweep now m) ∧ updated_by (janitor_sweep now m) now := by
  constructor
  · intro shard1 hs1 kb hkb
    simp only [janitor_sweep, List.mem_map] at hs1
    obtain ⟨shard, hs, rfl⟩ := hs1
    exact hr shard hs kb (List.mem_of_mem_filter hkb)
  · intro shard1 hs1 kb hkb
    simp only [janitor_sweep, List.mem_map] at hs1
    obtain ⟨shard, hs, rfl⟩ := hs1
    exact le_trans (hu shard hs kb (List.mem_of_mem_filter hkb)) htn

theorem run_keeps_bounds (hash : String → Nat) (evs : List Event) :
    ∀ (m : RateLimitManager) (t : Nat), m.valid →
      0 ≤ m.cfg_.max_tokens → 0 ≤ m.cfg_.refill_rate → 0 ≤ m.cfg_.token_cost →
      tokens_in_range m → updated_by m t →
      List.Chain (fun a b => a ≤ b) t (evs.map Event.time) →
      ∃ m1 outs, run hash evs m = some (m1, outs) ∧ m1.cfg_ = m.cfg_ ∧ m1.valid ∧
        tokens_in_range m1 := by
  induction evs with
  | nil =>
    intro m t hv _ _ _ hr _ _
    exact ⟨m, [], rfl, rfl, hv, hr⟩
  | cons e rest ih =>
    intro m t hv hmax hrate hcost hr hu hch
    simp only [List.map_cons, List.chain_cons] at hch
    obtain ⟨hte, hch⟩ := hch
    cases e with
    | check key now =>
      obtain ⟨ma, h, _, hcfg, hva⟩ := is_allowed_check hash now key m hv
      obtain ⟨hra, hua⟩ :=
        is_allowed_keeps_bounds hash now t key m ma _ h hmax hrate hcost hte hr hu
      obtain ⟨m1, outs, hrun, hc1, hv1, hr1⟩ := ih ma now hva (by rw [hcfg]; exact hmax)
        (by rw [hcfg]; exact hrate) (by rw [hcfg]; exact hcost) hra hua hch
      exact ⟨m1, ((current m hash key).check m.cfg_ now).2 :: outs,
        by simp only [run, h, hrun], by rw [hc1, hcfg], hv1, hr1⟩
    | sweep now =>
      obtain ⟨hra, hua⟩ := sweep_keeps_bounds now t m hte hr hu
      obtain ⟨m1, outs, hrun, hc1, hv1, hr1⟩ := ih (janitor_sweep now m) now
        (sweep_valid now m hv) hmax hrate hcost hra hua hch
      exact ⟨m1, outs, by simp only [run, hrun], hc1, hv1, hr1⟩

/-- C5.  Let the engine be built from a configuration with `max_tokens ≥ 0`,
`refill_rate ≥ 0` and `token_cost ≥ 0` (and a positive shard count), and let it
run any schedule of `is_allowed` calls and janitor sweeps whose clock readings
never decrease.  After every step of the schedule, every bucket stored in any
shard satisfies `0 ≤ tokens ≤ max_tokens`. -/
theorem tokens_stay_in_range (hash : String → Nat) (config : Config) (m0 : RateLimitManager)
    (evs : List Event) (k : Nat)
    (hs1 : 1 ≤ config.shards) (hs2 : config.shards ≤ 2147483647)
    (hnew : RateLimitManager.new config = some m0)
    (hmax : 0 ≤ config.max_tokens) (hrate : 0 ≤ config.refill_rate)
    (hcost : 0 ≤ config.token_cost)
    (hclock : List.Chain' (fun a b => a ≤ b) (evs.map Event.time)) :
    ∃ m outs, run hash (evs.take k) m0 = some (m, outs) ∧
      ∀ shard ∈ m.shards_, ∀ kb ∈ shard.buckets,
        0 ≤ kb.2.tokens ∧ kb.2.tokens ≤ config.max_tokens := by
  obtain ⟨hv, hcfg, hempty⟩ := new_valid config m0 hs1 hs2 hnew
  have hr0 : tokens_in_range m0 := by
    intro shard hs kb hkb
    rw [hempty shard hs] at hkb
    exact absurd hkb (List.not_mem_nil _)
  have hu0 : ∀ t, updated_by m0 t := by
    intro t shard hs kb hkb
    rw [hempty shard hs] at hkb
    exact absurd hkb (List.not_mem_nil _)
  have hpre : List.Chain' (fun a b => a ≤ b) ((evs.take k).map Event.time) := by
    rw [List.map_take]
    exact hclock.take k
  have hgoal : ∃ m outs, run hash (evs.take k) m0 = some (m, outs) ∧ m.cfg_ = m0.cfg_ ∧
      m.valid ∧ tokens_in_range m := by
    cases hl : evs.take k with
    | nil => exact ⟨m0, [], rfl, rfl, hv, hr0⟩
    | cons e rest =>
      rw [hl] at hpre
      have hch : List.Chain (fun a b => a ≤ b) e.time ((e :: rest).map Event.time) := by
        rw [List.map_cons]
        exact List.Chain.cons (le_refl _) hpre
      exact run_keeps_bounds hash (e :: rest) m0 e.time hv (by rw [hcfg]; exact hmax)
        (by rw [hcfg]; exact hrate) (by rw [hcfg]; exact hcost) hr0 (hu0 _) hch
  obtain ⟨m, outs, hrun, hc, _, hr⟩ := hgoal
  refine ⟨m, outs, hrun, ?_⟩
  intro shard hs kb hkb
  have := hr shard hs kb hkb
  rw [hc, hcfg] at this
  exact this

/-- Witness for C5: the test engine on a schedule of two checks, a sweep and a
check, with `k = 3` steps taken. -/
theorem tokens_stay_in_range_witness :
    1 ≤ get_test_cfg.shards ∧ get_test_cfg.shards ≤ 2147483647 ∧
    RateLimitManager.new get_test_cfg = some test_manager ∧
    0 ≤ get_test_cfg.max_tokens ∧ 0 ≤ get_test_cfg.refill_rate ∧
    0 ≤ get_test_cfg.token_cost ∧
    List.Chain' (fun a b => a ≤ b) (sample_schedule.map Event.time) ∧
    ∃ m outs, run sample_hash (sample_schedule.take 3) test_manager = some (m, outs) ∧
      ∀ shard ∈ m.shards_, ∀ kb ∈ shard.buckets,
        0 ≤ kb.2.tokens ∧ kb.2.tokens ≤ get_test_cfg.max_tokens :=
  have h1 : 1 ≤ get_test_cfg.shards := by decide
  have h2 : get_test_cfg.shards ≤ 2147483647 := by decide
  have h3 : RateLimitManager.new get_test_cfg = some test_manager := by decide
  have h4 : 0 ≤ get_test_cfg.max_tokens := by norm_num [get_test_cfg]
  have h5 : 0 ≤ get_test_cfg.refill_rate := by norm_num [get_test_cfg]
  have h6 : 0 ≤ get_test_cfg.token_cost := by norm_num [get_test_cfg]
  have h7 : List.Chain' (fun a b => a ≤ b) (sample_schedule.map Event.time) := by
    simp [sample_schedule, Event.time]
  ⟨h1, h2, h3, h4, h5, h6, h7,
    tokens_stay_in_range sample_hash get_test_cfg test_manager sample_schedule 3
      h1 h2 h3 h4 h5 h6 h7⟩

/-! ## C12: shard routing -/

theorem is_allowed_other_shards (hash : String → Nat) (now : Nat) (key : String)
    (m m1 : RateLimitManager) (o : Outcome) (h : is_allowed hash now key m = some (m1, o))
    (j : Nat) (hj : get_shard_index m hash key ≠ some j) :
    m1.shards_[j]? = m.shards_[j]? := by
  obtain ⟨idx, shard, hidx, _, hm, _⟩ := is_allowed_inv hash now key m m1 o h
  have hne : idx ≠ j := by
    intro he
    exact hj (by rw [hidx, he])
  rw [hm]
  exact List.getElem?_set_ne hne

theorem is_allowed_keys_in_place (hash : String → Nat) (now : Nat) (key : String)
    (m m1 : RateLimitManager) (o : Outcome) (h : is_allowed hash now key m = some (m1, o))
    (hp : keys_in_place m hash) : keys_in_place m1 hash := by
  intro j other hne
  rw [is_allowed_index hash now key other m m1 o h]
  by_cases hk : other = key
  · subst hk
    by_cases hj : get_shard_index m hash other = some j
    · exact hj
    · have hsame : shard_find m1 j other = shard_find m j other := by
        unfold shard_find
        rw [is_allowed_other_shards hash now other m m1 o h j hj]
      rw [hsame] at hne
      exact hp j other hne
  · rw [is_allowed_frame hash now key other m m1 o h hk j] at hne
    exact hp j other hne

theorem sweep_keys_in_place (hash : String → Nat) (s : Nat) (m : RateLimitManager)
    (hv : m.valid) (hp : keys_in_place m hash) : keys_in_place (janitor_sweep s m) hash := by
  intro j key hne
  rw [sweep_shard_find s m hv j key] at hne
  have hne0 : shard_find m j key ≠ none := by
    intro h0
    rw [h0] at hne
    exact hne rfl
  exact hp j key hne0

theorem run_keys_in_place (hash : String → Nat) (evs : List Event) :
    ∀ (m : RateLimitManager), m.valid → keys_in_place m hash →
      ∃ m1 outs, run hash evs m = some (m1, outs) ∧ m1.cfg_ = m.cfg_ ∧ m1.valid ∧
        keys_in_place m1 hash := by
  induction evs with
  | nil =>
    intro m hv hp
    exact ⟨m, [], rfl, rfl, hv, hp⟩
  | cons e rest ih =>
    intro m hv hp
    cases e with
    | check key now =>
      obtain ⟨ma, h, _, hcfg, hva⟩ := is_allowed_check hash now key m hv
      obtain ⟨m1, outs, hrun, hc1, hv1, hp1⟩ :=
        ih ma hva (is_allowed_keys_in_place hash now key m ma _ h hp)
      exact ⟨m1, ((current m hash key).check m.cfg_ now).2 :: outs,
        by simp only [run, h, hrun], by rw [hc1, hcfg], hv1, hp1⟩
    | sweep now =>
      obtain ⟨m1, outs, hrun, hc1, hv1, hp1⟩ :=
        ih (janitor_sweep now m) (sweep_valid now m hv) (sweep_keys_in_place hash now m hv hp)
      exact ⟨m1, outs, by simp only [run, hrun], hc1, hv1, hp1⟩

/-- C12.  Let the engine be built with `shards ≥ 1` and run any schedule of
checks and sweeps.  In the state reached, `get_shard_index(key)` is
`hash(key) mod shards` (the hash taken as a `size_t`), a function of the key
and the configuration alone, and it is below the number of shards built by the
constructor; a call `is_allowed(key)` is defined, computes its results from the
entry of `key` in that shard, and leaves every other shard as it was; and an
identity is stored in no shard other than the one `get_shard_index` names, so
in at most one shard. -/
theorem shard_routing (hash : String → Nat) (config : Config) (m0 : RateLimitManager)
    (evs : List Event) (hs1 : 1 ≤ config.shards) (hs2 : config.shards ≤ 2147483647)
    (hnew : RateLimitManager.new config = some m0) :
    ∃ m outs, run hash evs m0 = some (m, outs) ∧
      m.shards_.length = config.shards.toNat ∧
      (∀ key, get_shard_index m hash key
          = some (hash key % 18446744073709551616 % config.shards.toNat) ∧
        hash key % 18446744073709551616 % config.shards.toNat < m.shards_.length) ∧
      (∀ now key, ∃ idx m1 o, get_shard_index m hash key = some idx ∧
        is_allowed hash now key m = some (m1, o) ∧
        o = (((shard_find m idx key).getD TokenBucket.value_init).check m.cfg_ now).2 ∧
        ∀ j, j ≠ idx → m1.shards_[j]? = m.shards_[j]?) ∧
      (∀ j key, shard_find m j key ≠ none → get_shard_index m hash key = some j) ∧
      (∀ i j key, shard_find m i key ≠ none → shard_find m j key ≠ none → i = j) := by
  obtain ⟨hv0, hcfg0, hempty⟩ := new_valid config m0 hs1 hs2 hnew
  have hp0 : keys_in_place m0 hash := by
    intro j key hne
    exfalso
    apply hne
    unfold shard_find
    cases hsh : m0.shards_[j]? with
    | none => rfl
    | some shard =>
      simp only [hempty shard (List.getElem?_mem hsh), find]
  obtain ⟨m, outs, hrun, hc, hv, hp⟩ := run_keys_in_place hash evs m0 hv0 hp0
  have hcfg : m.cfg_ = config := by rw [hc, hcfg0]
  have hlen : m.shards_.length = config.shards.toNat := by
    rw [hv.2.2.1, hcfg]
  have hidx : ∀ key, get_shard_index m hash key
      = some (hash key % 18446744073709551616 % config.shards.toNat) := by
    intro key
    have hd : (config.shards % 18446744073709551616).toNat = config.shards.toNat := by
      rw [Int.emod_eq_of_lt (by omega) (by omega)]
    unfold get_shard_index
    simp only [hcfg, hd]
    rw [if_neg (by omega)]
  refine ⟨m, outs, hrun, hlen, ?_, ?_, hp, ?_⟩
  · intro key
    refine ⟨hidx key, ?_⟩
    rw [hlen]
    exact Nat.mod_lt _ (by omega)
  · intro now key
    obtain ⟨m1, h, _⟩ := is_allowed_check hash now key m hv
    refine ⟨_, m1, _, hidx key, h, ?_, ?_⟩
    · simp only [current, lookup, hidx key]
    · intro j hj
      apply is_allowed_other_shards hash now key m m1 _ h j
      rw [hidx key]
      intro he
      exact hj (Option.some.inj he).symm
  · intro i j key hi hj
    have h1 := hp i key hi
    have h2 := hp j key hj
    rw [h1] at h2
    exact Option.some.inj h2

/-- Witness for C12: the test engine (four shards) on the sample schedule. -/
theorem shard_routing_witness :
    1 ≤ get_test_cfg.shards ∧ get_test_cfg.shards ≤ 2147483647 ∧
    RateLimitManager.new get_test_cfg = some test_manager ∧
    ∃ m outs, run sample_hash sample_schedule test_manager = some (m, outs) ∧
      m.shards_.length = get_test_cfg.shards.toNat ∧
      (∀ key, get_shard_index m sample_hash key
          = some (sample_hash key % 18446744073709551616 % get_test_cfg.shards.toNat) ∧
        sample_hash key % 18446744073709551616 % get_test_cfg.shards.toNat
          < m.shards_.length) ∧
      (∀ now key, ∃ idx m1 o, get_shard_index m sample_hash key = some idx ∧
        is_allowed sample_hash now key m = some (m1, o) ∧
        o = (((shard_find m idx key).getD TokenBucket.value_init).check m.cfg_ now).2 ∧
        ∀ j, j ≠ idx → m1.shards_[j]? = m.shards_[j]?) ∧
      (∀ j key, shard_find m j key ≠ none → get_shard_index m sample_hash key = some j) ∧
      (∀ i j key, shard_find m i key ≠ none → shard_find m j key ≠ none → i = j) :=
  have h1 : 1 ≤ get_test_cfg.shards := by decide
  have h2 : get_test_cfg.shards ≤ 2147483647 := by decide
  have h3 : RateLimitManager.new get_test_cfg = some test_manager := by decide
  ⟨h1, h2, h3, shard_routing sample_hash get_test_cfg test_manager sample_schedule h1 h2 h3⟩

/-! ## Runs of calls -/

theorem run_check_cons (hash : String → Nat) (key : String) (now : Nat) (rest : List Event)
    (m ma : RateLimitManager) (o : Outcome) (m1 : RateLimitManager) (outs : List Outcome)
    (h : is_allowed hash now key m = some (ma, o))
    (hrun : run hash rest ma = some (m1, outs)) :
    run hash (Event.check key now :: rest) m = some (m1, o :: outs) := by
  simp only [run, h, hrun]

/-! ## The rate bound in exact arithmetic -/

theorem elapsed_seconds_nonneg (now last : Nat) (h : last ≤ now) :
    0 ≤ elapsed_seconds now last := by
  unfold elapsed_seconds
  apply div_nonneg _ (by norm_num)
  have : (last : ℚ) ≤ (now : ℚ) := by exact_mod_cast h
  linarith

theorem last_time_ge (ts : List Nat) :
    ∀ t, List.Chain (fun a b => a ≤ b) t ts → t ≤ last_time t ts := by
  induction ts with
  | nil => intro t _; exact le_refl _
  | cons t1 rest ih =>
    intro t hch
    rw [List.chain_cons] at hch
    exact le_trans hch.1 (ih t1 hch.2)

theorem size_step (hash : String → Nat) (now : Nat) (key : String)
    (m m1 : RateLimitManager) (o : Outcome) (h : is_allowed hash now key m = some (m1, o))
    (j : Nat) :
    get_shard_size m1 j = get_shard_size m j
      + (if get_shard_index m hash key = some j ∧ lookup m hash key = none then 1 else 0) := by
  obtain ⟨idx, shard, hidx, hsh, hm, _⟩ := is_allowed_inv hash now key m m1 o h
  have hlk : lookup m hash key = find shard.buckets key := by
    simp [lookup, shard_find, hidx, hsh]
  by_cases hj : idx = j
  · subst hj
    have hlt : idx < m.shards_.length := by
      rcases Nat.lt_or_ge idx m.shards_.length with hlt | hge
      · exact hlt
      · rw [List.getElem?_eq_none hge] at hsh
        exact absurd hsh (by simp)
    simp only [get_shard_size, hm, List.getElem?_set_self hlt, hsh, length_store, hidx, hlk,
      true_and]
    split <;> rfl
  · have hne : get_shard_index m hash key ≠ some j := by
      rw [hidx]
      intro he
      exact hj (Option.some.inj he)
    simp only [get_shard_size, hm, List.getElem?_set_ne hj, hne, false_and, if_false,
      Nat.add_zero]

theorem total_size_step (hash : String → Nat) (now : Nat) (key : String)
    (m m1 : RateLimitManager) (o : Outcome) (h : is_allowed hash now key m = some (m1, o))
    (hv : m.valid) :
    total_size m1 = total_size m + (if lookup m hash key = none then 1 else 0) := by
  obtain ⟨idx, hidx, hlt⟩ := get_shard_index_valid m hash key hv
  unfold total_size
  rw [is_allowed_cfg hash now key m m1 o h]
  rw [Finset.sum_congr rfl (fun j _ => size_step hash now key m m1 o h j),
    Finset.sum_add_distrib]
  congr 1
  have hmem : idx ∈ Finset.range m.cfg_.shards.toNat := by
    rw [Finset.mem_range, ← hv.2.2.1]
    exact hlt
  by_cases hnone : lookup m hash key = none
  · simp only [hidx, hnone, and_true, if_true, Option.some.injEq]
    rw [Finset.sum_ite_eq, if_pos hmem]
  · simp [hnone]

theorem stored_step (hash : String → Nat) (now : Nat) (key other : String)
    (m m1 : RateLimitManager) (o : Outcome) (h : is_allowed hash now key m = some (m1, o)) :
    lookup m1 hash other = none ↔ other ≠ key ∧ lookup m hash other = none := by
  by_cases hk : other = key
  · subst hk
    rw [is_allowed_lookup_self hash now other m m1 o h]
    simp
  · rw [is_allowed_frame_lookup hash now key other m m1 o h hk]
    simp [hk]

theorem run_checks_sizes (hash : String → Nat) (checks : List (String × Nat)) :
    ∀ (m : RateLimitManager), m.valid →
      ∃ m1 outs, run hash (checks_only checks) m = some (m1, outs) ∧ m1.valid ∧
        m1.cfg_ = m.cfg_ ∧
        (∀ k, lookup m1 hash k = none ↔
          k ∉ checks.map Prod.fst ∧ lookup m hash k = none) ∧
        total_size m1 = total_size m
          + ((checks.map Prod.fst).toFinset.filter fun k => lookup m hash k = none).card := by
  induction checks with
  | nil =>
    intro m hv
    exact ⟨m, [], rfl, hv, rfl, by simp, by simp⟩
  | cons p rest ih =>
    intro m hv
    obtain ⟨key, now⟩ := p
    obtain ⟨ma, h, _, hcfg, hva⟩ := is_allowed_check hash now key m hv
    obtain ⟨m1, outs, hrun, hv1, hc1, hst, htot⟩ := ih ma hva
    refine ⟨m1, _, run_check_cons hash key now _ m ma _ m1 outs h hrun, hv1,
      by rw [hc1, hcfg], ?_, ?_⟩
    · intro k
      rw [hst k, stored_step hash now key k m ma _ h]
      simp only [List.map_cons, List.mem_cons, not_or]
      tauto
    · rw [htot, total_size_step hash now key m ma _ h hv, Nat.add_assoc]
      congr 1
      have hB : ((rest.map Prod.fst).toFinset.filter fun k => lookup ma hash k = none)
          = ((rest.map Prod.fst).toFinset.filter fun k => lookup m hash k = none).erase key := by
        ext x
        simp only [Finset.mem_filter, Finset.mem_erase, stored_step hash now key x m ma _ h]
        tauto
      rw [hB]
      simp only [List.map_cons, List.toFinset_cons]
      by_cases hnone : lookup m hash key = none
      · rw [if_pos hnone, Finset.filter_insert, if_pos hnone]
        rw [Nat.add_comm, ← Finset.card_erase_add_one (Finset.mem_insert_self key _),
          Finset.erase_insert_eq_erase]
      · rw [if_neg hnone, Finset.filter_insert, if_neg hnone, Nat.zero_add]
        rw [Finset.erase_eq_of_not_mem]
        simp [hnone]

/-- C18.  `get_shard_size(i)` is a read-only query that returns the number of
entries, one per identity, stored in shard `i` (0 for an index out of range).
On an engine built by the constructor and run through any schedule of checks
without a sweep: an identity is stored exactly if it was checked; the sizes
summed over all shards equal the number of distinct identities checked; and a
further `is_allowed` raises the size of the identity's shard by one if the
identity is not stored, leaves it unchanged if it is, and changes no other
shard's size. -/
theorem shard_size_accounting (hash : String → Nat) (config : Config) (m0 : RateLimitManager)
    (checks : List (String × Nat)) (hs1 : 1 ≤ config.shards)
    (hs2 : config.shards ≤ 2147483647) (hnew : RateLimitManager.new config = some m0) :
    ∃ m outs, run hash (checks_only checks) m0 = some (m, outs) ∧
      (∀ i shard, m.shards_[i]? = some shard →
        get_shard_size m i = shard.buckets.length ∧ (shard.buckets.map Prod.fst).Nodup) ∧
      (∀ i, m.shards_.length ≤ i → get_shard_size m i = 0) ∧
      (∀ k, lookup m hash k ≠ none ↔ k ∈ checks.map Prod.fst) ∧
      (∑ i ∈ Finset.range config.shards.toNat, get_shard_size m i)
        = (checks.map Prod.fst).toFinset.card ∧
      (∀ now key, ∃ idx m1 o, get_shard_index m hash key = some idx ∧
        is_allowed hash now key m = some (m1, o) ∧
        (lookup m hash key = none → get_shard_size m1 idx = get_shard_size m idx + 1) ∧
        (lookup m hash key ≠ none → get_shard_size m1 idx = get_shard_size m idx) ∧
        ∀ j, j ≠ idx → get_shard_size m1 j = get_shard_size m j) := by
  obtain ⟨hv0, hcfg0, hempty⟩ := new_valid config m0 hs1 hs2 hnew
  have hnone0 : ∀ k, lookup m0 hash k = none := by
    intro k
    unfold lookup
    cases get_shard_index m0 hash k with
    | none => rfl
    | some j =>
      show shard_find m0 j k = none
      unfold shard_find
      cases hsh : m0.shards_[j]? with
      | none => rfl
      | some shard => simp only [hempty shard (List.getElem?_mem hsh), find]
  have hsize0 : total_size m0 = 0 := by
    unfold total_size
    apply Finset.sum_eq_zero
    intro i _
    unfold get_shard_size
    cases hsh : m0.shards_[i]? with
    | none => rfl
    | some shard => simp only [hempty shard (List.getElem?_mem hsh), List.length_nil]
  obtain ⟨m, outs, hrun, hv, hc, hst, htot⟩ := run_checks_sizes hash checks m0 hv0
  refine ⟨m, outs, hrun, ?_, ?_, ?_, ?_, ?_⟩
  · intro i shard hsh
    exact ⟨by simp only [get_shard_size, hsh], hv.2.2.2 shard (List.getElem?_mem hsh)⟩
  · intro i hi
    simp only [get_shard_size, List.getElem?_eq_none hi]
  · intro k
    rw [Ne, hst k]
    simp [hnone0 k]
  · have hall : ((checks.map Prod.fst).toFinset.filter fun k => lookup m0 hash k = none)
        = (checks.map Prod.fst).toFinset := by
      apply Finset.filter_true_of_mem
      intro k _
      exact hnone0 k
    have := htot
    rw [hsize0, hall, Nat.zero_add] at this
    rw [← this]
    unfold total_size
    rw [hc, hcfg0]
  · intro now key
    obtain ⟨idx, hidx, _⟩ := get_shard_index_valid m hash key hv
    obtain ⟨m1, h, _⟩ := is_allowed_check hash now key m hv
    refine ⟨idx, m1, _, hidx, h, ?_, ?_, ?_⟩
    · intro hn
      rw [size_step hash now key m m1 _ h idx]
      simp [hidx, hn]
    · intro hn
      rw [size_step hash now key m m1 _ h idx]
      simp [hn]
    · intro j hj
      rw [size_step hash now key m m1 _ h j]
      have : get_shard_index m hash key ≠ some j := by
        rw [hidx]
        intro he
        exact hj (Option.some.inj he).symm
      simp [this]

/-- Witness for C18: the test engine after checks of "a", "bb" and "a" again:
two distinct identities, total size 2. -/
theorem shard_size_accounting_witness :
    1 ≤ get_test_cfg.shards ∧ get_test_cfg.shards ≤ 2147483647 ∧
    RateLimitManager.new get_test_cfg = some test_manager ∧
    ([("a", 5000000000), ("bb", 5000000001), ("a", 5000000002)].map Prod.fst).toFinset.card
      = 2 ∧
    ∃ m outs, run sample_hash
        (checks_only [("a", 5000000000), ("bb", 5000000001), ("a", 5000000002)])
        test_manager = some (m, outs) ∧
      (∀ i shard, m.shards_[i]? = some shard →
        get_shard_size m i = shard.buckets.length ∧ (shard.buckets.map Prod.fst).Nodup) ∧
      (∀ i, m.shards_.length ≤ i → get_shard_size m i = 0) ∧
      (∀ k, lookup m sample_hash k ≠ none ↔
        k ∈ [("a", 5000000000), ("bb", 5000000001), ("a", 5000000002)].map Prod.fst) ∧
      (∑ i ∈ Finset.range get_test_cfg.shards.toNat, get_shard_size m i)
        = ([("a", 5000000000), ("bb", 5000000001), ("a", 5000000002)].map
            Prod.fst).toFinset.card ∧
      (∀ now key, ∃ idx m1 o, get_shard_index m sample_hash key = some idx ∧
        is_allowed sample_hash now key m = some (m1, o) ∧
        (lookup m sample_hash key = none → get_shard_size m1 idx = get_shard_size m idx + 1) ∧
        (lookup m sample_hash key ≠ none → get_shard_size m1 idx = get_shard_size m idx) ∧
        ∀ j, j ≠ idx → get_shard_size m1 j = get_shard_size m j) :=
  have h1 : 1 ≤ get_test_cfg.shards := by decide
  have h2 : get_test_cfg.shards ≤ 2147483647 := by decide
  have h3 : RateLimitManager.new get_test_cfg = some test_manager := by decide
  ⟨h1, h2, h3, by decide,
    shard_size_accounting sample_hash get_test_cfg test_manager
      [("a", 5000000000), ("bb", 5000000001), ("a", 5000000002)] h1 h2 h3⟩

/-! ## C20: eviction is invisible when a bucket refills within the timeout -/

/-- C15, evaluated on the code.  `load_from_file` returns the default
configuration for a missing file, for invalid JSON and for a document that is
not an object; but for `{"max_ips": 5, "shards": "x"}` it returns
`max_ips = 5`, not the default 1000000: the value read before the type error
stays in the returned configuration. -/
theorem load_from_file_keeps_partial_values :
    load_from_file ConfigFile.missing = {} ∧
    load_from_file ConfigFile.invalid = {} ∧
    load_from_file (ConfigFile.document (Json.arr [Json.int 1])) = {} ∧
    (load_from_file bad_shards_file).max_ips = 5 ∧
    (load_from_file bad_shards_file).shards = 16 ∧
    load_from_file bad_shards_file ≠ {} := by
  refine ⟨rfl, rfl, rfl, by decide, by decide, ?_⟩
  intro h
  have h5 : (load_from_file bad_shards_file).max_ips = 5 := by decide
  rw [h] at h5
  exact absurd h5 (by decide)

/-! ## C16: `TokenBucket::allow` against the six-step algorithm -/

namespace token_bucket_hpp

theorem allow_first_use (b : TokenBucket) (s : SpecBucket) (max_t refill_r cost : ℚ)
    (now : Nat) (hu : s.used = false) (hneg : b.current_tokens < 0) (hmax : 0 ≤ max_t) :
    (b.allow max_t refill_r cost now).2 = (spec_allow s max_t refill_r cost now).2 ∧
    matches_spec (b.allow max_t refill_r cost now).1 (spec_allow s max_t refill_r cost now).1 ∧
    (spec_allow s max_t refill_r cost now).1.used = true ∧
    (spec_allow s max_t refill_r cost now).1.last_refill = now := by
  by_cases hc : cost ≤ max_t
  · have h1 : b.allow max_t refill_r cost now
        = ({ current_tokens := max_t - cost, last_refill_time := now, last_access := now },
           true) := by
      simp [TokenBucket.allow, hneg, hc]
    have h2 : spec_allow s max_t refill_r cost now
        = ({ used := true, tokens := max_t - cost, last_refill := now, last_access := now },
           true) := by
      simp [spec_allow, hu, hc]
    rw [h1, h2]
    refine ⟨rfl, Or.inr ⟨rfl, ?_, rfl, rfl, rfl⟩, rfl, rfl⟩
    show 0 ≤ max_t - cost
    linarith
  · have h1 : b.allow max_t refill_r cost now
        = ({ current_tokens := max_t, last_refill_time := now, last_access := now },
           false) := by
      simp [TokenBucket.allow, hneg, hc]
    have h2 : spec_allow s max_t refill_r cost now
        = ({ used := true, tokens := max_t, last_refill := now, last_access := now },
           false) := by
      simp [spec_allow, hu, hc]
    rw [h1, h2]
    exact ⟨rfl, Or.inr ⟨rfl, hmax, rfl, rfl, rfl⟩, rfl, rfl⟩

theorem spec_allow_later (used : Bool) (tok : ℚ) (lr la : Nat) (max_t refill_r cost : ℚ)
    (now : Nat) (hu : used = true) :
    spec_allow { used := used, tokens := tok, last_refill := lr, last_access := la }
        max_t refill_r cost now
      = if cost ≤ min max_t (tok + elapsed_seconds now lr * refill_r) then
          ({ used := true,
             tokens := min max_t (tok + elapsed_seconds now lr * refill_r) - cost,
             last_refill := now, last_access := now }, true)
        else
          ({ used := true, tokens := min max_t (tok + elapsed_seconds now lr * refill_r),
             last_refill := now, last_access := now }, false) := by
  subst hu
  have hmm : min (min max_t (tok + elapsed_seconds now lr * refill_r)) max_t
      = min max_t (tok + elapsed_seconds now lr * refill_r) := by
    rw [min_comm, ← min_assoc, min_self]
  unfold spec_allow
  simp only [Bool.true_eq_false, if_false, hmm]

theorem allow_later (tok : ℚ) (lr la : Nat) (max_t refill_r cost : ℚ) (now : Nat)
    (hnn : 0 ≤ tok) (hrate : 0 < refill_r) (hclock : lr ≤ now) :
    TokenBucket.allow { current_tokens := tok, last_refill_time := lr, last_access := la }
        max_t refill_r cost now
      = if cost ≤ min max_t (tok + elapsed_seconds now lr * refill_r) then
          ({ current_tokens := min max_t (tok + elapsed_seconds now lr * refill_r) - cost,
             last_refill_time := now, last_access := now }, true)
        else
          ({ current_tokens := min max_t (tok + elapsed_seconds now lr * refill_r),
             last_refill_time := now, last_access := now }, false) := by
  have hnneg : ¬ tok < 0 := not_lt.2 hnn
  have hel : 0 ≤ elapsed_seconds now lr := elapsed_seconds_nonneg now _ hclock
  have hadd : 0 ≤ elapsed_seconds now lr * refill_r := mul_nonneg hel (le_of_lt hrate)
  unfold TokenBucket.allow
  dsimp only
  rw [if_neg hnneg]
  by_cases hpos : 0 < elapsed_seconds now lr * refill_r
  · rw [if_pos hpos]
    dsimp only
    rw [if_neg (not_lt.2 (min_le_left _ _))]
  · have hzero : elapsed_seconds now lr * refill_r = 0 := le_antisymm (not_lt.1 hpos) hadd
    have hel0 : elapsed_seconds now lr = 0 := by
      rcases mul_eq_zero.1 hzero with h | h
      · exact h
      · exact absurd h (ne_of_gt hrate)
    have hnow : lr = now := by
      unfold elapsed_seconds at hel0
      have h1 : ((now : ℚ) - (lr : ℚ)) = 0 := by
        rcases div_eq_zero_iff.1 hel0 with h | h
        · exact h
        · norm_num at h
      have h2 : (lr : ℚ) = (now : ℚ) := by linarith
      exact_mod_cast h2
    rw [if_neg hpos, hzero, add_zero, hnow]
    dsimp only
    by_cases hlt : max_t < tok
    · rw [if_pos hlt, min_eq_left (le_of_lt hlt)]
    · rw [if_neg hlt, min_eq_right (not_lt.1 hlt)]

theorem allow_later_use (b : TokenBucket) (s : SpecBucket) (max_t refill_r cost : ℚ)
    (now : Nat) (hu : s.used = true) (hnn : 0 ≤ b.current_tokens)
    (htok : b.current_tokens = s.tokens) (href : b.last_refill_time = s.last_refill)
    (hrate : 0 < refill_r) (hmax : 0 ≤ max_t) (hclock : s.last_refill ≤ now) :
    (b.allow max_t refill_r cost now).2 = (spec_allow s max_t refill_r cost now).2 ∧
    matches_spec (b.allow max_t refill_r cost now).1 (spec_allow s max_t refill_r cost now).1 ∧
    (spec_allow s max_t refill_r cost now).1.used = true ∧
    (spec_allow s max_t refill_r cost now).1.last_refill = now := by
  obtain ⟨tok, lr, la⟩ := b
  obtain ⟨used, stok, slr, sla⟩ := s
  simp only at hu hnn htok href hclock
  subst htok href
  have hel : 0 ≤ elapsed_seconds now lr := elapsed_seconds_nonneg now _ hclock
  have hadd : 0 ≤ elapsed_seconds now lr * refill_r := mul_nonneg hel (le_of_lt hrate)
  have hT : 0 ≤ min max_t (tok + elapsed_seconds now lr * refill_r) :=
    le_min hmax (by linarith)
  rw [spec_allow_later used tok lr sla max_t refill_r cost now hu,
    allow_later tok lr la max_t refill_r cost now hnn hrate hclock]
  by_cases hc : cost ≤ min max_t (tok + elapsed_seconds now lr * refill_r)
  · rw [if_pos hc, if_pos hc]
    refine ⟨rfl, Or.inr ⟨rfl, ?_, rfl, rfl, rfl⟩, rfl, rfl⟩
    show 0 ≤ min max_t (tok + elapsed_seconds now lr * refill_r) - cost
    linarith
  · rw [if_neg hc, if_neg hc]
    exact ⟨rfl, Or.inr ⟨rfl, hT, rfl, rfl, rfl⟩, rfl, rfl⟩

end token_bucket_hpp

namespace token_bucket_hpp

theorem run_allow_matches (calls : List Call) :
    ∀ (b : TokenBucket) (s : SpecBucket), matches_spec b s →
      (∀ c ∈ calls, 0 < c.refill_rate ∧ 0 ≤ c.max_tokens) →
      (s.used = true → ∀ c ∈ calls.head?, s.last_refill ≤ c.now) →
      List.Chain' (fun a b => a ≤ b) (calls.map Call.now) →
      (run_allow calls b).2 = (run_spec calls s).2 ∧
      matches_spec (run_allow calls b).1 (run_spec calls s).1 := by
  induction calls with
  | nil =>
    intro b s hm _ _ _
    exact ⟨rfl, hm⟩
  | cons c rest ih =>
    intro b s hm hpar hfirst hclock
    obtain ⟨hrate, hmax⟩ := hpar c (by simp)
    have hstep : (b.allow c.max_tokens c.refill_rate c.cost c.now).2
          = (spec_allow s c.max_tokens c.refill_rate c.cost c.now).2 ∧
        matches_spec (b.allow c.max_tokens c.refill_rate c.cost c.now).1
          (spec_allow s c.max_tokens c.refill_rate c.cost c.now).1 ∧
        (spec_allow s c.max_tokens c.refill_rate c.cost c.now).1.used = true ∧
        (spec_allow s c.max_tokens c.refill_rate c.cost c.now).1.last_refill = c.now := by
      rcases hm with ⟨hu, hneg⟩ | ⟨hu, hnn, htok, href, _⟩
      · exact allow_first_use b s _ _ _ _ hu hneg hmax
      · exact allow_later_use b s _ _ _ _ hu hnn htok href hrate hmax
          (hfirst hu c (by simp))
    obtain ⟨hflag, hm1, _, hlr⟩ := hstep
    rw [List.map_cons, List.chain'_cons'] at hclock
    obtain ⟨hhead, htail⟩ := hclock
    obtain ⟨hflags, hm2⟩ := ih _ _ hm1 (fun c1 hc1 => hpar c1 (List.mem_cons_of_mem _ hc1))
      (by
        intro _ c1 hc1
        rw [hlr]
        apply hhead
        rw [List.head?_map, hc1]
        rfl)
      htail
    constructor
    · show (b.allow c.max_tokens c.refill_rate c.cost c.now).2
          :: (run_allow rest (b.allow c.max_tokens c.refill_rate c.cost c.now).1).2
        = (spec_allow s c.max_tokens c.refill_rate c.cost c.now).2
          :: (run_spec rest (spec_allow s c.max_tokens c.refill_rate c.cost c.now).1).2
      rw [hflag, hflags]
    · exact hm2

/-- C16, as amended.  For every sequence of `allow` calls on a newly
constructed bucket with non-decreasing clock readings, in which every call has
`refill_rate > 0` and `max_tokens ≥ 0`, `allow` returns what the six-step
admission algorithm returns, and after the first call the bucket's `tokens`,
`last_refill` and `last_access` equal those of the algorithm: first use sets
`tokens = max_tokens` and `last_refill = now` without refill; a later use adds
`(now - last_refill) * refill_rate`, clamps to `max_tokens` and sets
`last_refill = now`; `last_access = now` always; then `cost` is subtracted and
true returned if `tokens ≥ cost`, else false with `tokens` unchanged. -/
theorem allow_follows_six_steps (calls : List Call) (t0 : Nat)
    (hpar : ∀ c ∈ calls, 0 < c.refill_rate ∧ 0 ≤ c.max_tokens)
    (hclock : List.Chain' (fun a b => a ≤ b) (calls.map Call.now)) :
    (run_allow calls (TokenBucket.new t0)).2 = (run_spec calls SpecBucket.unused).2 ∧
    (calls ≠ [] →
      (run_spec calls SpecBucket.unused).1.used = true ∧
      (run_allow calls (TokenBucket.new t0)).1.current_tokens
        = (run_spec calls SpecBucket.unused).1.tokens ∧
      (run_allow calls (TokenBucket.new t0)).1.last_refill_time
        = (run_spec calls SpecBucket.unused).1.last_refill ∧
      (run_allow calls (TokenBucket.new t0)).1.last_access
        = (run_spec calls SpecBucket.unused).1.last_access) := by
  have hm0 : matches_spec (TokenBucket.new t0) SpecBucket.unused :=
    Or.inl ⟨rfl, by norm_num [TokenBucket.new]⟩
  obtain ⟨hflags, hm⟩ := run_allow_matches calls (TokenBucket.new t0) SpecBucket.unused hm0
    hpar (fun hu => absurd hu (by decide)) hclock
  refine ⟨hflags, ?_⟩
  intro hne
  rcases hm with ⟨hu, hneg⟩ | ⟨hu, _, htok, href, hacc⟩
  · exfalso
    -- after at least one call the algorithm's bucket is used
    cases calls with
    | nil => exact hne rfl
    | cons c rest =>
      obtain ⟨hrate, hmax⟩ := hpar c (by simp)
      obtain ⟨_, hm1, hu1, hlr⟩ :=
        allow_first_use (TokenBucket.new t0) SpecBucket.unused c.max_tokens c.refill_rate
          c.cost c.now rfl (by norm_num [TokenBucket.new]) hmax
      rw [List.map_cons, List.chain'_cons'] at hclock
      obtain ⟨hhead, htail⟩ := hclock
      obtain ⟨_, hm2⟩ := run_allow_matches rest _ _ hm1
        (fun c1 hc1 => hpar c1 (List.mem_cons_of_mem _ hc1))
        (by
          intro _ c1 hc1
          rw [hlr]
          apply hhead
          rw [List.head?_map, hc1]
          rfl)
        htail
      have hused : ∀ (l : List Call) (s : SpecBucket), s.used = true →
          (run_spec l s).1.used = true := by
        intro l
        induction l with
        | nil => intro s hs; exact hs
        | cons c1 l1 ih1 =>
          intro s hs
          show (run_spec l1 (spec_allow s c1.max_tokens c1.refill_rate c1.cost c1.now).1).1.used
            = true
          apply ih1
          obtain ⟨u, tk, lr, la⟩ := s
          simp only at hs
          rw [spec_allow_later u tk lr la _ _ _ _ hs]
          split <;> rfl
      have hfin : (run_spec (c :: rest) SpecBucket.unused).1.used = true :=
        hused rest _ hu1
      rw [hu] at hfin
      exact absurd hfin (by decide)
  · exact ⟨hu, htok, href, hacc⟩

/-- Witness for C16 as amended: three calls with `max_tokens = 2`,
`refill_rate = 1`, `cost = 1`. -/
theorem allow_follows_six_steps_witness :
    (∀ c ∈ sample_calls, 0 < c.refill_rate ∧ 0 ≤ c.max_tokens) ∧
    List.Chain' (fun a b => a ≤ b) (sample_calls.map Call.now) ∧
    (run_allow sample_calls (TokenBucket.new 0)).2
      = (run_spec sample_calls SpecBucket.unused).2 ∧
    (sample_calls ≠ [] →
      (run_spec sample_calls SpecBucket.unused).1.used = true ∧
      (run_allow sample_calls (TokenBucket.new 0)).1.current_tokens
        = (run_spec sample_calls SpecBucket.unused).1.tokens ∧
      (run_allow sample_calls (TokenBucket.new 0)).1.last_refill_time
        = (run_spec sample_calls SpecBucket.unused).1.last_refill ∧
      (run_allow sample_calls (TokenBucket.new 0)).1.last_access
        = (run_spec sample_calls SpecBucket.unused).1.last_access) :=
  have h1 : ∀ c ∈ sample_calls, 0 < c.refill_rate ∧ 0 ≤ c.max_tokens := by
    intro c hc
    simp only [sample_calls, List.mem_cons, List.mem_singleton, List.mem_nil_iff,
      or_false] at hc
    rcases hc with h | h | h <;> subst h <;> norm_num
  have h2 : List.Chain' (fun a b => a ≤ b) (sample_calls.map Call.now) := by
    simp [sample_calls]
  ⟨h1, h2, allow_follows_six_steps sample_calls 0 h1 h2⟩

/-- C16 fails as stated, at two call sequences with non-decreasing clocks.
(1) With `refill_rate = 0`, calls at 1 s and 5 s: `allow` leaves
`last_refill_time` at 1 s on the second call (`tokens_to_add` is not positive),
while the algorithm sets `last_refill` to 5 s.  (2) With `max_tokens = -10` on
the first call and `-1` on the second: the bucket is still negative, so
`allow` treats the second call as a first use and sets `tokens = -1`, while the
algorithm refills `-10` by one second's worth to `-9`. -/
theorem allow_follows_six_steps_counterexample :
    List.Chain' (fun a b => a ≤ b) (zero_rate_calls.map Call.now) ∧
    (run_allow zero_rate_calls (TokenBucket.new 0)).1.last_refill_time = 1000000000 ∧
    (run_spec zero_rate_calls SpecBucket.unused).1.last_refill = 5000000000 ∧
    List.Chain' (fun a b => a ≤ b) (negative_max_calls.map Call.now) ∧
    (run_allow negative_max_calls (TokenBucket.new 0)).1.current_tokens = -1 ∧
    (run_spec negative_max_calls SpecBucket.unused).1.tokens = -9 := by
  refine ⟨by simp [zero_rate_calls], ?_, ?_, by simp [negative_max_calls], ?_, ?_⟩
  · norm_num [run_allow, TokenBucket.allow, TokenBucket.new, zero_rate_calls, elapsed_seconds]
  · norm_num [run_spec, spec_allow, SpecBucket.unused, zero_rate_calls, elapsed_seconds]
  · norm_num [run_allow, TokenBucket.allow, TokenBucket.new, negative_max_calls,
      elapsed_seconds]
  · norm_num [run_spec, spec_allow, SpecBucket.unused, negative_max_calls, elapsed_seconds]

end token_bucket_hpp

/-! ## Binary64 rounding -/

theorem round_even_int (n : ℤ) : round_even (n : ℚ) = n := by
  simp [round_even]

theorem round_even_mono {x y : ℚ} (h : x ≤ y) : round_even x ≤ round_even y := by
  have hf : ⌊x⌋ ≤ ⌊y⌋ := Int.floor_mono h
  have hx0 := Int.floor_le x
  have hx1 := Int.lt_floor_add_one x
  have hy0 := Int.floor_le y
  have hy1 := Int.lt_floor_add_one y
  have hxle : round_even x ≤ ⌊x⌋ + 1 := by
    unfold round_even; split_ifs <;> omega
  have hyge : ⌊y⌋ ≤ round_even y := by
    unfold round_even; split_ifs <;> omega
  rcases lt_or_eq_of_le hf with hlt | heq
  · omega
  · unfold round_even
    rw [heq]
    rw [heq] at hx0 hx1
    have hxy : x - (⌊y⌋ : ℚ) ≤ y - (⌊y⌋ : ℚ) := by linarith
    split_ifs <;> first | omega | (exfalso; linarith)

theorem round_even_nonneg {x : ℚ} (h : 0 ≤ x) : 0 ≤ round_even x := by
  have := round_even_mono h
  rwa [show ((0 : ℚ)) = ((0 : ℤ) : ℚ) by simp, round_even_int] at this

theorem ulp_pos (q : ℚ) : 0 < Double.ulp q := by
  unfold Double.ulp; positivity

theorem log_le_exponent (q : ℚ) : Int.log 2 |q| ≤ Double.exponent q := le_max_left _ _

theorem exponent_ge (q : ℚ) : -1022 ≤ Double.exponent q := le_max_right _ _

theorem lt_two_pow_exponent (q : ℚ) : |q| < (2 : ℚ) ^ (Double.exponent q + 1) := by
  have h1 := Int.lt_zpow_succ_log_self (b := 2) (by norm_num) |q|
  have h2 : ((2 : ℕ) : ℚ) ^ (Int.log 2 |q| + 1) ≤ (2 : ℚ) ^ (Double.exponent q + 1) := by
    push_cast
    exact zpow_le_zpow_right₀ (by norm_num) (by have := log_le_exponent q; omega)
  exact lt_of_lt_of_le h1 h2

theorem two_pow_exponent_le {q : ℚ} (hq0 : q ≠ 0) (h : -1022 < Double.exponent q) :
    (2 : ℚ) ^ Double.exponent q ≤ |q| := by
  have he : Double.exponent q = Int.log 2 |q| := by
    unfold Double.exponent at h ⊢
    rcases le_total (Int.log 2 |q|) (-1022) with h1 | h1
    · rw [max_eq_right h1] at h; omega
    · exact max_eq_left h1
  have hq : 0 < |q| := abs_pos.mpr hq0
  rw [he]
  have := Int.zpow_log_le_self (b := 2) (by norm_num) hq
  simpa using this

theorem scaled_lt (q : ℚ) : |q| / Double.ulp q < 2 ^ 53 := by
  rw [div_lt_iff₀ (ulp_pos q)]
  have h := lt_two_pow_exponent q
  have : (2 : ℚ) ^ 53 * Double.ulp q = (2 : ℚ) ^ (Double.exponent q + 1) := by
    unfold Double.ulp
    rw [show ((2 : ℚ) ^ 53) = (2 : ℚ) ^ (53 : ℤ) by norm_cast, ← zpow_add₀ (by norm_num)]
    congr 1; ring
  rw [this]; exact h

theorem scaled_ge {q : ℚ} (hq0 : q ≠ 0) (h : -1022 < Double.exponent q) :
    2 ^ 52 ≤ |q| / Double.ulp q := by
  rw [le_div_iff₀ (ulp_pos q)]
  have h1 := two_pow_exponent_le hq0 h
  have : (2 : ℚ) ^ 52 * Double.ulp q = (2 : ℚ) ^ (Double.exponent q) := by
    unfold Double.ulp
    rw [show ((2 : ℚ) ^ 52) = (2 : ℚ) ^ (52 : ℤ) by norm_cast, ← zpow_add₀ (by norm_num)]
    congr 1; ring
  rw [this]; exact h1

theorem nearest_zero : Double.nearest 0 = 0 := by
  simp [Double.nearest, round_even]

theorem nearest_nonneg {q : ℚ} (h : 0 ≤ q) : 0 ≤ Double.nearest q := by
  unfold Double.nearest
  have h1 : 0 ≤ q / Double.ulp q := div_nonneg h (ulp_pos q).le
  have h2 := round_even_nonneg h1
  have h3 : (0 : ℚ) ≤ (round_even (q / Double.ulp q) : ℚ) := by exact_mod_cast h2
  exact mul_nonneg h3 (ulp_pos q).le

theorem exponent_mono {a b : ℚ} (ha : 0 < a) (h : a ≤ b) :
    Double.exponent a ≤ Double.exponent b := by
  unfold Double.exponent
  have hb : 0 < b := lt_of_lt_of_le ha h
  rw [abs_of_pos ha, abs_of_pos hb]
  exact max_le_max (Int.log_mono_right ha h) le_rfl

theorem nearest_mono {a b : ℚ} (ha : 0 ≤ a) (h : a ≤ b) :
    Double.nearest a ≤ Double.nearest b := by
  rcases eq_or_lt_of_le ha with h0 | hpos
  · rw [← h0, nearest_zero]; exact nearest_nonneg (le_trans ha h)
  have hb : 0 < b := lt_of_lt_of_le hpos h
  rcases eq_or_lt_of_le (exponent_mono hpos h) with he | he
  · have hu : Double.ulp a = Double.ulp b := by unfold Double.ulp; rw [he]
    unfold Double.nearest
    rw [hu]
    have h1 : a / Double.ulp b ≤ b / Double.ulp b := div_le_div_of_nonneg_right h (ulp_pos b).le
    have h2 : ((round_even (a / Double.ulp b) : ℤ) : ℚ) ≤ (round_even (b / Double.ulp b) : ℚ) := by
      exact_mod_cast round_even_mono h1
    exact mul_le_mul_of_nonneg_right h2 (ulp_pos b).le
  · have h1 : Double.nearest a ≤ (2 : ℚ) ^ (Double.exponent a + 1) := by
      have hs := scaled_lt a
      rw [abs_of_pos hpos] at hs
      have hr : round_even (a / Double.ulp a) ≤ round_even (((2 ^ 53 : ℤ)) : ℚ) :=
        round_even_mono (by push_cast; exact hs.le)
      rw [round_even_int] at hr
      have hr2 : ((round_even (a / Double.ulp a) : ℤ) : ℚ) ≤ (2 : ℚ) ^ 53 := by exact_mod_cast hr
      have : (2 : ℚ) ^ 53 * Double.ulp a = (2 : ℚ) ^ (Double.exponent a + 1) := by
        unfold Double.ulp
        rw [show ((2 : ℚ) ^ 53) = (2 : ℚ) ^ (53 : ℤ) by norm_cast, ← zpow_add₀ (by norm_num)]
        congr 1; ring
      rw [← this]
      exact mul_le_mul_of_nonneg_right hr2 (ulp_pos a).le
    have h2 : (2 : ℚ) ^ (Double.exponent b) ≤ Double.nearest b := by
      have hlt : -1022 < Double.exponent b := lt_of_le_of_lt (exponent_ge a) he
      have hs := scaled_ge hb.ne' hlt
      rw [abs_of_pos hb] at hs
      have hr : round_even (((2 ^ 52 : ℤ)) : ℚ) ≤ round_even (b / Double.ulp b) :=
        round_even_mono (by push_cast; exact hs)
      rw [round_even_int] at hr
      have hr2 : (2 : ℚ) ^ 52 ≤ ((round_even (b / Double.ulp b) : ℤ) : ℚ) := by exact_mod_cast hr
      have : (2 : ℚ) ^ 52 * Double.ulp b = (2 : ℚ) ^ (Double.exponent b) := by
        unfold Double.ulp
        rw [show ((2 : ℚ) ^ 52) = (2 : ℚ) ^ (52 : ℤ) by norm_cast, ← zpow_add₀ (by norm_num)]
        congr 1; ring
      rw [← this]
      exact mul_le_mul_of_nonneg_right hr2 (ulp_pos b).le
    have h3 : (2 : ℚ) ^ (Double.exponent a + 1) ≤ (2 : ℚ) ^ (Double.exponent b) :=
      zpow_le_zpow_right₀ (by norm_num) (by omega)
    linarith

theorem nearest_exact {q : ℚ} (h : Double.representable q) : Double.nearest q = q := by
  obtain ⟨_, m, p, hm, hp, hq⟩ := h
  rcases eq_or_ne q 0 with h0 | h0
  · rw [h0, nearest_zero]
  have hpe : Double.exponent q - 52 ≤ p := by
    by_contra hn
    have hlt : p + 52 < Double.exponent q := by omega
    have hex : -1022 < Double.exponent q := by omega
    have h1 := two_pow_exponent_le h0 hex
    have h2 : |q| < (2 : ℚ) ^ (p + 53) := by
      rw [hq, abs_mul, abs_of_pos (show (0 : ℚ) < (2 : ℚ) ^ p by positivity)]
      have hm2 : |(m : ℚ)| < (2 : ℚ) ^ (53 : ℤ) := by
        have : ((|m| : ℤ) : ℚ) < ((2 ^ 53 : ℤ) : ℚ) := by exact_mod_cast hm
        rw [Int.cast_abs] at this
        norm_num at this ⊢
        exact this
      rw [show p + 53 = 53 + p by ring, zpow_add₀ (by norm_num)]
      exact mul_lt_mul_of_pos_right hm2 (by positivity)
    have h3 : (2 : ℚ) ^ (p + 53) ≤ (2 : ℚ) ^ (Double.exponent q) :=
      zpow_le_zpow_right₀ (by norm_num) (by omega)
    linarith
  obtain ⟨k, hk⟩ := Int.eq_ofNat_of_zero_le (show 0 ≤ p - (Double.exponent q - 52) by omega)
  have hdiv : q / Double.ulp q = ((m * 2 ^ k : ℤ) : ℚ) := by
    have h1 : q / Double.ulp q = (m : ℚ) * (2 : ℚ) ^ p / (2 : ℚ) ^ (Double.exponent q - 52) :=
      congrArg (fun x => x / (2 : ℚ) ^ (Double.exponent q - 52)) hq
    rw [h1, mul_div_assoc, ← zpow_sub₀ (by norm_num), hk, zpow_natCast]
    push_cast
    rfl
  unfold Double.nearest
  rw [hdiv, round_even_int, ← hdiv]
  exact div_mul_cancel₀ q (ulp_pos q).ne'

theorem round_exact {q : ℚ} (h : Double.representable q) : Double.round q = Double.fin q := by
  unfold Double.round
  rw [nearest_exact h, if_neg (not_le.mpr h.1)]

theorem round_even_eq (x : ℚ) (n : ℤ)
    (h : |x - n| < 1 / 2 ∨ (|x - n| = 1 / 2 ∧ n % 2 = 0)) : round_even x = n := by
  rcases le_total (n : ℚ) x with hx | hx
  · have hab : |x - n| = x - n := abs_of_nonneg (by linarith)
    have hfl : ⌊x⌋ = n := by
      rw [Int.floor_eq_iff]
      rcases h with h | h
      · rw [hab] at h; constructor <;> linarith
      · rw [hab] at h; constructor <;> linarith [h.1]
    unfold round_even
    rw [hfl]
    rcases h with h | ⟨h, hn⟩
    · rw [hab] at h
      rw [if_pos h]
    · rw [hab] at h
      rw [if_neg (by linarith), if_neg (by linarith), if_pos hn]
  · rcases eq_or_lt_of_le hx with hx | hx
    · subst hx
      exact round_even_int n
    have hab : |x - n| = n - x := by rw [abs_of_neg (by linarith)]; ring
    have hfl : ⌊x⌋ = n - 1 := by
      rw [Int.floor_eq_iff]
      push_cast
      rcases h with h | h
      · rw [hab] at h; constructor <;> linarith
      · rw [hab] at h; constructor <;> linarith [h.1]
    unfold round_even
    rw [hfl]
    push_cast
    rcases h with h | ⟨h, hn⟩
    · rw [hab] at h
      rw [if_neg (by linarith), if_pos (by linarith)]
      ring
    · rw [hab] at h
      rw [if_neg (by linarith), if_neg (by linarith), if_neg (by omega)]
      ring

theorem exponent_eq (q : ℚ) (e : ℤ) (h1 : (2 : ℚ) ^ e ≤ |q|) (h2 : |q| < (2 : ℚ) ^ (e + 1))
    (he : -1022 ≤ e) : Double.exponent q = e := by
  have hpos : 0 < |q| := lt_of_lt_of_le (by positivity) h1
  have hlog : Int.log 2 |q| = e := by
    apply le_antisymm
    · have := (Int.lt_zpow_iff_log_lt (b := 2) (by norm_num) hpos).1 (by simpa using h2)
      omega
    · exact (Int.zpow_le_iff_le_log (b := 2) (by norm_num) hpos).1 (by simpa using h1)
  unfold Double.exponent
  rw [hlog]
  exact max_eq_left he

/-- Evaluation of one rounding: `q` lies in the binade of exponent `e`, and `n`
is the nearest multiple of the spacing there, ties to even. -/
theorem round_eval (q r : ℚ) (e n : ℤ) (h1 : (2 : ℚ) ^ e ≤ |q|) (h2 : |q| < (2 : ℚ) ^ (e + 1))
    (he : -1022 ≤ e)
    (hn : |q / (2 : ℚ) ^ (e - 52) - n| < 1 / 2 ∨
      (|q / (2 : ℚ) ^ (e - 52) - n| = 1 / 2 ∧ n % 2 = 0))
    (hr : r = (n : ℚ) * (2 : ℚ) ^ (e - 52)) (hfin : |r| < (2 : ℚ) ^ (1024 : ℕ)) :
    Double.round q = Double.fin r := by
  have hnear : Double.nearest q = r := by
    unfold Double.nearest Double.ulp
    rw [exponent_eq q e h1 h2 he, round_even_eq _ n hn, hr]
  unfold Double.round
  rw [hnear, if_neg (not_le.2 hfin)]

theorem representable_of (q : ℚ) (m p : ℤ) (hm : |m| < 2 ^ 53) (hp : -1074 ≤ p)
    (hp2 : p ≤ 970) (hq : q = (m : ℚ) * (2 : ℚ) ^ p) : Double.representable q := by
  refine ⟨?_, m, p, hm, hp, hq⟩
  rw [hq, abs_mul, abs_of_pos (show (0 : ℚ) < (2 : ℚ) ^ p by positivity)]
  have hm2 : |(m : ℚ)| < (2 : ℚ) ^ (53 : ℤ) := by
    have : ((|m| : ℤ) : ℚ) < ((2 ^ 53 : ℤ) : ℚ) := by exact_mod_cast hm
    rw [Int.cast_abs] at this
    norm_num at this ⊢
    exact this
  have h1 : |(m : ℚ)| * (2 : ℚ) ^ p ≤ (2 : ℚ) ^ (53 : ℤ) * (2 : ℚ) ^ p :=
    mul_le_mul_of_nonneg_right hm2.le (by positivity)
  have h2 : (2 : ℚ) ^ (53 : ℤ) * (2 : ℚ) ^ p ≤ (2 : ℚ) ^ (1023 : ℤ) := by
    rw [← zpow_add₀ (by norm_num)]
    exact zpow_le_zpow_right₀ (by norm_num) (by omega)
  have h3 : (2 : ℚ) ^ (1023 : ℤ) < (2 : ℚ) ^ (1024 : ℕ) := by
    rw [← zpow_natCast]
    exact zpow_lt_zpow_right₀ (by norm_num) (by norm_num)
  linarith

theorem representable_int (z : ℤ) (h : |z| ≤ 2 ^ 53) : Double.representable (z : ℚ) := by
  rcases eq_or_lt_of_le h with h | h
  · have hz : z = 2 ^ 53 ∨ z = -2 ^ 53 := by
      rcases abs_cases z with ⟨h1, _⟩ | ⟨h1, _⟩ <;> omega
    rcases hz with hz | hz
    · exact representable_of _ (2 ^ 52) 1 (by norm_num) (by norm_num) (by norm_num)
        (by rw [hz]; norm_num)
    · exact representable_of _ (-2 ^ 52) 1 (by norm_num) (by norm_num) (by norm_num)
        (by rw [hz]; norm_num)
  · exact representable_of _ z 0 h (by norm_num) (by norm_num) (by simp)

theorem round_int (z : ℤ) (h : |z| ≤ 2 ^ 53) : Double.round (z : ℚ) = Double.fin (z : ℚ) :=
  round_exact (representable_int z h)

theorem round_zero : Double.round 0 = Double.fin 0 := by
  have := round_int 0 (by norm_num)
  simpa using this

/-- Rounding keeps a non-negative result below a representable bound finite,
non-negative and below that bound. -/
theorem round_le_of_le {a b : ℚ} (ha : 0 ≤ a) (hab : a ≤ b) (hb : Double.representable b) :
    ∃ r, Double.round a = Double.fin r ∧ 0 ≤ r ∧ r ≤ b := by
  have h1 : Double.nearest a ≤ b := by
    have := nearest_mono ha hab
    rwa [nearest_exact hb] at this
  have h0 := nearest_nonneg ha
  refine ⟨Double.nearest a, ?_, h0, h1⟩
  unfold Double.round
  rw [if_neg]
  rw [not_le, abs_of_nonneg h0]
  have := hb.1
  rw [abs_of_nonneg (le_trans ha hab)] at this
  linarith

/-- Rounding keeps a result above a representable non-negative bound above
that bound: the rounded value is finite and not below it, or `+inf`. -/
theorem round_ge_of_ge {a l : ℚ} (hl : 0 ≤ l) (hla : l ≤ a) (hl2 : Double.representable l) :
    Double.round a = Double.inf false ∨ ∃ r, Double.round a = Double.fin r ∧ l ≤ r := by
  have h1 : l ≤ Double.nearest a := by
    have := nearest_mono hl hla
    rwa [nearest_exact hl2] at this
  unfold Double.round
  by_cases h : (2 : ℚ) ^ (1024 : ℕ) ≤ |Double.nearest a|
  · left
    rw [if_pos h]
    have : ¬ a < 0 := not_lt.2 (le_trans hl hla)
    simp [this]
  · right
    rw [if_neg h]
    exact ⟨_, rfl, h1⟩

theorem to_int_intCast (z : ℤ) (h1 : -2147483648 ≤ z) (h2 : z ≤ 2147483647) :
    Double.to_int (Double.fin (z : ℚ)) = z := by
  unfold Double.to_int
  simp only [Rat.num_intCast, Rat.den_intCast, Nat.cast_one, Int.tdiv_one]
  rw [if_pos ⟨h1, h2⟩]

theorem to_int_out_of_range (z : ℤ) (h : 2147483647 < z) :
    Double.to_int (Double.fin (z : ℚ)) = -2147483648 := by
  unfold Double.to_int
  simp only [Rat.num_intCast, Rat.den_intCast, Nat.cast_one, Int.tdiv_one]
  rw [if_neg (by omega)]

/-! ## One call of `is_allowed` in binary64 arithmetic -/

theorem binary64_inv (hash : String → Nat) (now : Nat) (key : String)
    (m m1 : RateLimitManager) (o : Outcome)
    (h : binary64.is_allowed hash now key m = some (m1, o)) :
    ∃ idx shard b, get_shard_index m hash key = some idx ∧ m.shards_[idx]? = some shard ∧
      binary64.check m.cfg_ now (current m hash key) = some (b, o) ∧
      m1 = { m with shards_ := m.shards_.set idx (Shard.mk (store shard.buckets key b)) } := by
  unfold binary64.is_allowed at h
  split at h
  · exact absurd h (by simp)
  · rename_i idx hidx
    split at h
    · exact absurd h (by simp)
    · rename_i shard hsh
      have hcur : current m hash key = (find shard.buckets key).getD TokenBucket.value_init := by
        simp [current, lookup, shard_find, hidx, hsh]
      split at h
      · exact absurd h (by simp)
      · rename_i r hr
        simp only [Option.some.injEq, Prod.mk.injEq] at h
        refine ⟨idx, shard, r.1, hidx, hsh, ?_, h.1.symm⟩
        rw [hcur, hr, ← h.2]

theorem binary64_step (hash : String → Nat) (now : Nat) (key : String)
    (m : RateLimitManager) (hv : m.valid) (b : TokenBucket) (o : Outcome)
    (h : binary64.check m.cfg_ now (current m hash key) = some (b, o)) :
    ∃ idx shard, get_shard_index m hash key = some idx ∧ m.shards_[idx]? = some shard ∧
      binary64.is_allowed hash now key m =
        some ({ m with shards_ := m.shards_.set idx (Shard.mk (store shard.buckets key b)) },
              o) := by
  obtain ⟨idx, hidx, hlt⟩ := get_shard_index_valid m hash key hv
  have hsh : m.shards_[idx]? = some (m.shards_[idx]) := List.getElem?_eq_getElem hlt
  have hcur : current m hash key
      = (find (m.shards_[idx]).buckets key).getD TokenBucket.value_init := by
    simp [current, lookup, shard_find, hidx, hsh]
  refine ⟨idx, m.shards_[idx], hidx, hsh, ?_⟩
  rw [hcur] at h
  unfold binary64.is_allowed
  simp only [hidx, hsh, h]

theorem stored_state (hash : String → Nat) (key : String) (m : RateLimitManager)
    (hv : m.valid) (idx : Nat) (shard : Shard) (b : TokenBucket)
    (hidx : get_shard_index m hash key = some idx) (hsh : m.shards_[idx]? = some shard) :
    lookup { m with shards_ := m.shards_.set idx (Shard.mk (store shard.buckets key b)) }
        hash key = some b ∧
    RateLimitManager.valid
      { m with shards_ := m.shards_.set idx (Shard.mk (store shard.buckets key b)) } ∧
    ∀ other, other ≠ key →
      lookup { m with shards_ := m.shards_.set idx (Shard.mk (store shard.buckets key b)) }
        hash other = lookup m hash other := by
  have hlt : idx < m.shards_.length := by
    rcases Nat.lt_or_ge idx m.shards_.length with hlt | hge
    · exact hlt
    · rw [List.getElem?_eq_none hge] at hsh
      exact absurd hsh (by simp)
  obtain ⟨h1, h2, h3, h4⟩ := hv
  refine ⟨?_, ⟨h1, h2, by simpa using h3, ?_⟩, ?_⟩
  · have hi : get_shard_index
        { m with shards_ := m.shards_.set idx (Shard.mk (store shard.buckets key b)) } hash key
        = some idx := hidx
    unfold lookup
    rw [hi]
    simp only [shard_find, List.getElem?_set_self hlt, find_store_self]
  · intro s hs
    rcases List.mem_or_eq_of_mem_set hs with hs | hs
    · exact h4 s hs
    · rw [hs]
      exact nodup_keys_store _ _ _ (h4 shard (List.getElem?_mem hsh))
  · intro other hne
    have hi : get_shard_index
        { m with shards_ := m.shards_.set idx (Shard.mk (store shard.buckets key b)) } hash other
        = get_shard_index m hash other := rfl
    unfold lookup
    rw [hi]
    cases hj : get_shard_index m hash other with
    | none => rfl
    | some j =>
      by_cases hij : idx = j
      · subst hij
        simp only [shard_find, List.getElem?_set_self hlt, hsh, find_store_ne _ _ _ _ hne]
      · simp only [shard_find, List.getElem?_set_ne hij]

/-- A call in binary64 arithmetic on a valid engine: whatever the bucket step
returns is returned by the call, and stored for the key. -/
theorem binary64_is_allowed_check (hash : String → Nat) (now : Nat) (key : String)
    (m : RateLimitManager) (hv : m.valid) (b : TokenBucket) (o : Outcome)
    (h : binary64.check m.cfg_ now (current m hash key) = some (b, o)) :
    ∃ m1, binary64.is_allowed hash now key m = some (m1, o) ∧
      lookup m1 hash key = some b ∧ m1.cfg_ = m.cfg_ ∧ m1.valid ∧
      ∀ other, other ≠ key → lookup m1 hash other = lookup m hash other := by
  obtain ⟨idx, shard, hidx, hsh, hm⟩ := binary64_step hash now key m hv b o h
  obtain ⟨hl, hv1, hfr⟩ := stored_state hash key m hv idx shard b hidx hsh
  exact ⟨_, hm, hl, rfl, hv1, hfr⟩

/-- A call in binary64 arithmetic that returns: its results are those of the
bucket step on the key's current bucket. -/
theorem binary64_is_allowed_inv (hash : String → Nat) (now : Nat) (key : String)
    (m m1 : RateLimitManager) (o : Outcome) (hv : m.valid)
    (h : binary64.is_allowed hash now key m = some (m1, o)) :
    ∃ b, binary64.check m.cfg_ now (current m hash key) = some (b, o) ∧
      lookup m1 hash key = some b ∧ m1.cfg_ = m.cfg_ ∧ m1.valid := by
  obtain ⟨idx, shard, b, hidx, hsh, hc, hm⟩ := binary64_inv hash now key m m1 o h
  obtain ⟨hl, hv1, _⟩ := stored_state hash key m hv idx shard b hidx hsh
  subst hm
  exact ⟨b, hc, hl, rfl, hv1⟩

theorem sub_fin (a b : ℚ) : Double.sub (Double.fin a) (Double.fin b) = Double.round (a - b) := by
  simp [Double.sub, Double.neg, Double.add, sub_eq_add_neg]

theorem min_fin (a b : ℚ) : Double.min (Double.fin a) (Double.fin b) = Double.fin (min a b) := by
  unfold Double.min Double.lt
  by_cases h : b < a
  · simp [h, min_eq_right h.le]
  · simp [h, min_eq_left (not_lt.1 h)]

theorem binary64_check_admitted (cfg : Config) (now : Nat) (b : TokenBucket) (t left : ℚ)
    (hT : binary64.refilled cfg now b = Double.fin t) (hle : cfg.token_cost ≤ t)
    (hsub : Double.round (t - cfg.token_cost) = Double.fin left) :
    binary64.check cfg now b =
      some ({ tokens := left, last_update := now, last_access := now },
            { allowed := true, remaining := Double.to_int (Double.floor (Double.fin left)),
              wait_time := 0,
              reset_after := Double.to_int (Double.ceil
                (Double.div (Double.round (cfg.max_tokens - t)) (Double.fin cfg.refill_rate))) }) := by
  unfold binary64.check
  simp only [hT, sub_fin, hsub, Double.le, hle, decide_True, if_true]

theorem binary64_check_denied (cfg : Config) (now : Nat) (b : TokenBucket) (t : ℚ)
    (hT : binary64.refilled cfg now b = Double.fin t) (hlt : t < cfg.token_cost) :
    binary64.check cfg now b =
      some ({ tokens := t, last_update := now, last_access := now },
            { allowed := false, remaining := 0,
              wait_time := Double.to_int (Double.ceil
                (Double.div (Double.round (cfg.token_cost - t)) (Double.fin cfg.refill_rate))),
              reset_after := Double.to_int (Double.ceil
                (Double.div (Double.round (cfg.max_tokens - t)) (Double.fin cfg.refill_rate))) }) := by
  unfold binary64.check
  simp only [hT, sub_fin, Double.le, not_le.2 hlt, decide_False, Bool.false_eq_true, if_false]

/-- The refill step in binary64 arithmetic when every operation is exact: the
elapsed time is `k` whole seconds, and the stored count `n` and the refill
`k * refill_rate` are whole numbers of moderate size. -/
theorem binary64_refilled_whole (cfg : Config) (now : Nat) (b : TokenBucket) (k : ℕ) (n p : ℤ)
    (hnow : now = b.last_update + k * 1000000000) (hk : k ≤ 4000000000)
    (hn : b.tokens = n) (hp : (k : ℚ) * cfg.refill_rate = p)
    (hn2 : |n| ≤ 2147483648) (hp2 : |p| ≤ 4503599627370496) :
    binary64.refilled cfg now b = Double.fin (refilled cfg now b) := by
  have hconv : Double.of_int ((now : Int) - (b.last_update : Int))
      = Double.fin ((k : ℚ) * 1000000000) := by
    have hz : (now : Int) - (b.last_update : Int) = (k : ℤ) * 1000000000 := by
      rw [hnow]; push_cast; ring
    unfold Double.of_int
    rw [hz]
    push_cast
    apply round_exact
    have hk1 : (k : ℤ) ≤ 4000000000 := by exact_mod_cast hk
    have hk0 : (0 : ℤ) ≤ (k : ℤ) := Int.natCast_nonneg k
    have hm : |(k : ℤ) * 1953125| < 2 ^ 53 := by
      rw [abs_of_nonneg (by omega)]
      norm_num
      omega
    refine representable_of _ ((k : ℤ) * 1953125) 9 hm (by norm_num) (by norm_num) ?_
    push_cast
    ring
  have hel : binary64.elapsed_seconds now b.last_update = Double.fin (k : ℚ) := by
    unfold binary64.elapsed_seconds
    rw [hconv]
    have hq : (k : ℚ) * 1000000000 / 1000000000 = ((k : ℤ) : ℚ) := by
      push_cast; field_simp
    have hk1 : (k : ℤ) ≤ 4000000000 := by exact_mod_cast hk
    have hk0 : (0 : ℤ) ≤ (k : ℤ) := Int.natCast_nonneg k
    have hr := round_int (k : ℤ) (by rw [abs_of_nonneg hk0]; norm_num; omega)
    simp only [Double.div]
    rw [if_neg (by norm_num), hq, hr]
    push_cast
    rfl
  have hex : elapsed_seconds now b.last_update = (k : ℚ) := by
    unfold elapsed_seconds
    rw [hnow]; push_cast; field_simp
  unfold binary64.refilled refilled
  rw [hel, hex]
  have hmul : Double.mul (Double.fin (k : ℚ)) (Double.fin cfg.refill_rate)
      = Double.fin ((k : ℚ) * cfg.refill_rate) := by
    simp only [Double.mul]
    rw [hp]
    exact round_int p (by norm_num; omega)
  rw [hmul]
  have hadd : Double.add (Double.fin b.tokens) (Double.fin ((k : ℚ) * cfg.refill_rate))
      = Double.fin (b.tokens + (k : ℚ) * cfg.refill_rate) := by
    simp only [Double.add]
    rw [hn, hp]
    have := round_int (n + p) (by
      have := abs_add n p
      norm_num
      omega)
    push_cast at this
    exact this
  rw [hadd, min_fin]

/-- The quotient of two whole numbers of moderate size, rounded to binary64,
has the ceiling of the exact quotient. -/
theorem ceil_round_quotient (a b : ℤ) (ha : 0 ≤ a) (ha2 : a ≤ 2147483647) (hb : 1 ≤ b)
    (hb2 : b ≤ 1048576) :
    ∃ r, Double.round ((a : ℚ) / (b : ℚ)) = Double.fin r ∧ ⌈r⌉ = ⌈(a : ℚ) / (b : ℚ)⌉ ∧
      0 ≤ ⌈r⌉ ∧ ⌈r⌉ ≤ 2147483647 := by
  have hbq : (0 : ℚ) < (b : ℚ) := by exact_mod_cast (by omega : (0 : ℤ) < b)
  have haq : (0 : ℚ) ≤ (a : ℚ) := by exact_mod_cast ha
  have hq0 : (0 : ℚ) ≤ (a : ℚ) / (b : ℚ) := div_nonneg haq hbq.le
  have hk0 : 0 ≤ ⌈(a : ℚ) / (b : ℚ)⌉ := Int.ceil_nonneg hq0
  have hka : ⌈(a : ℚ) / (b : ℚ)⌉ ≤ a := by
    apply Int.ceil_le.2
    rw [div_le_iff₀ hbq]
    have : (1 : ℚ) ≤ (b : ℚ) := by exact_mod_cast hb
    nlinarith
  obtain ⟨r, hr, hr0, hrk⟩ := round_le_of_le hq0 (Int.le_ceil _)
    (representable_int ⌈(a : ℚ) / (b : ℚ)⌉ (by rw [abs_of_nonneg hk0]; norm_num; omega))
  refine ⟨r, hr, ?_, ?_, ?_⟩
  · rw [Int.ceil_eq_iff]
    refine ⟨?_, hrk⟩
    -- the exact quotient exceeds `k - 1` by at least `1 / b`
    have hgt : ((⌈(a : ℚ) / (b : ℚ)⌉ - 1 : ℤ) : ℚ) < (a : ℚ) / (b : ℚ) := by
      have := Int.ceil_lt_add_one ((a : ℚ) / (b : ℚ))
      push_cast
      linarith
    rcases eq_or_lt_of_le hk0 with hz | hz
    · rw [← hz]
      push_cast
      linarith
    have hstep : ((⌈(a : ℚ) / (b : ℚ)⌉ - 1 : ℤ) : ℚ) * (b : ℚ) < (a : ℚ) := by
      rwa [lt_div_iff₀ hbq] at hgt
    have hstepz : (⌈(a : ℚ) / (b : ℚ)⌉ - 1) * b + 1 ≤ a := by
      have : (⌈(a : ℚ) / (b : ℚ)⌉ - 1) * b < a := by exact_mod_cast hstep
      omega
    have hlow : ((⌈(a : ℚ) / (b : ℚ)⌉ - 1 : ℤ) : ℚ) + 1 / 1048576 ≤ (a : ℚ) / (b : ℚ) := by
      rw [le_div_iff₀ hbq]
      have h1 : (((⌈(a : ℚ) / (b : ℚ)⌉ - 1) * b + 1 : ℤ) : ℚ) ≤ (a : ℚ) := by
        exact_mod_cast hstepz
      push_cast at h1
      have h2 : (b : ℚ) ≤ 1048576 := by exact_mod_cast hb2
      push_cast
      nlinarith
    have hl0 : (0 : ℚ) ≤ ((⌈(a : ℚ) / (b : ℚ)⌉ - 1 : ℤ) : ℚ) + 1 / 1048576 := by
      have : (0 : ℚ) ≤ ((⌈(a : ℚ) / (b : ℚ)⌉ - 1 : ℤ) : ℚ) := by
        exact_mod_cast (by omega : (0 : ℤ) ≤ ⌈(a : ℚ) / (b : ℚ)⌉ - 1)
      linarith
    have hrep : Double.representable
        (((⌈(a : ℚ) / (b : ℚ)⌉ - 1 : ℤ) : ℚ) + 1 / 1048576) := by
      refine representable_of _ ((⌈(a : ℚ) / (b : ℚ)⌉ - 1) * 1048576 + 1) (-20) ?_
        (by norm_num) (by norm_num) ?_
      · rw [abs_of_nonneg (by omega)]
        norm_num
        omega
      · push_cast
        norm_num
        ring
    rcases round_ge_of_ge hl0 hlow hrep with hinf | ⟨r2, hr2, hle⟩
    · rw [hr] at hinf
      exact absurd hinf (by simp)
    · rw [hr] at hr2
      cases hr2
      push_cast at hle ⊢
      linarith
  · exact Int.ceil_nonneg hr0
  · have : ⌈r⌉ ≤ ⌈(a : ℚ) / (b : ℚ)⌉ := Int.ceil_le.2 hrk
    omega
theorem floor_to_int (z : ℤ) (h1 : -2147483648 ≤ z) (h2 : z ≤ 2147483647) :
    Double.to_int (Double.floor (Double.fin (z : ℚ))) = z := by
  simp only [Double.floor, Int.floor_intCast]
  exact to_int_intCast z h1 h2

/-- The bucket step in binary64 arithmetic on whole numbers: with the stored
count, `max_tokens`, `token_cost` and the refill `k * refill_rate` whole
numbers of moderate size and `k` whole seconds elapsed, every operation on the
token count is exact, so the step stores what the exact step stores and
returns the same `allowed` and `remaining`. -/
theorem binary64_check_whole (cfg : Config) (now : Nat) (b : TokenBucket) (k : ℕ)
    (n p M C : ℤ) (hnow : now = b.last_update + k * 1000000000) (hk : k ≤ 4000000000)
    (hn : b.tokens = n) (hp : (k : ℚ) * cfg.refill_rate = p)
    (hM : cfg.max_tokens = M) (hC : cfg.token_cost = C)
    (hn2 : |n| ≤ 2147483648) (hp2 : |p| ≤ 4503599627370496)
    (hM2 : |M| ≤ 2147483647) (hC0 : 0 ≤ C) (hC2 : C ≤ 2147483647) :
    ∃ o, binary64.check cfg now b = some ((b.check cfg now).1, o) ∧
      o.allowed = (b.check cfg now).2.allowed ∧
      o.remaining = (b.check cfg now).2.remaining ∧
      binary64.refilled cfg now b = Double.fin (refilled cfg now b) ∧
      o.wait_time = (if cfg.token_cost ≤ refilled cfg now b then 0 else
        Double.to_int (Double.ceil (Double.div
          (Double.fin (cfg.token_cost - refilled cfg now b)) (Double.fin cfg.refill_rate)))) ∧
      o.reset_after = Double.to_int (Double.ceil (Double.div
          (Double.fin (cfg.max_tokens - refilled cfg now b)) (Double.fin cfg.refill_rate))) := by
  have hT := binary64_refilled_whole cfg now b k n p hnow hk hn hp hn2 hp2
  have hex : elapsed_seconds now b.last_update = (k : ℚ) := by
    unfold elapsed_seconds
    rw [hnow]; push_cast; field_simp
  have hTz : refilled cfg now b = ((min M (n + p) : ℤ) : ℚ) := by
    unfold refilled
    rw [hex, hn, hp, hM]
    push_cast
    rfl
  have hn3 := abs_le.1 hn2
  have hp3 := abs_le.1 hp2
  have hM3 := abs_le.1 hM2
  have hTle : min M (n + p) ≤ M := min_le_left _ _
  have hTge : -4503599627370496 - 2147483648 ≤ min M (n + p) := by
    apply le_min <;> omega
  have hmiss : Double.round (cfg.max_tokens - refilled cfg now b)
      = Double.fin (cfg.max_tokens - refilled cfg now b) := by
    rw [hTz, hM]
    have := round_int (M - min M (n + p)) (by rw [abs_le]; norm_num; omega)
    push_cast at this ⊢
    exact this
  by_cases hle : cfg.token_cost ≤ refilled cfg now b
  · have hCT : C ≤ min M (n + p) := by
      rw [hTz, hC] at hle
      exact_mod_cast hle
    have hsub : Double.round (refilled cfg now b - cfg.token_cost)
        = Double.fin (refilled cfg now b - cfg.token_cost) := by
      rw [hTz, hC]
      have := round_int (min M (n + p) - C) (by rw [abs_le]; norm_num; omega)
      push_cast at this ⊢
      exact this
    rw [binary64_check_admitted cfg now b _ _ hT hle hsub, check_when_admitted cfg now b hle,
      hmiss]
    refine ⟨_, rfl, rfl, ?_, hT, ?_, rfl⟩
    · show Double.to_int (Double.floor (Double.fin (refilled cfg now b - cfg.token_cost)))
        = ⌊refilled cfg now b - cfg.token_cost⌋
      rw [hTz, hC]
      have hcast : (((min M (n + p) : ℤ) : ℚ) - (C : ℚ)) = ((min M (n + p) - C : ℤ) : ℚ) := by
        push_cast; rfl
      rw [hcast, floor_to_int _ (by omega) (by omega), Int.floor_intCast]
    · rw [if_pos hle]
  · have hlt : refilled cfg now b < cfg.token_cost := not_le.1 hle
    have hshort : Double.round (cfg.token_cost - refilled cfg now b)
        = Double.fin (cfg.token_cost - refilled cfg now b) := by
      rw [hTz, hC]
      have := round_int (C - min M (n + p)) (by rw [abs_le]; norm_num; omega)
      push_cast at this ⊢
      exact this
    rw [binary64_check_denied cfg now b _ hT hlt, check_when_denied cfg now b hlt, hmiss, hshort]
    refine ⟨_, rfl, rfl, rfl, hT, ?_, rfl⟩
    rw [if_neg hle]

/-- The conversion of the ceiling of a rounded quotient of whole numbers. -/
theorem quotient_to_int (x r : ℚ) (a rt : ℤ) (hx : x = a) (hr : r = rt) (ha : 0 ≤ a)
    (ha2 : a ≤ 2147483647) (hb : 1 ≤ rt) (hb2 : rt ≤ 1048576) :
    Double.to_int (Double.ceil (Double.div (Double.fin x) (Double.fin r))) = ⌈x / r⌉ := by
  obtain ⟨q, hq, hceil, h0, h1⟩ := ceil_round_quotient a rt ha ha2 hb hb2
  have hr0 : r ≠ 0 := by
    rw [hr]
    exact_mod_cast (by omega : rt ≠ 0)
  simp only [Double.div]
  rw [if_neg hr0, hx, hr, hq]
  simp only [Double.ceil]
  rw [to_int_intCast _ (by omega) h1, hceil]

/-- The bucket step in binary64 arithmetic on whole numbers with a whole
`refill_rate` of at least 1: the step is the exact step, all four results
included. -/
theorem binary64_check_whole_rate (cfg : Config) (now : Nat) (b : TokenBucket) (k : ℕ)
    (n M C R : ℤ) (hnow : now = b.last_update + k * 1000000000) (hk : k ≤ 4000000000)
    (hn : b.tokens = n) (hR : cfg.refill_rate = R)
    (hM : cfg.max_tokens = M) (hC : cfg.token_cost = C)
    (hn0 : 0 ≤ n) (hn2 : n ≤ 2147483647) (hR1 : 1 ≤ R) (hR2 : R ≤ 1048576)
    (hM0 : 0 ≤ M) (hM2 : M ≤ 2147483647) (hC0 : 0 ≤ C) (hC2 : C ≤ 2147483647) :
    binary64.check cfg now b = some (b.check cfg now) := by
  have hk1 : (k : ℤ) ≤ 4000000000 := by exact_mod_cast hk
  have hk0 : (0 : ℤ) ≤ (k : ℤ) := Int.natCast_nonneg k
  have hp : (k : ℚ) * cfg.refill_rate = (((k : ℤ) * R : ℤ) : ℚ) := by
    rw [hR]; push_cast; rfl
  have hp0 : 0 ≤ (k : ℤ) * R := by positivity
  have hp2 : (k : ℤ) * R ≤ 4503599627370496 := by nlinarith
  obtain ⟨o, hc, ha, hrem, _, hw, hreset⟩ :=
    binary64_check_whole cfg now b k n ((k : ℤ) * R) M C hnow hk hn hp hM hC
      (by rw [abs_le]; omega) (by rw [abs_le]; omega) (by rw [abs_le]; omega) hC0 hC2
  have hex : elapsed_seconds now b.last_update = (k : ℚ) := by
    unfold elapsed_seconds
    rw [hnow]; push_cast; field_simp
  have hTz : refilled cfg now b = ((min M (n + (k : ℤ) * R) : ℤ) : ℚ) := by
    unfold refilled
    rw [hex, hn, hR, hM]
    push_cast
    rfl
  have hT0 : 0 ≤ min M (n + (k : ℤ) * R) := le_min hM0 (by omega)
  have hTle : min M (n + (k : ℤ) * R) ≤ M := min_le_left _ _
  have hreset2 : o.reset_after = ⌈(cfg.max_tokens - refilled cfg now b) / cfg.refill_rate⌉ := by
    rw [hreset]
    exact quotient_to_int _ _ (M - min M (n + (k : ℤ) * R)) R
      (by rw [hM, hTz]; push_cast; rfl) hR (by omega) (by omega) hR1 hR2
  rw [hc]
  congr 1
  by_cases hle : cfg.token_cost ≤ refilled cfg now b
  · rw [if_pos hle] at hw
    rw [check_when_admitted cfg now b hle] at ha hrem ⊢
    have : o = { allowed := o.allowed, remaining := o.remaining, wait_time := o.wait_time,
                 reset_after := o.reset_after } := rfl
    rw [this, ha, hrem, hw, hreset2]
  · have hlt : refilled cfg now b < cfg.token_cost := not_le.1 hle
    have hCT : min M (n + (k : ℤ) * R) < C := by
      rw [hTz, hC] at hlt
      exact_mod_cast hlt
    rw [if_neg hle] at hw
    have hw2 : o.wait_time = ⌈(cfg.token_cost - refilled cfg now b) / cfg.refill_rate⌉ := by
      rw [hw]
      exact quotient_to_int _ _ (C - min M (n + (k : ℤ) * R)) R
        (by rw [hC, hTz]; push_cast; rfl) hR (by omega) (by omega) hR1 hR2
    rw [check_when_denied cfg now b hlt] at ha hrem ⊢
    have : o = { allowed := o.allowed, remaining := o.remaining, wait_time := o.wait_time,
                 reset_after := o.reset_after } := rfl
    rw [this, ha, hrem, hw2, hreset2]

/-! ## C21: the read-only queries of `token_bucket.hpp` -/

namespace token_bucket_hpp

theorem run_queries_unchanged (qs : List Query) :
    ∀ b : TokenBucket, (run_queries qs b).1 = b ∧
      (run_queries qs b).2 = qs.map fun q => (ask b q).2 := by
  induction qs with
  | nil => intro b; exact ⟨rfl, rfl⟩
  | cons q rest ih =>
    intro b
    have hb : (ask b q).1 = b := by cases q <;> rfl
    obtain ⟨h1, h2⟩ := ih (ask b q).1
    constructor
    · show (run_queries rest (ask b q).1).1 = b
      rw [h1, hb]
    · show (ask b q).2 :: (run_queries rest (ask b q).1).2
        = (ask b q).2 :: rest.map fun q1 => (ask b q1).2
      rw [h2, hb]

theorem get_tokens_remaining_eq (b : TokenBucket) :
    b.get_tokens_remaining =
      if ⌊b.current_tokens⌋ ≤ 2147483647 then max 0 ⌊b.current_tokens⌋ else -2147483648 := by
  unfold TokenBucket.get_tokens_remaining
  simp only [Double.floor, Double.max, Double.lt]
  by_cases h0 : (0 : ℚ) < ((⌊b.current_tokens⌋ : ℤ) : ℚ)
  · have hz : 0 < ⌊b.current_tokens⌋ := by exact_mod_cast h0
    simp only [h0, decide_True, if_true]
    by_cases h1 : ⌊b.current_tokens⌋ ≤ 2147483647
    · rw [to_int_intCast _ (by omega) h1, if_pos h1, max_eq_right hz.le]
    · rw [to_int_out_of_range _ (by omega), if_neg h1]
  · have hz : ⌊b.current_tokens⌋ ≤ 0 := by
      have := not_lt.1 h0
      exact_mod_cast this
    simp only [h0, decide_False, Bool.false_eq_true, if_false]
    have := to_int_intCast 0 (by norm_num) (by norm_num)
    rw [if_pos (by omega), max_eq_left hz]
    simpa using this

/-- C21 fails as stated.  A first call of `allow` with `max_t = 3000000000`
and `requested = 0` leaves 3000000000 tokens in the bucket; there
`floor(max(0, tokens))` is 3000000000, which no `int` holds, and
`get_tokens_remaining()` returns -2147483648. -/
theorem queries_are_read_only_counterexample :
    ((TokenBucket.new 0).allow 3000000000 1 0 0).1.current_tokens = 3000000000 ∧
    ((TokenBucket.new 0).allow 3000000000 1 0 0).1.get_tokens_remaining = -2147483648 ∧
    ⌊max 0 ((TokenBucket.new 0).allow 3000000000 1 0 0).1.current_tokens⌋ = 3000000000 := by
  have h : ((TokenBucket.new 0).allow 3000000000 1 0 0).1.current_tokens = 3000000000 := by
    norm_num [TokenBucket.allow, TokenBucket.new]
  have hf : ⌊(3000000000 : ℚ)⌋ = 3000000000 := by rw [Int.floor_eq_iff]; norm_num
  refine ⟨h, ?_, ?_⟩
  · rw [get_tokens_remaining_eq, h, hf]
    norm_num
  · rw [h, max_eq_right (by norm_num), hf]

/-- C21, as amended.  `get_tokens_remaining()` equals `floor(max(0, tokens))`
for every token value below 2147483648 (the range of `int`): it is
`floor(tokens)` for `0 ≤ tokens < 2147483648`, fractional values included, and
0 for negative values, so 0 for a never-used bucket (`tokens = -1`).  Neither
it nor `seconds_until_next` changes the bucket: after any sequence of the two
queries the bucket is as before, and every query in the sequence returns what
it returns on the first call. -/
theorem queries_are_read_only (b : TokenBucket) (qs : List Query) (t : Nat) :
    (b.current_tokens < 2147483648 → b.get_tokens_remaining = ⌊max 0 b.current_tokens⌋) ∧
    (0 ≤ b.current_tokens → b.current_tokens < 2147483648 →
      b.get_tokens_remaining = ⌊b.current_tokens⌋) ∧
    (b.current_tokens < 0 → b.get_tokens_remaining = 0) ∧
    (TokenBucket.new t).get_tokens_remaining = 0 ∧
    (run_queries qs b).1 = b ∧
    (run_queries qs b).2 = (qs.map fun q => (ask b q).2) ∧
    (run_queries qs b).1.get_tokens_remaining = b.get_tokens_remaining ∧
    (∀ refill_rate cost, (run_queries qs b).1.seconds_until_next refill_rate cost
      = b.seconds_until_next refill_rate cost) := by
  have hfloor : b.current_tokens < 2147483648 →
      b.get_tokens_remaining = ⌊max 0 b.current_tokens⌋ := by
    intro h
    have hz : ⌊b.current_tokens⌋ ≤ 2147483647 := by
      have : ⌊b.current_tokens⌋ < 2147483648 := Int.floor_lt.2 (by exact_mod_cast h)
      omega
    rw [get_tokens_remaining_eq, if_pos hz, (Int.floor_mono (α := ℚ)).map_max, Int.floor_zero]
  obtain ⟨h1, h2⟩ := run_queries_unchanged qs b
  refine ⟨hfloor, ?_, ?_, ?_, h1, h2, by rw [h1], fun _ _ => by rw [h1]⟩
  · intro h hlt
    rw [hfloor hlt, max_eq_right h]
  · intro h
    rw [hfloor (by linarith), max_eq_left (le_of_lt h), Int.floor_zero]
  · have hn : (TokenBucket.new t).current_tokens = -1 := rfl
    have hf : ⌊(-1 : ℚ)⌋ = -1 := by rw [Int.floor_eq_iff]; norm_num
    rw [get_tokens_remaining_eq, hn, hf]
    norm_num

/-- Witness for C21 as amended: a bucket holding 2.5 tokens answers 2, also
after other queries, and a bucket holding -0.5 tokens answers 0. -/
theorem queries_are_read_only_witness :
    TokenBucket.get_tokens_remaining
      { current_tokens := 5 / 2, last_refill_time := 0, last_access := 0 } = 2 ∧
    TokenBucket.get_tokens_remaining
      { current_tokens := -1 / 2, last_refill_time := 0, last_access := 0 } = 0 ∧
    (run_queries [Query.get_tokens_remaining, Query.seconds_until_next 8 3,
        Query.get_tokens_remaining]
      { current_tokens := 5 / 2, last_refill_time := 0, last_access := 0 }).1
      = { current_tokens := 5 / 2, last_refill_time := 0, last_access := 0 } ∧
    (run_queries [Query.get_tokens_remaining, Query.seconds_until_next 8 3,
        Query.get_tokens_remaining]
      { current_tokens := 5 / 2, last_refill_time := 0, last_access := 0 }).2
      = [Answer.count 2, Answer.seconds (Double.fin (1 / 16)), Answer.count 2] := by
  obtain ⟨_, hpos, _, _, hsame, hans, _, _⟩ :=
    queries_are_read_only
      { current_tokens := 5 / 2, last_refill_time := 0, last_access := 0 }
      [Query.get_tokens_remaining, Query.seconds_until_next 8 3, Query.get_tokens_remaining]
      0
  obtain ⟨_, _, hneg, _, _, _, _, _⟩ :=
    queries_are_read_only
      { current_tokens := -1 / 2, last_refill_time := 0, last_access := 0 } [] 0
  have e1 : ⌊(5 / 2 : ℚ)⌋ = 2 := by rw [Int.floor_eq_iff]; norm_num
  have h2 : TokenBucket.get_tokens_remaining
      { current_tokens := 5 / 2, last_refill_time := 0, last_access := 0 } = 2 := by
    rw [hpos (by norm_num) (by norm_num)]
    exact e1
  have hs : TokenBucket.seconds_until_next
      { current_tokens := 5 / 2, last_refill_time := 0, last_access := 0 } 8 3
      = Double.fin (1 / 16) := by
    have hsub : Double.round ((3 : ℚ) - 5 / 2) = Double.fin (1 / 2) :=
      round_eval _ _ (-1) 4503599627370496 (by norm_num [abs_of_pos])
        (by norm_num [abs_of_pos]) (by norm_num) (Or.inl (by norm_num)) (by norm_num)
        (by norm_num [abs_of_pos])
    have hdiv : Double.round ((1 / 2 : ℚ) / 8) = Double.fin (1 / 16) :=
      round_eval _ _ (-4) 4503599627370496 (by norm_num [abs_of_pos])
        (by norm_num [abs_of_pos]) (by norm_num) (Or.inl (by norm_num)) (by norm_num)
        (by norm_num [abs_of_pos])
    unfold TokenBucket.seconds_until_next
    have hle : Double.le (Double.fin 3) (Double.fin (5 / 2)) = false := by
      simp only [Double.le]
      norm_num
    rw [hle, sub_fin, hsub]
    simp only [Bool.false_eq_true, if_false, Double.div]
    rw [if_neg (by norm_num), hdiv]
  refine ⟨h2, hneg (by norm_num), hsame, ?_⟩
  rw [hans]
  simp only [List.map, ask, h2, hs]

end token_bucket_hpp

/-! ## C1: the first call for a never-seen identity -/

theorem default_manager_valid : default_manager.valid := by
  refine ⟨by decide, by decide, by decide, by decide⟩

theorem round_dyadic (q : ℚ) (m p : ℤ) (hm : |m| < 2 ^ 53) (hp : -1074 ≤ p) (hp2 : p ≤ 970)
    (hq : q = (m : ℚ) * (2 : ℚ) ^ p) : Double.round q = Double.fin q :=
  round_exact (representable_of q m p hm hp hp2 hq)

/-- C1, evaluated on the code.  `is_allowed` does not create the bucket of a
never-seen identity full: `buckets[key]` value-initialises it (no tokens, both
time points at the clock's epoch) and the refill step of the same call then
credits `clock reading * refill_rate`, capped at `max_tokens`.  (1) On the
default configuration (`max_tokens = 100`, `refill_rate = 10`,
`token_cost = 1`) the first call at a clock reading of 2 s finds 20 tokens: it
returns `remaining = 19` and leaves 19 tokens, where a full bucket gives
`floor(max_tokens) - floor(token_cost) = 99`.  (2) On the test configuration
(`max_tokens = 3`, `refill_rate = 10`, `token_cost = 1`) the first call at a
clock reading of 62.5 ms finds 5/8 of a token and is denied. -/
theorem first_call_bucket_not_full :
    (∃ m1, lookup default_manager sample_hash "192.168.1.1" = none ∧
      binary64.is_allowed sample_hash 2000000000 "192.168.1.1" default_manager
        = some (m1, { allowed := true, remaining := 19, wait_time := 0, reset_after := 8 }) ∧
      lookup m1 sample_hash "192.168.1.1"
        = some { tokens := 19, last_update := 2000000000, last_access := 2000000000 } ∧
      ⌊default_manager.cfg_.max_tokens⌋ - ⌊default_manager.cfg_.token_cost⌋ = 99) ∧
    (∃ m1 o, lookup test_manager sample_hash "192.168.1.1" = none ∧
      binary64.is_allowed sample_hash 62500000 "192.168.1.1" test_manager = some (m1, o) ∧
      o.allowed = false ∧ o.remaining = 0 ∧
      lookup m1 sample_hash "192.168.1.1"
        = some { tokens := 5 / 8, last_update := 62500000, last_access := 62500000 }) := by
  constructor
  · have hn : lookup default_manager sample_hash "192.168.1.1" = none := by decide
    have hcur : current default_manager sample_hash "192.168.1.1" = TokenBucket.value_init := by
      simp [current, hn]
    have hm : default_manager.cfg_.max_tokens = 100 := rfl
    have hc : default_manager.cfg_.token_cost = 1 := rfl
    have hr : default_manager.cfg_.refill_rate = 10 := rfl
    have hstep : binary64.check default_manager.cfg_ 2000000000 TokenBucket.value_init
        = some (TokenBucket.value_init.check default_manager.cfg_ 2000000000) :=
      binary64_check_whole_rate _ _ _ 2 0 100 1 10 (by norm_num [TokenBucket.value_init])
        (by norm_num) (by norm_num [TokenBucket.value_init]) (by rw [hr]; norm_num)
        (by rw [hm]; norm_num) (by rw [hc]; norm_num) (by norm_num) (by norm_num) (by norm_num)
        (by norm_num) (by norm_num) (by norm_num) (by norm_num) (by norm_num)
    have hT : refilled default_manager.cfg_ 2000000000 TokenBucket.value_init = 20 := by
      norm_num [refilled, hm, hr, elapsed_seconds, TokenBucket.value_init]
    have hex : TokenBucket.value_init.check default_manager.cfg_ 2000000000
        = ({ tokens := 19, last_update := 2000000000, last_access := 2000000000 },
           { allowed := true, remaining := 19, wait_time := 0, reset_after := 8 }) := by
      rw [check_when_admitted _ _ _ (by rw [hT, hc]; norm_num), hT, hc, hm, hr]
      have h1 : ⌊((20 : ℚ) - 1)⌋ = 19 := by rw [Int.floor_eq_iff]; norm_num
      have h2 : ⌈((100 : ℚ) - 20) / 10⌉ = 8 := by rw [Int.ceil_eq_iff]; norm_num
      rw [h1, h2]
      norm_num
    rw [hex] at hstep
    rw [← hcur] at hstep
    obtain ⟨m1, h1, hl, _, _, _⟩ :=
      binary64_is_allowed_check sample_hash 2000000000 "192.168.1.1" default_manager
        default_manager_valid _ _ hstep
    refine ⟨m1, hn, h1, hl, ?_⟩
    rw [hm, hc]
    have h1 : ⌊(100 : ℚ)⌋ = 100 := by rw [Int.floor_eq_iff]; norm_num
    have h2 : ⌊(1 : ℚ)⌋ = 1 := by rw [Int.floor_eq_iff]; norm_num
    rw [h1, h2]
    rfl
  · have hn : lookup test_manager sample_hash "192.168.1.1" = none := by decide
    have hcur : current test_manager sample_hash "192.168.1.1" = TokenBucket.value_init := by
      simp [current, hn]
    have hm : test_manager.cfg_.max_tokens = 3 := rfl
    have hc : test_manager.cfg_.token_cost = 1 := rfl
    have hr : test_manager.cfg_.refill_rate = 10 := rfl
    have hT : binary64.refilled test_manager.cfg_ 62500000 TokenBucket.value_init
        = Double.fin (5 / 8) := by
      have h1 : Double.round ((62500000 : ℤ) : ℚ) = Double.fin ((62500000 : ℤ) : ℚ) :=
        round_int 62500000 (by norm_num)
      have h2 : Double.round ((62500000 : ℚ) / 1000000000) = Double.fin (1 / 16) := by
        rw [show ((62500000 : ℚ) / 1000000000) = 1 / 16 by norm_num]
        exact round_dyadic _ 1 (-4) (by norm_num) (by norm_num) (by norm_num) (by norm_num)
      have h3 : Double.round ((1 / 16 : ℚ) * 10) = Double.fin (5 / 8) := by
        rw [show ((1 / 16 : ℚ) * 10) = 5 / 8 by norm_num]
        exact round_dyadic _ 5 (-3) (by norm_num) (by norm_num) (by norm_num) (by norm_num)
      have h4 : Double.round ((0 : ℚ) + 5 / 8) = Double.fin (5 / 8) := by
        rw [show ((0 : ℚ) + 5 / 8) = 5 / 8 by norm_num]
        exact round_dyadic _ 5 (-3) (by norm_num) (by norm_num) (by norm_num) (by norm_num)
      unfold binary64.refilled binary64.elapsed_seconds Double.of_int
      simp only [TokenBucket.value_init, hm, hr]
      norm_num only [Nat.cast_ofNat, Int.cast_ofNat, CharP.cast_eq_zero, sub_zero] at h1 ⊢
      rw [h1]
      simp only [Double.div]
      rw [if_neg (by norm_num), h2]
      simp only [Double.mul]
      rw [h3]
      simp only [Double.add]
      rw [h4, min_fin]
      norm_num
    rw [← hcur] at hT
    have hstep := binary64_check_denied test_manager.cfg_ 62500000
      (current test_manager sample_hash "192.168.1.1") (5 / 8) hT (by rw [hc]; norm_num)
    obtain ⟨m1, h1, hl, _, _, _⟩ :=
      binary64_is_allowed_check sample_hash 62500000 "192.168.1.1" test_manager
        test_manager_valid _ _ hstep
    exact ⟨m1, _, hn, h1, rfl, rfl, hl⟩

/-! ## C11: an evicted identity comes back as a never-seen one -/

theorem janitor_manager_valid : janitor_manager.valid := by
  refine ⟨by decide, by decide, by decide, by decide⟩

theorem janitor_first_call (m : RateLimitManager) (k : ℕ) (hk1 : 1 ≤ k) (hk : k ≤ 9)
    (hv : m.valid) (hcfg : m.cfg_ = janitor_manager.cfg_)
    (hn : lookup m sample_hash "a" = none) :
    ∃ m1, binary64.is_allowed sample_hash (k * 1000000000) "a" m
        = some (m1, { allowed := true, remaining := (k : ℤ) - 1, wait_time := 0,
                      reset_after := 10 - (k : ℤ) }) ∧
      lookup m1 sample_hash "a"
        = some { tokens := (k : ℚ) - 1, last_update := k * 1000000000,
                 last_access := k * 1000000000 } ∧
      m1.valid ∧ m1.cfg_ = janitor_manager.cfg_ := by
  have hcur : current m sample_hash "a" = TokenBucket.value_init := by
    simp [current, hn]
  have hm : m.cfg_.max_tokens = 10 := by rw [hcfg]; rfl
  have hc : m.cfg_.token_cost = 1 := by rw [hcfg]; rfl
  have hr : m.cfg_.refill_rate = 1 := by rw [hcfg]; rfl
  have hstep : binary64.check m.cfg_ (k * 1000000000) TokenBucket.value_init
      = some (TokenBucket.value_init.check m.cfg_ (k * 1000000000)) :=
    binary64_check_whole_rate _ _ _ k 0 10 1 1 (by simp [TokenBucket.value_init])
      (by omega) (by norm_num [TokenBucket.value_init]) (by rw [hr]; norm_num)
      (by rw [hm]; norm_num) (by rw [hc]; norm_num) (by norm_num) (by norm_num) (by norm_num)
      (by norm_num) (by norm_num) (by norm_num) (by norm_num) (by norm_num)
  have hkq : (k : ℚ) ≤ 9 := by exact_mod_cast hk
  have h1q : (1 : ℚ) ≤ (k : ℚ) := by exact_mod_cast hk1
  have hT : refilled m.cfg_ (k * 1000000000) TokenBucket.value_init = (k : ℚ) := by
    unfold refilled elapsed_seconds
    simp only [TokenBucket.value_init, hm, hr]
    push_cast
    rw [min_eq_right (by linarith)]
    ring
  have hex : TokenBucket.value_init.check m.cfg_ (k * 1000000000)
      = ({ tokens := (k : ℚ) - 1, last_update := k * 1000000000,
           last_access := k * 1000000000 },
         { allowed := true, remaining := (k : ℤ) - 1, wait_time := 0,
           reset_after := 10 - (k : ℤ) }) := by
    have hreset : ⌈((10 : ℚ) - (k : ℚ)) / 1⌉ = 10 - (k : ℤ) := by
      rw [div_one, Int.ceil_eq_iff]
      push_cast
      constructor <;> linarith
    have hfl : ⌊(k : ℚ) - 1⌋ = (k : ℤ) - 1 := by
      rw [Int.floor_eq_iff]
      push_cast
      constructor <;> linarith
    rw [check_when_admitted _ _ _ (by rw [hT, hc]; exact h1q), hT, hc, hm, hr, hreset, hfl]
  rw [hex, ← hcur] at hstep
  obtain ⟨m1, h1, hl, hc1, hv1, _⟩ :=
    binary64_is_allowed_check sample_hash (k * 1000000000) "a" m hv _ _ hstep
  exact ⟨m1, h1, hl, hv1, by rw [hc1, hcfg]⟩

/-- C11, evaluated on the code.  On the configuration of `JanitorTest`
(`max_tokens = 10`, `refill_rate = 1`, `token_cost = 1`, `expiry_timeout`
10 ms) identity "a" is checked at a clock reading of 5 s, a janitor sweep at
6 s evicts it, and it is checked again at 7 s.  The second check returns what
the first-ever check at 7 s returns on an engine that has never seen "a", and
stores the same bucket; but that is not a full bucket: the value-initialised
bucket is refilled from the clock's epoch, to 7 tokens, and the call returns
`remaining = 6`, not 9. -/
theorem evicted_identity_not_full :
    ∃ m1 m2 f1,
      binary64.is_allowed sample_hash 5000000000 "a" janitor_manager
        = some (m1, { allowed := true, remaining := 4, wait_time := 0, reset_after := 5 }) ∧
      lookup m1 sample_hash "a"
        = some { tokens := 4, last_update := 5000000000, last_access := 5000000000 } ∧
      lookup (janitor_sweep 6000000000 m1) sample_hash "a" = none ∧
      binary64.is_allowed sample_hash 7000000000 "a" (janitor_sweep 6000000000 m1)
        = some (m2, { allowed := true, remaining := 6, wait_time := 0, reset_after := 3 }) ∧
      binary64.is_allowed sample_hash 7000000000 "a" janitor_manager
        = some (f1, { allowed := true, remaining := 6, wait_time := 0, reset_after := 3 }) ∧
      lookup m2 sample_hash "a" = lookup f1 sample_hash "a" ∧
      lookup m2 sample_hash "a"
        = some { tokens := 6, last_update := 7000000000, last_access := 7000000000 } ∧
      ⌊janitor_manager.cfg_.max_tokens - janitor_manager.cfg_.token_cost⌋ = 9 := by
  have hn : lookup janitor_manager sample_hash "a" = none := by decide
  obtain ⟨m1, h1, hl1, hv1, hc1⟩ :=
    janitor_first_call janitor_manager 5 (by norm_num) (by norm_num) janitor_manager_valid rfl hn
  have hgone : lookup (janitor_sweep 6000000000 m1) sample_hash "a" = none := by
    rw [sweep_lookup sample_hash 6000000000 m1 hv1 "a", hl1]
    have : m1.cfg_.expiry_timeout = 10 := by rw [hc1]; rfl
    simp [Option.filter, expired, this]
  obtain ⟨m2, h2, hl2, _, _⟩ :=
    janitor_first_call (janitor_sweep 6000000000 m1) 7 (by norm_num) (by norm_num)
      (sweep_valid 6000000000 m1 hv1) hc1 hgone
  obtain ⟨f1, h3, hl3, _, _⟩ :=
    janitor_first_call janitor_manager 7 (by norm_num) (by norm_num) janitor_manager_valid rfl hn
  norm_num at h1 hl1 h2 hl2 h3 hl3
  refine ⟨m1, m2, f1, h1, hl1, hgone, h2, h3, by rw [hl2, hl3], hl2, ?_⟩
  have hm : janitor_manager.cfg_.max_tokens = 10 := rfl
  have hc : janitor_manager.cfg_.token_cost = 1 := rfl
  rw [hm, hc, Int.floor_eq_iff]
  norm_num

/-- The refill step in binary64 arithmetic never loses tokens and never leaves
the finite range: with `refill_rate ≥ 0`, a clock that has not gone back and a
stored count of at least `low` (a non-negative binary64 value), the count after
the step is `max_tokens` or a finite value between `low` and `max_tokens`. -/
theorem binary64_refilled_finite (cfg : Config) (now : Nat) (b : TokenBucket) (low : ℚ)
    (hr : 0 ≤ cfg.refill_rate) (hnow : b.last_update ≤ now)
    (hl0 : 0 ≤ low) (hl : low ≤ b.tokens) (hrep : Double.representable low) :
    ∃ t, binary64.refilled cfg now b = Double.fin t ∧
      (t = cfg.max_tokens ∨ (low ≤ t ∧ t < cfg.max_tokens)) := by
  have hz : (0 : ℚ) ≤ (((now : Int) - (b.last_update : Int) : ℤ) : ℚ) := by
    have : (0 : ℤ) ≤ (now : Int) - (b.last_update : Int) := by omega
    exact_mod_cast this
  have h0 : Double.representable 0 := by
    have := representable_int 0 (by norm_num)
    simpa using this
  -- the elapsed time is `+inf` or a finite non-negative value
  have hel : binary64.elapsed_seconds now b.last_update = Double.inf false ∨
      ∃ e, binary64.elapsed_seconds now b.last_update = Double.fin e ∧ 0 ≤ e := by
    unfold binary64.elapsed_seconds Double.of_int
    rcases round_ge_of_ge le_rfl hz h0 with h | ⟨c, h, hc⟩
    · left
      rw [h]
      simp [Double.div]
    · rw [h]
      simp only [Double.div]
      rw [if_neg (by norm_num)]
      rcases round_ge_of_ge le_rfl (div_nonneg hc (by norm_num : (0 : ℚ) ≤ 1000000000)) h0
        with h2 | ⟨e, h2, he⟩
      · left; exact h2
      · right; exact ⟨e, h2, he⟩
  -- the sum is a NaN, `+inf`, or a finite value of at least `low`
  have hsum : Double.add (Double.fin b.tokens)
        (Double.mul (binary64.elapsed_seconds now b.last_update) (Double.fin cfg.refill_rate))
        = Double.nan ∨
      Double.add (Double.fin b.tokens)
        (Double.mul (binary64.elapsed_seconds now b.last_update) (Double.fin cfg.refill_rate))
        = Double.inf false ∨
      ∃ s, Double.add (Double.fin b.tokens)
        (Double.mul (binary64.elapsed_seconds now b.last_update) (Double.fin cfg.refill_rate))
        = Double.fin s ∧ low ≤ s := by
    rcases hel with h | ⟨e, h, he⟩
    · rw [h]
      simp only [Double.mul]
      by_cases hr0 : cfg.refill_rate = 0
      · left
        simp [hr0, Double.add]
      · right; left
        have : ¬ cfg.refill_rate < 0 := not_lt.2 hr
        simp [hr0, this, Double.add]
    · rw [h]
      simp only [Double.mul]
      rcases round_ge_of_ge le_rfl (mul_nonneg he hr) h0 with h2 | ⟨x, h2, hx⟩
      · right; left
        rw [h2]
        simp [Double.add]
      · rw [h2]
        simp only [Double.add]
        rcases round_ge_of_ge hl0 (by linarith : low ≤ b.tokens + x) hrep with h3 | ⟨s, h3, hs⟩
        · right; left; exact h3
        · right; right; exact ⟨s, h3, hs⟩
  unfold binary64.refilled
  rcases hsum with h | h | ⟨s, h, hs⟩
  · rw [h]
    exact ⟨cfg.max_tokens, by simp [Double.min, Double.lt], Or.inl rfl⟩
  · rw [h]
    exact ⟨cfg.max_tokens, by simp [Double.min, Double.lt], Or.inl rfl⟩
  · rw [h, min_fin]
    rcases le_or_lt cfg.max_tokens s with hle | hlt
    · exact ⟨_, rfl, Or.inl (min_eq_left hle)⟩
    · refine ⟨_, rfl, Or.inr ?_⟩
      rw [min_eq_right hlt.le]
      exact ⟨hs, hlt⟩

/-- The bucket step in binary64 arithmetic returns: with `max_tokens` a
binary64 value, `refill_rate ≥ 0`, `token_cost ≥ 0`, a stored count that is
not negative and a clock that has not gone back, the stored count stays
finite. -/
theorem binary64_check_defined (cfg : Config) (now : Nat) (b : TokenBucket)
    (hmax : Double.representable cfg.max_tokens) (hr : 0 ≤ cfg.refill_rate)
    (hc : 0 ≤ cfg.token_cost) (hb : 0 ≤ b.tokens) (hnow : b.last_update ≤ now) :
    ∃ b1 o, binary64.check cfg now b = some (b1, o) := by
  have h0 : Double.representable 0 := by
    have := representable_int 0 (by norm_num)
    simpa using this
  obtain ⟨t, hT, ht⟩ := binary64_refilled_finite cfg now b 0 hr hnow le_rfl hb h0
  by_cases hle : cfg.token_cost ≤ t
  · have htmax : t ≤ cfg.max_tokens := by
      rcases ht with h | h
      · exact h.le
      · exact h.2.le
    obtain ⟨left, hsub, _, _⟩ :=
      round_le_of_le (sub_nonneg.2 hle) (by linarith : t - cfg.token_cost ≤ cfg.max_tokens) hmax
    exact ⟨_, _, binary64_check_admitted cfg now b t left hT hle hsub⟩
  · exact ⟨_, _, binary64_check_denied cfg now b t hT (not_le.1 hle)⟩

theorem binary64_refilled_le (cfg : Config) (now : Nat) (b : TokenBucket) (t : ℚ)
    (h : binary64.refilled cfg now b = Double.fin t) : t ≤ cfg.max_tokens := by
  unfold binary64.refilled Double.min at h
  split at h
  · rename_i hlt
    rw [h] at hlt
    simp only [Double.lt, decide_eq_true_eq] at hlt
    exact hlt.le
  · cases h
    exact le_rfl

/-- What a returning bucket step in binary64 arithmetic has done: the count
after the refill step is a finite `t`, and the step either took `token_cost`
from it or denied. -/
theorem binary64_check_cases (cfg : Config) (now : Nat) (b b1 : TokenBucket) (o : Outcome)
    (h : binary64.check cfg now b = some (b1, o)) :
    ∃ t, binary64.refilled cfg now b = Double.fin t ∧
      ((cfg.token_cost ≤ t ∧ ∃ left, Double.round (t - cfg.token_cost) = Double.fin left ∧
          b1 = { tokens := left, last_update := now, last_access := now } ∧
          o = { allowed := true, remaining := Double.to_int (Double.floor (Double.fin left)),
                wait_time := 0,
                reset_after := Double.to_int (Double.ceil
                  (Double.div (Double.round (cfg.max_tokens - t))
                    (Double.fin cfg.refill_rate))) }) ∨
       (t < cfg.token_cost ∧
          b1 = { tokens := t, last_update := now, last_access := now } ∧
          o = { allowed := false, remaining := 0,
                wait_time := Double.to_int (Double.ceil
                  (Double.div (Double.round (cfg.token_cost - t)) (Double.fin cfg.refill_rate))),
                reset_after := Double.to_int (Double.ceil
                  (Double.div (Double.round (cfg.max_tokens - t))
                    (Double.fin cfg.refill_rate))) })) := by
  cases hT : binary64.refilled cfg now b with
  | fin t =>
    refine ⟨t, rfl, ?_⟩
    by_cases hle : cfg.token_cost ≤ t
    · left
      refine ⟨hle, ?_⟩
      cases hsub : Double.round (t - cfg.token_cost) with
      | fin left =>
        rw [binary64_check_admitted cfg now b t left hT hle hsub] at h
        simp only [Option.some.injEq, Prod.mk.injEq] at h
        exact ⟨left, rfl, h.1.symm, h.2.symm⟩
      | inf s =>
        unfold binary64.check at h
        simp [hT, sub_fin, hsub, Double.le, hle] at h
      | nan =>
        unfold binary64.check at h
        simp [hT, sub_fin, hsub, Double.le, hle] at h
    · right
      have hlt : t < cfg.token_cost := not_le.1 hle
      rw [binary64_check_denied cfg now b t hT hlt] at h
      simp only [Option.some.injEq, Prod.mk.injEq] at h
      exact ⟨hlt, h.1.symm, h.2.symm⟩
  | inf s =>
    unfold binary64.check at h
    cases s <;> simp [hT, Double.le, Double.sub, Double.neg, Double.add] at h
  | nan =>
    unfold binary64.check at h
    simp [hT, Double.le] at h

theorem round_nonneg_cases {a : ℚ} (ha : 0 ≤ a) :
    Double.round a = Double.inf false ∨ ∃ r, Double.round a = Double.fin r ∧ 0 ≤ r := by
  have h0 : Double.representable 0 := by
    have := representable_int 0 (by norm_num)
    simpa using this
  exact round_ge_of_ge le_rfl ha h0

theorem ceil_to_int (q : ℚ) (h0 : 0 ≤ q) (h1 : ⌈q⌉ ≤ 2147483647) :
    Double.to_int (Double.ceil (Double.fin q)) = ⌈q⌉ := by
  simp only [Double.ceil]
  exact to_int_intCast _ (by have := Int.ceil_nonneg h0; omega) h1

/-- The quotient of lines 60 and 70 for a non-negative shortfall and a positive
rate: when it is finite it is not negative, and its ceiling converts to `int`
unchanged as long as it fits. -/
theorem quotient_nonneg (x rate : ℚ) (hx : 0 ≤ x) (hrate : 0 < rate) (q : ℚ)
    (h : Double.div (Double.round x) (Double.fin rate) = Double.fin q) : 0 ≤ q := by
  rcases round_nonneg_cases hx with hd | ⟨d, hd, hd0⟩
  · rw [hd] at h
    simp [Double.div] at h
  · rw [hd] at h
    simp only [Double.div] at h
    rw [if_neg hrate.ne'] at h
    rcases round_nonneg_cases (div_nonneg hd0 hrate.le) with h2 | ⟨r, h2, hr⟩
    · rw [h2] at h
      exact absurd h (by simp)
    · rw [h2] at h
      cases h
      exact hr

/-! ## C8: the reset time -/

theorem binary64_defined (hash : String → Nat) (now : Nat) (key : String)
    (m : RateLimitManager) (hv : m.valid)
    (hmax : Double.representable m.cfg_.max_tokens) (hr : 0 ≤ m.cfg_.refill_rate)
    (hc : 0 ≤ m.cfg_.token_cost) (hb : 0 ≤ (current m hash key).tokens)
    (hnow : (current m hash key).last_update ≤ now) :
    ∃ m1 o, binary64.is_allowed hash now key m = some (m1, o) := by
  obtain ⟨b1, o, h⟩ := binary64_check_defined m.cfg_ now (current m hash key) hmax hr hc hb hnow
  obtain ⟨m1, h1, _⟩ := binary64_is_allowed_check hash now key m hv b1 o h
  exact ⟨m1, o, h1⟩

theorem binary64_reset_after (cfg : Config) (now : Nat) (b b1 : TokenBucket) (o : Outcome)
    (h : binary64.check cfg now b = some (b1, o)) :
    o.reset_after = Double.to_int (Double.ceil (Double.div
      (Double.sub (Double.fin cfg.max_tokens) (binary64.refilled cfg now b))
      (Double.fin cfg.refill_rate))) := by
  obtain ⟨t, hT, hcase⟩ := binary64_check_cases cfg now b b1 o h
  rw [hT, sub_fin]
  rcases hcase with ⟨_, _, _, _, ho⟩ | ⟨_, _, ho⟩ <;> rw [ho]

/-- C8, as amended.  The `reset_after` returned by `is_allowed` is
`ceil((max_tokens - tokens) / refill_rate)` computed in `double` arithmetic,
with `tokens` the count after the refill step (before any consumption), and
converted to `int`.  With `refill_rate > 0`, whenever that quotient is finite
and its ceiling is at most 2147483647 the conversion keeps it and it is not
negative; and with `refill_rate ≠ 0` it is 0 when the refill step leaves the
bucket full.  The call returns whenever `max_tokens` is a `double`,
`refill_rate ≥ 0`, `token_cost ≥ 0`, the stored count is not negative and the
clock has not gone back. -/
theorem is_allowed_reset_after (hash : String → Nat) (now : Nat) (key : String)
    (m : RateLimitManager) (hv : m.valid) :
    (Double.representable m.cfg_.max_tokens → 0 ≤ m.cfg_.refill_rate →
      0 ≤ m.cfg_.token_cost → 0 ≤ (current m hash key).tokens →
      (current m hash key).last_update ≤ now →
      ∃ m1 o, binary64.is_allowed hash now key m = some (m1, o)) ∧
    ∀ m1 o, binary64.is_allowed hash now key m = some (m1, o) →
      o.reset_after = Double.to_int (Double.ceil (Double.div
        (Double.sub (Double.fin m.cfg_.max_tokens)
          (binary64.refilled m.cfg_ now (current m hash key)))
        (Double.fin m.cfg_.refill_rate))) ∧
      (0 < m.cfg_.refill_rate → ∀ q,
        Double.div
          (Double.sub (Double.fin m.cfg_.max_tokens)
            (binary64.refilled m.cfg_ now (current m hash key)))
          (Double.fin m.cfg_.refill_rate) = Double.fin q →
        ⌈q⌉ ≤ 2147483647 → o.reset_after = ⌈q⌉ ∧ 0 ≤ o.reset_after) ∧
      (m.cfg_.refill_rate ≠ 0 →
        binary64.refilled m.cfg_ now (current m hash key) = Double.fin m.cfg_.max_tokens →
        o.reset_after = 0) := by
  refine ⟨binary64_defined hash now key m hv, ?_⟩
  intro m1 o h
  obtain ⟨b1, hc, _, _, _⟩ := binary64_is_allowed_inv hash now key m m1 o hv h
  have hres := binary64_reset_after _ _ _ _ _ hc
  refine ⟨hres, ?_, ?_⟩
  · intro hrate q hq hfit
    obtain ⟨t, hT, _⟩ := binary64_check_cases _ _ _ _ _ hc
    have htmax := binary64_refilled_le _ _ _ _ hT
    rw [hT, sub_fin] at hq
    have hq0 := quotient_nonneg _ _ (sub_nonneg.2 htmax) hrate q hq
    rw [hres, hT, sub_fin, hq, ceil_to_int q hq0 hfit]
    exact ⟨rfl, Int.ceil_nonneg hq0⟩
  · intro hrate hfull
    rw [hres, hfull, sub_fin, sub_self, round_zero]
    simp only [Double.div]
    rw [if_neg hrate, zero_div, round_zero]
    have := ceil_to_int 0 le_rfl (by norm_num)
    simpa using this

/-- Witness for C8 as amended: the first call on the test engine at a clock
reading of five seconds returns, and its `reset_after` is as described. -/
theorem is_allowed_reset_after_witness :
    test_manager.valid ∧
    (∃ m1 o, binary64.is_allowed sample_hash 5000000000 "reset_user" test_manager
      = some (m1, o)) ∧
    ∀ m1 o, binary64.is_allowed sample_hash 5000000000 "reset_user" test_manager
        = some (m1, o) →
      o.reset_after = Double.to_int (Double.ceil (Double.div
        (Double.sub (Double.fin test_manager.cfg_.max_tokens)
          (binary64.refilled test_manager.cfg_ 5000000000
            (current test_manager sample_hash "reset_user")))
        (Double.fin test_manager.cfg_.refill_rate))) ∧
      (0 < test_manager.cfg_.refill_rate → ∀ q,
        Double.div
          (Double.sub (Double.fin test_manager.cfg_.max_tokens)
            (binary64.refilled test_manager.cfg_ 5000000000
              (current test_manager sample_hash "reset_user")))
          (Double.fin test_manager.cfg_.refill_rate) = Double.fin q →
        ⌈q⌉ ≤ 2147483647 → o.reset_after = ⌈q⌉ ∧ 0 ≤ o.reset_after) ∧
      (test_manager.cfg_.refill_rate ≠ 0 →
        binary64.refilled test_manager.cfg_ 5000000000
          (current test_manager sample_hash "reset_user")
          = Double.fin test_manager.cfg_.max_tokens →
        o.reset_after = 0) :=
  have h := is_allowed_reset_after sample_hash 5000000000 "reset_user" test_manager
    test_manager_valid
  have hn : lookup test_manager sample_hash "reset_user" = none := by decide
  have hcur : current test_manager sample_hash "reset_user" = TokenBucket.value_init := by
    simp [current, hn]
  have hrep : Double.representable test_manager.cfg_.max_tokens := by
    have := representable_int 3 (by norm_num)
    simpa [test_manager, get_test_cfg] using this
  ⟨test_manager_valid,
    h.1 hrep (by norm_num [test_manager, get_test_cfg]) (by norm_num [test_manager, get_test_cfg])
      (by rw [hcur]; norm_num [TokenBucket.value_init])
      (by rw [hcur]; norm_num [TokenBucket.value_init]),
    h.2⟩

theorem wide_manager_valid : wide_manager.valid := by
  refine ⟨by decide, by decide, by decide, by decide⟩

/-- C8 fails as stated.  With `max_tokens = 3000000000` and `refill_rate = 1`
the first call for a never-seen identity at a clock reading of 1 s finds one
token; `ceil((max_tokens - tokens) / refill_rate)` is 2999999999, which no
`int` holds, and the call returns `reset_after = -2147483648`: negative, with
`refill_rate > 0`. -/
theorem is_allowed_reset_after_counterexample :
    ∃ m1 o, lookup wide_manager sample_hash "reset_user" = none ∧
      binary64.is_allowed sample_hash 1000000000 "reset_user" wide_manager = some (m1, o) ∧
      0 < wide_manager.cfg_.refill_rate ∧
      binary64.refilled wide_manager.cfg_ 1000000000 TokenBucket.value_init = Double.fin 1 ∧
      ⌈(wide_manager.cfg_.max_tokens - 1) / wide_manager.cfg_.refill_rate⌉ = 2999999999 ∧
      o.reset_after = -2147483648 := by
  have hn : lookup wide_manager sample_hash "reset_user" = none := by decide
  have hcur : current wide_manager sample_hash "reset_user" = TokenBucket.value_init := by
    simp [current, hn]
  have hm : wide_manager.cfg_.max_tokens = 3000000000 := rfl
  have hc : wide_manager.cfg_.token_cost = 1 := rfl
  have hr : wide_manager.cfg_.refill_rate = 1 := rfl
  have hT : binary64.refilled wide_manager.cfg_ 1000000000 TokenBucket.value_init
      = Double.fin 1 := by
    rw [binary64_refilled_whole _ _ _ 1 0 1 (by norm_num [TokenBucket.value_init])
      (by norm_num) (by norm_num [TokenBucket.value_init]) (by rw [hr]; norm_num)
      (by norm_num) (by norm_num)]
    norm_num [refilled, hm, hr, elapsed_seconds, TokenBucket.value_init]
  have hsub : Double.round ((1 : ℚ) - wide_manager.cfg_.token_cost) = Double.fin 0 := by
    rw [hc, sub_self, round_zero]
  have hstep := binary64_check_admitted wide_manager.cfg_ 1000000000 TokenBucket.value_init
    1 0 hT (by rw [hc]) hsub
  rw [← hcur] at hstep
  obtain ⟨m1, h1, _⟩ :=
    binary64_is_allowed_check sample_hash 1000000000 "reset_user" wide_manager
      wide_manager_valid _ _ hstep
  refine ⟨m1, _, hn, h1, by rw [hr]; norm_num, hT, ?_, ?_⟩
  · rw [hm, hr, Int.ceil_eq_iff]
    norm_num
  · show Double.to_int (Double.ceil (Double.div
      (Double.round (wide_manager.cfg_.max_tokens - 1)) (Double.fin wide_manager.cfg_.refill_rate)))
      = -2147483648
    rw [hm, hr]
    have h2 : Double.round ((3000000000 : ℚ) - 1) = Double.fin ((2999999999 : ℤ) : ℚ) := by
      have := round_int 2999999999 (by norm_num)
      norm_num at this ⊢
      exact this
    have h3 : Double.round (((2999999999 : ℤ) : ℚ) / 1) = Double.fin ((2999999999 : ℤ) : ℚ) := by
      rw [div_one]
      exact round_int 2999999999 (by norm_num)
    rw [h2]
    simp only [Double.div]
    rw [if_neg (by norm_num), h3]
    simp only [Double.ceil, Int.ceil_intCast]
    exact to_int_out_of_range 2999999999 (by norm_num)

/-! ## C6: the admission decision and its results -/

theorem floor_to_int_of_nonneg (x : ℚ) (h0 : 0 ≤ x) (h1 : x < 2147483648) :
    Double.to_int (Double.floor (Double.fin x)) = ⌊x⌋ := by
  simp only [Double.floor]
  have hf0 : 0 ≤ ⌊x⌋ := Int.floor_nonneg.2 h0
  have hf1 : ⌊x⌋ < 2147483648 := Int.floor_lt.2 (by exact_mod_cast h1)
  exact to_int_intCast _ (by omega) (by omega)

theorem costly_manager_valid : costly_manager.valid := by
  refine ⟨by decide, by decide, by decide, by decide⟩

/-- C6, as amended.  A call of `is_allowed` returns true exactly when the token
count `t` after the refill step is at least `token_cost`.  When admitted, the
stored bucket holds `t - token_cost` as `double` arithmetic computes it,
`wait_time = 0` and `remaining` is the floor of the stored count converted to
`int`: the floor itself whenever the count is below 2147483648.  When denied,
the stored bucket holds `t` unchanged, `remaining = 0` and `wait_time` is
`ceil((token_cost - t) / refill_rate)` computed in `double` arithmetic and
converted to `int`; with `refill_rate > 0` it is that ceiling, and at least 1,
whenever the quotient of the `double` shortfall by `refill_rate` is at least
the smallest positive `double` (`2^-1074`) and its ceiling is at most
2147483647.  The call returns whenever `max_tokens` is a `double`,
`refill_rate ≥ 0`, `token_cost ≥ 0`, the stored count is not negative and the
clock has not gone back. -/
theorem is_allowed_decision (hash : String → Nat) (now : Nat) (key : String)
    (m : RateLimitManager) (hv : m.valid) :
    (Double.representable m.cfg_.max_tokens → 0 ≤ m.cfg_.refill_rate →
      0 ≤ m.cfg_.token_cost → 0 ≤ (current m hash key).tokens →
      (current m hash key).last_update ≤ now →
      ∃ m1 o, binary64.is_allowed hash now key m = some (m1, o)) ∧
    ∀ m1 o, binary64.is_allowed hash now key m = some (m1, o) →
      ∃ t b1, binary64.refilled m.cfg_ now (current m hash key) = Double.fin t ∧
        lookup m1 hash key = some b1 ∧
        (o.allowed = true ↔ m.cfg_.token_cost ≤ t) ∧
        (o.allowed = true →
          Double.sub (Double.fin t) (Double.fin m.cfg_.token_cost) = Double.fin b1.tokens ∧
          o.wait_time = 0 ∧
          o.remaining = Double.to_int (Double.floor (Double.fin b1.tokens)) ∧
          (b1.tokens < 2147483648 → o.remaining = ⌊b1.tokens⌋)) ∧
        (o.allowed = false →
          b1.tokens = t ∧ o.remaining = 0 ∧
          o.wait_time = Double.to_int (Double.ceil (Double.div
            (Double.sub (Double.fin m.cfg_.token_cost) (Double.fin t))
            (Double.fin m.cfg_.refill_rate))) ∧
          (0 < m.cfg_.refill_rate → ∀ d q,
            Double.sub (Double.fin m.cfg_.token_cost) (Double.fin t) = Double.fin d →
            Double.div (Double.fin d) (Double.fin m.cfg_.refill_rate) = Double.fin q →
            (2 : ℚ) ^ (-1074 : ℤ) ≤ d / m.cfg_.refill_rate → ⌈q⌉ ≤ 2147483647 →
            o.wait_time = ⌈q⌉ ∧ 1 ≤ o.wait_time)) := by
  refine ⟨binary64_defined hash now key m hv, ?_⟩
  intro m1 o h
  obtain ⟨b1, hc, hl, _, _⟩ := binary64_is_allowed_inv hash now key m m1 o hv h
  obtain ⟨t, hT, hcase⟩ := binary64_check_cases _ _ _ _ _ hc
  refine ⟨t, b1, hT, hl, ?_⟩
  rcases hcase with ⟨hle, left, hsub, hb1, ho⟩ | ⟨hlt, hb1, ho⟩
  · have hleft0 : 0 ≤ left := by
      rcases round_nonneg_cases (sub_nonneg.2 hle) with h2 | ⟨r, h2, hr⟩
      · rw [h2] at hsub
        exact absurd hsub (by simp)
      · rw [h2] at hsub
        cases hsub
        exact hr
    subst hb1 ho
    refine ⟨⟨fun _ => hle, fun _ => rfl⟩, ?_, ?_⟩
    · intro _
      refine ⟨by rw [sub_fin, hsub], rfl, rfl, ?_⟩
      intro hfit
      exact floor_to_int_of_nonneg left hleft0 hfit
    · intro hd
      exact absurd hd (by simp)
  · subst hb1 ho
    refine ⟨⟨fun hd => absurd hd (by simp), fun hle => absurd hle (not_le.2 hlt)⟩, ?_, ?_⟩
    · intro hd
      exact absurd hd (by simp)
    · intro _
      refine ⟨rfl, rfl, by rw [sub_fin], ?_⟩
      intro hrate d q hd hq hsmall hfit
      have hrep : Double.representable ((2 : ℚ) ^ (-1074 : ℤ)) :=
        representable_of _ 1 (-1074) (by norm_num) (by norm_num) (by norm_num) (by simp)
      have hpos : (0 : ℚ) < (2 : ℚ) ^ (-1074 : ℤ) := by positivity
      have hq1 : (2 : ℚ) ^ (-1074 : ℤ) ≤ q := by
        simp only [Double.div] at hq
        rw [if_neg hrate.ne'] at hq
        rcases round_ge_of_ge hpos.le hsmall hrep with h2 | ⟨r, h2, hr⟩
        · rw [h2] at hq
          exact absurd hq (by simp)
        · rw [h2] at hq
          cases hq
          exact hr
      have hq0 : 0 < q := lt_of_lt_of_le hpos hq1
      show Double.to_int (Double.ceil (Double.div
        (Double.round (m.cfg_.token_cost - t)) (Double.fin m.cfg_.refill_rate))) = ⌈q⌉ ∧
        1 ≤ Double.to_int (Double.ceil (Double.div
        (Double.round (m.cfg_.token_cost - t)) (Double.fin m.cfg_.refill_rate)))
      rw [sub_fin] at hd
      rw [hd, hq, ceil_to_int q hq0.le hfit]
      exact ⟨rfl, Int.one_le_ceil_iff.2 hq0⟩

/-- Witness for C6 as amended: the first call on the test engine at a clock
reading of five seconds returns, and its results are as described. -/
theorem is_allowed_decision_witness :
    test_manager.valid ∧
    (∃ m1 o, binary64.is_allowed sample_hash 5000000000 "1.1.1.1" test_manager
      = some (m1, o)) ∧
    ∀ m1 o, binary64.is_allowed sample_hash 5000000000 "1.1.1.1" test_manager = some (m1, o) →
      ∃ t b1, binary64.refilled test_manager.cfg_ 5000000000
          (current test_manager sample_hash "1.1.1.1") = Double.fin t ∧
        lookup m1 sample_hash "1.1.1.1" = some b1 ∧
        (o.allowed = true ↔ test_manager.cfg_.token_cost ≤ t) ∧
        (o.allowed = true →
          Double.sub (Double.fin t) (Double.fin test_manager.cfg_.token_cost)
            = Double.fin b1.tokens ∧
          o.wait_time = 0 ∧
          o.remaining = Double.to_int (Double.floor (Double.fin b1.tokens)) ∧
          (b1.tokens < 2147483648 → o.remaining = ⌊b1.tokens⌋)) ∧
        (o.allowed = false →
          b1.tokens = t ∧ o.remaining = 0 ∧
          o.wait_time = Double.to_int (Double.ceil (Double.div
            (Double.sub (Double.fin test_manager.cfg_.token_cost) (Double.fin t))
            (Double.fin test_manager.cfg_.refill_rate))) ∧
          (0 < test_manager.cfg_.refill_rate → ∀ d q,
            Double.sub (Double.fin test_manager.cfg_.token_cost) (Double.fin t)
              = Double.fin d →
            Double.div (Double.fin d) (Double.fin test_manager.cfg_.refill_rate)
              = Double.fin q →
            (2 : ℚ) ^ (-1074 : ℤ) ≤ d / test_manager.cfg_.refill_rate → ⌈q⌉ ≤ 2147483647 →
            o.wait_time = ⌈q⌉ ∧ 1 ≤ o.wait_time)) :=
  have h := is_allowed_decision sample_hash 5000000000 "1.1.1.1" test_manager test_manager_valid
  have hn : lookup test_manager sample_hash "1.1.1.1" = none := by decide
  have hcur : current test_manager sample_hash "1.1.1.1" = TokenBucket.value_init := by
    simp [current, hn]
  have hrep : Double.representable test_manager.cfg_.max_tokens := by
    have := representable_int 3 (by norm_num)
    simpa [test_manager, get_test_cfg] using this
  ⟨test_manager_valid,
    h.1 hrep (by norm_num [test_manager, get_test_cfg]) (by norm_num [test_manager, get_test_cfg])
      (by rw [hcur]; norm_num [TokenBucket.value_init])
      (by rw [hcur]; norm_num [TokenBucket.value_init]),
    h.2⟩

/-- C6 fails as stated.  With `token_cost = 2500000000` and `refill_rate = 1`
the first call for a never-seen identity at a clock reading of 1 s finds one
token and is denied; `ceil((token_cost - tokens) / refill_rate)` is
2499999999, which no `int` holds, and the call returns
`wait_time = -2147483648`: below 1, with `refill_rate > 0`. -/
theorem is_allowed_decision_counterexample :
    ∃ m1 o, lookup costly_manager sample_hash "1.1.1.1" = none ∧
      binary64.is_allowed sample_hash 1000000000 "1.1.1.1" costly_manager = some (m1, o) ∧
      0 < costly_manager.cfg_.refill_rate ∧
      binary64.refilled costly_manager.cfg_ 1000000000 TokenBucket.value_init = Double.fin 1 ∧
      o.allowed = false ∧
      ⌈(costly_manager.cfg_.token_cost - 1) / costly_manager.cfg_.refill_rate⌉ = 2499999999 ∧
      o.wait_time = -2147483648 := by
  have hn : lookup costly_manager sample_hash "1.1.1.1" = none := by decide
  have hcur : current costly_manager sample_hash "1.1.1.1" = TokenBucket.value_init := by
    simp [current, hn]
  have hm : costly_manager.cfg_.max_tokens = 3 := rfl
  have hc : costly_manager.cfg_.token_cost = 2500000000 := rfl
  have hr : costly_manager.cfg_.refill_rate = 1 := rfl
  have hT : binary64.refilled costly_manager.cfg_ 1000000000 TokenBucket.value_init
      = Double.fin 1 := by
    rw [binary64_refilled_whole _ _ _ 1 0 1 (by norm_num [TokenBucket.value_init])
      (by norm_num) (by norm_num [TokenBucket.value_init]) (by rw [hr]; norm_num)
      (by norm_num) (by norm_num)]
    norm_num [refilled, hm, hr, elapsed_seconds, TokenBucket.value_init]
  have hstep := binary64_check_denied costly_manager.cfg_ 1000000000 TokenBucket.value_init
    1 hT (by rw [hc]; norm_num)
  rw [← hcur] at hstep
  obtain ⟨m1, h1, _⟩ :=
    binary64_is_allowed_check sample_hash 1000000000 "1.1.1.1" costly_manager
      costly_manager_valid _ _ hstep
  refine ⟨m1, _, hn, h1, by rw [hr]; norm_num, hT, rfl, ?_, ?_⟩
  · rw [hc, hr, Int.ceil_eq_iff]
    norm_num
  · show Double.to_int (Double.ceil (Double.div
      (Double.round (costly_manager.cfg_.token_cost - 1))
      (Double.fin costly_manager.cfg_.refill_rate))) = -2147483648
    rw [hc, hr]
    have h2 : Double.round ((2500000000 : ℚ) - 1) = Double.fin ((2499999999 : ℤ) : ℚ) := by
      have := round_int 2499999999 (by norm_num)
      norm_num at this ⊢
      exact this
    have h3 : Double.round (((2499999999 : ℤ) : ℚ) / 1) = Double.fin ((2499999999 : ℤ) : ℚ) := by
      rw [div_one]
      exact round_int 2499999999 (by norm_num)
    rw [h2]
    simp only [Double.div]
    rw [if_neg (by norm_num), h3]
    simp only [Double.ceil, Int.ceil_intCast]
    exact to_int_out_of_range 2499999999 (by norm_num)

/-! ## Runs in binary64 arithmetic -/

theorem binary64_run_check_cons (hash : String → Nat) (key : String) (now : Nat)
    (rest : List Event) (m ma : RateLimitManager) (o : Outcome) (m1 : RateLimitManager)
    (outs : List Outcome) (h : binary64.is_allowed hash now key m = some (ma, o))
    (hrun : binary64.run hash rest ma = some (m1, outs)) :
    binary64.run hash (Event.check key now :: rest) m = some (m1, o :: outs) := by
  simp only [binary64.run, h, hrun]

/-- The refill step in binary64 arithmetic at the clock reading of the last
update: the stored count, a binary64 value, comes back capped at
`max_tokens`. -/
theorem binary64_refilled_same_instant (cfg : Config) (now : Nat) (b : TokenBucket)
    (h : b.last_update = now) (hrep : Double.representable b.tokens) :
    binary64.refilled cfg now b = Double.fin (min cfg.max_tokens b.tokens) := by
  unfold binary64.refilled binary64.elapsed_seconds Double.of_int
  rw [h, sub_self]
  have h0 : Double.round (((0 : ℤ) : ℚ)) = Double.fin 0 := by
    rw [Int.cast_zero]; exact round_zero
  rw [h0]
  simp only [Double.div]
  rw [if_neg (by norm_num), zero_div, round_zero]
  simp only [Double.mul]
  rw [zero_mul, round_zero]
  simp only [Double.add]
  rw [add_zero, round_exact hrep, min_fin]

/-- An admitted call in binary64 arithmetic at the clock reading of the last
update. -/
theorem binary64_same_instant_admitted (hash : String → Nat) (now : Nat) (key : String)
    (m : RateLimitManager) (hv : m.valid) (tokens left : ℚ)
    (hb : lookup m hash key
      = some { tokens := tokens, last_update := now, last_access := now })
    (hrep : Double.representable tokens) (hmax : tokens ≤ m.cfg_.max_tokens)
    (hle : m.cfg_.token_cost ≤ tokens)
    (hsub : Double.round (tokens - m.cfg_.token_cost) = Double.fin left) :
    ∃ m1 o, binary64.is_allowed hash now key m = some (m1, o) ∧ o.allowed = true ∧
      o.remaining = Double.to_int (Double.floor (Double.fin left)) ∧
      lookup m1 hash key = some { tokens := left, last_update := now, last_access := now } ∧
      m1.cfg_ = m.cfg_ ∧ m1.valid := by
  have hcur : current m hash key
      = { tokens := tokens, last_update := now, last_access := now } := by
    unfold current
    rw [hb]
    rfl
  have hT : binary64.refilled m.cfg_ now (current m hash key) = Double.fin tokens := by
    rw [hcur, binary64_refilled_same_instant m.cfg_ now
      { tokens := tokens, last_update := now, last_access := now } rfl hrep, min_eq_right hmax]
  have hstep := binary64_check_admitted m.cfg_ now (current m hash key) tokens left hT hle hsub
  obtain ⟨m1, h1, hl, hc, hv1, _⟩ := binary64_is_allowed_check hash now key m hv _ _ hstep
  exact ⟨m1, _, h1, by rfl, by rfl, hl, hc, hv1⟩

/-- A denied call in binary64 arithmetic at the clock reading of the last
update. -/
theorem binary64_same_instant_denied (hash : String → Nat) (now : Nat) (key : String)
    (m : RateLimitManager) (hv : m.valid) (tokens : ℚ)
    (hb : lookup m hash key
      = some { tokens := tokens, last_update := now, last_access := now })
    (hrep : Double.representable tokens) (hmax : tokens ≤ m.cfg_.max_tokens)
    (hlt : tokens < m.cfg_.token_cost) :
    ∃ m1 o, binary64.is_allowed hash now key m = some (m1, o) ∧ o.allowed = false ∧
      o.remaining = 0 ∧
      lookup m1 hash key = some { tokens := tokens, last_update := now, last_access := now } ∧
      m1.cfg_ = m.cfg_ ∧ m1.valid := by
  have hcur : current m hash key
      = { tokens := tokens, last_update := now, last_access := now } := by
    unfold current
    rw [hb]
    rfl
  have hT : binary64.refilled m.cfg_ now (current m hash key) = Double.fin tokens := by
    rw [hcur, binary64_refilled_same_instant m.cfg_ now
      { tokens := tokens, last_update := now, last_access := now } rfl hrep, min_eq_right hmax]
  have hstep := binary64_check_denied m.cfg_ now (current m hash key) tokens hT hlt
  obtain ⟨m1, h1, hl, hc, hv1, _⟩ := binary64_is_allowed_check hash now key m hv _ _ hstep
  exact ⟨m1, _, h1, by rfl, by rfl, hl, hc, hv1⟩

/-- An admitted call in binary64 arithmetic, from the count `t` after the
refill step. -/
theorem binary64_admitted_call (hash : String → Nat) (now : Nat) (key : String)
    (m : RateLimitManager) (hv : m.valid) (t left : ℚ)
    (hT : binary64.refilled m.cfg_ now (current m hash key) = Double.fin t)
    (hle : m.cfg_.token_cost ≤ t)
    (hsub : Double.round (t - m.cfg_.token_cost) = Double.fin left) :
    ∃ m1 o, binary64.is_allowed hash now key m = some (m1, o) ∧ o.allowed = true ∧
      o.remaining = Double.to_int (Double.floor (Double.fin left)) ∧
      lookup m1 hash key = some { tokens := left, last_update := now, last_access := now } ∧
      m1.cfg_ = m.cfg_ ∧ m1.valid := by
  have hstep := binary64_check_admitted m.cfg_ now (current m hash key) t left hT hle hsub
  obtain ⟨m1, h1, hl, hc, hv1, _⟩ := binary64_is_allowed_check hash now key m hv _ _ hstep
  exact ⟨m1, _, h1, by rfl, by rfl, hl, hc, hv1⟩

theorem fraction_manager_valid : fraction_manager.valid := by
  refine ⟨by decide, by decide, by decide, by decide⟩

/-- Five back-to-back calls in binary64 arithmetic with `max_tokens = 3` and
`token_cost = 0.6` on a bucket that starts full: four are admitted, the fifth
finds `0.5999999999999998` tokens and is denied. -/
theorem fraction_burst :
    ∃ m1 o1 o2 o3 o4 o5, binary64.run sample_hash
        (List.replicate 5 (Event.check "1.1.1.1" 1000000000)) fraction_manager
        = some (m1, [o1, o2, o3, o4, o5]) ∧
      o1.allowed = true ∧ o2.allowed = true ∧ o3.allowed = true ∧ o4.allowed = true ∧ o5.allowed = false := by
  have hm : fraction_manager.cfg_.max_tokens = 3 := rfl
  have hc : fraction_manager.cfg_.token_cost = 5404319552844595 / 9007199254740992 := rfl
  have hn : lookup fraction_manager sample_hash "1.1.1.1" = none := by decide
  have hcur : current fraction_manager sample_hash "1.1.1.1" = TokenBucket.value_init := by
    simp [current, hn]
  have hT0 : binary64.refilled fraction_manager.cfg_ 1000000000 (current fraction_manager sample_hash "1.1.1.1")
      = Double.fin (3 : ℚ) := by
    rw [hcur, binary64_refilled_whole _ _ _ 1 0 10 (by norm_num [TokenBucket.value_init])
      (by norm_num) (by norm_num [TokenBucket.value_init])
      (by norm_num [fraction_manager, get_test_cfg]) (by norm_num) (by norm_num)]
    norm_num [refilled, fraction_manager, get_test_cfg, elapsed_seconds, TokenBucket.value_init]
  have hs0 : Double.round ((3 : ℚ) - fraction_manager.cfg_.token_cost) = Double.fin (5404319552844595 / 2251799813685248 : ℚ) := by
    rw [hc]
    exact round_eval _ (5404319552844595 / 2251799813685248 : ℚ) (1) 5404319552844595 (by norm_num [abs_of_pos]) (by norm_num [abs_of_pos])
      (by norm_num) (Or.inl (by norm_num [abs_lt]))
      (by norm_num) (by norm_num [abs_of_pos])
  obtain ⟨s1, o1, hr1, ha1, _, hl1, hc1, hv1⟩ :=
    binary64_admitted_call sample_hash 1000000000 "1.1.1.1" fraction_manager fraction_manager_valid _ _
      hT0 (by rw [hc]; norm_num) hs0
  have hrep1 : Double.representable (5404319552844595 / 2251799813685248 : ℚ) :=
    representable_of _ (5404319552844595) (-51) (by norm_num) (by norm_num) (by norm_num) (by norm_num)
  have hs1 : Double.round ((5404319552844595 / 2251799813685248 : ℚ) - s1.cfg_.token_cost) = Double.fin (2026619832316723 / 1125899906842624 : ℚ) := by
    rw [hc1, hc]
    exact round_eval _ (2026619832316723 / 1125899906842624 : ℚ) (0) 8106479329266892 (by norm_num [abs_of_pos]) (by norm_num [abs_of_pos])
      (by norm_num) (Or.inr ⟨by norm_num [abs_of_pos, abs_of_neg], by norm_num⟩)
      (by norm_num) (by norm_num [abs_of_pos])
  obtain ⟨s2, o2, hr2, ha2, _, hl2, hcx2, hv2⟩ :=
    binary64_same_instant_admitted sample_hash 1000000000 "1.1.1.1" s1 hv1 (5404319552844595 / 2251799813685248 : ℚ) (2026619832316723 / 1125899906842624 : ℚ) hl1 hrep1
      (by rw [hc1, hm]; norm_num) (by rw [hc1, hc]; norm_num) hs1
  have hc2 : s2.cfg_ = fraction_manager.cfg_ := by rw [hcx2, hc1]
  have hrep2 : Double.representable (2026619832316723 / 1125899906842624 : ℚ) :=
    representable_of _ (2026619832316723) (-50) (by norm_num) (by norm_num) (by norm_num) (by norm_num)
  have hs2 : Double.round ((2026619832316723 / 1125899906842624 : ℚ) - s2.cfg_.token_cost) = Double.fin (2702159776422297 / 2251799813685248 : ℚ) := by
    rw [hc2, hc]
    exact round_eval _ (2702159776422297 / 2251799813685248 : ℚ) (0) 5404319552844594 (by norm_num [abs_of_pos]) (by norm_num [abs_of_pos])
      (by norm_num) (Or.inr ⟨by norm_num [abs_of_pos, abs_of_neg], by norm_num⟩)
      (by norm_num) (by norm_num [abs_of_pos])
  obtain ⟨s3, o3, hr3, ha3, _, hl3, hcx3, hv3⟩ :=
    binary64_same_instant_admitted sample_hash 1000000000 "1.1.1.1" s2 hv2 (2026619832316723 / 1125899906842624 : ℚ) (2702159776422297 / 2251799813685248 : ℚ) hl2 hrep2
      (by rw [hc2, hm]; norm_num) (by rw [hc2, hc]; norm_num) hs2
  have hc3 : s3.cfg_ = fraction_manager.cfg_ := by rw [hcx3, hc2]
  have hrep3 : Double.representable (2702159776422297 / 2251799813685248 : ℚ) :=
    representable_of _ (2702159776422297) (-51) (by norm_num) (by norm_num) (by norm_num) (by norm_num)
  have hs3 : Double.round ((2702159776422297 / 2251799813685248 : ℚ) - s3.cfg_.token_cost) = Double.fin (5404319552844593 / 9007199254740992 : ℚ) := by
    rw [hc3, hc]
    exact round_eval _ (5404319552844593 / 9007199254740992 : ℚ) (-1) 5404319552844593 (by norm_num [abs_of_pos]) (by norm_num [abs_of_pos])
      (by norm_num) (Or.inl (by norm_num [abs_lt]))
      (by norm_num) (by norm_num [abs_of_pos])
  obtain ⟨s4, o4, hr4, ha4, _, hl4, hcx4, hv4⟩ :=
    binary64_same_instant_admitted sample_hash 1000000000 "1.1.1.1" s3 hv3 (2702159776422297 / 2251799813685248 : ℚ) (5404319552844593 / 9007199254740992 : ℚ) hl3 hrep3
      (by rw [hc3, hm]; norm_num) (by rw [hc3, hc]; norm_num) hs3
  have hc4 : s4.cfg_ = fraction_manager.cfg_ := by rw [hcx4, hc3]
  have hrep4 : Double.representable (5404319552844593 / 9007199254740992 : ℚ) :=
    representable_of _ (5404319552844593) (-53) (by norm_num) (by norm_num) (by norm_num) (by norm_num)
  obtain ⟨s5, o5, hr5, ha5, _, hl5, hcx5, hv5⟩ :=
    binary64_same_instant_denied sample_hash 1000000000 "1.1.1.1" s4 hv4 (5404319552844593 / 9007199254740992 : ℚ) hl4 hrep4
      (by rw [hc4, hm]; norm_num) (by rw [hc4, hc]; norm_num)
  have hc5 : s5.cfg_ = fraction_manager.cfg_ := by rw [hcx5, hc4]
  refine ⟨s5, o1, o2, o3, o4, o5, ?_, ha1, ha2, ha3, ha4, ha5⟩
  rw [show List.replicate 5 (Event.check "1.1.1.1" 1000000000)
    = [Event.check "1.1.1.1" 1000000000,
       Event.check "1.1.1.1" 1000000000,
       Event.check "1.1.1.1" 1000000000,
       Event.check "1.1.1.1" 1000000000,
       Event.check "1.1.1.1" 1000000000] from rfl]
  exact binary64_run_check_cons _ _ _ _ _ _ _ _ _ hr1
    (binary64_run_check_cons _ _ _ _ _ _ _ _ _ hr2
    (binary64_run_check_cons _ _ _ _ _ _ _ _ _ hr3
    (binary64_run_check_cons _ _ _ _ _ _ _ _ _ hr4
    (binary64_run_check_cons _ _ _ _ _ _ _ _ _ hr5
    rfl))))

theorem burst_tokens_whole (cfg : Config) (i : Nat) (M C : ℤ) (hM : cfg.max_tokens = M)
    (hC : cfg.token_cost = C) (hC0 : 0 < C) :
    ∃ z : ℤ, burst_tokens cfg i = z ∧ |z| ≤ |M| := by
  have hCq : (0 : ℚ) < (C : ℚ) := by exact_mod_cast hC0
  refine ⟨M - ((min i ⌊cfg.max_tokens / cfg.token_cost⌋.toNat : ℕ) : ℤ) * C, ?_, ?_⟩
  · unfold burst_tokens
    rw [hM, hC]
    push_cast
    rfl
  · rcases le_or_lt 0 ⌊cfg.max_tokens / cfg.token_cost⌋ with hF | hF
    · have h1 : ((min i ⌊cfg.max_tokens / cfg.token_cost⌋.toNat : ℕ) : ℤ)
          ≤ ⌊cfg.max_tokens / cfg.token_cost⌋ := by
        have := min_le_right i ⌊cfg.max_tokens / cfg.token_cost⌋.toNat
        omega
      have h2 : (⌊cfg.max_tokens / cfg.token_cost⌋ : ℚ) * (C : ℚ) ≤ (M : ℚ) := by
        have := Int.floor_le (cfg.max_tokens / cfg.token_cost)
        rw [hM, hC] at this ⊢
        rwa [le_div_iff₀ hCq] at this
      have h3 : ⌊cfg.max_tokens / cfg.token_cost⌋ * C ≤ M := by exact_mod_cast h2
      have h4 : ((min i ⌊cfg.max_tokens / cfg.token_cost⌋.toNat : ℕ) : ℤ) * C
          ≤ ⌊cfg.max_tokens / cfg.token_cost⌋ * C :=
        mul_le_mul_of_nonneg_right h1 hC0.le
      have h5 : 0 ≤ ((min i ⌊cfg.max_tokens / cfg.token_cost⌋.toNat : ℕ) : ℤ) * C :=
        mul_nonneg (Int.natCast_nonneg _) hC0.le
      rw [abs_le]
      have := le_abs_self M
      have := neg_abs_le M
      constructor <;> omega
    · have : ⌊cfg.max_tokens / cfg.token_cost⌋.toNat = 0 := by omega
      rw [this, Nat.min_zero]
      simp

/-- One call of a burst in binary64 arithmetic on whole numbers: from the count
of the closed form, the step returns the closed form's `allowed` and
`remaining` and leaves the next count of the closed form. -/
theorem binary64_check_at_burst (cfg : Config) (now : Nat) (b : TokenBucket) (i : Nat)
    (M C : ℤ) (hM : cfg.max_tokens = M) (hC : cfg.token_cost = C) (hC0 : 0 < C)
    (hM2 : |M| ≤ 2147483647) (hC2 : C ≤ 2147483647)
    (h : binary64.refilled cfg now b = Double.fin (burst_tokens cfg i)) :
    ∃ b1 o, binary64.check cfg now b = some (b1, o) ∧
      (o.allowed, o.remaining)
        = ((burst_outcome cfg i).allowed, (burst_outcome cfg i).remaining) ∧
      b1.last_update = now ∧
      binary64.refilled cfg now b1 = Double.fin (burst_tokens cfg (i + 1)) := by
  have hcost : 0 < cfg.token_cost := by rw [hC]; exact_mod_cast hC0
  obtain ⟨z, hz, hzM⟩ := burst_tokens_whole cfg i M C hM hC hC0
  have hzle : z ≤ M := by
    have := burst_tokens_le_max cfg i hcost
    rw [hz, hM] at this
    exact_mod_cast this
  have hM3 := abs_le.1 hM2
  have hz3 := abs_le.1 (le_trans hzM hM2)
  have hmax := burst_tokens_le_max cfg (i + 1) hcost
  rw [burst_tokens_succ] at hmax ⊢
  unfold burst_outcome
  by_cases hi : (i : ℤ) + 1 ≤ ⌊cfg.max_tokens / cfg.token_cost⌋
  · have hle : cfg.token_cost ≤ burst_tokens cfg i := (burst_admit_iff cfg i hcost).2 hi
    have hCz : C ≤ z := by
      rw [hz, hC] at hle
      exact_mod_cast hle
    have hval : burst_tokens cfg i - cfg.token_cost = ((z - C : ℤ) : ℚ) := by
      rw [hz, hC]; push_cast; rfl
    have hsub : Double.round (burst_tokens cfg i - cfg.token_cost)
        = Double.fin (burst_tokens cfg i - cfg.token_cost) := by
      rw [hval]
      exact round_int (z - C) (by rw [abs_le]; norm_num; omega)
    rw [if_pos hi] at hmax
    refine ⟨_, _, binary64_check_admitted cfg now b _ _ h hle hsub, ?_, rfl, ?_⟩
    · rw [if_pos hi]
      show (true, Double.to_int (Double.floor (Double.fin (burst_tokens cfg i - cfg.token_cost))))
        = (true, ⌊burst_tokens cfg i - cfg.token_cost⌋)
      rw [hval, floor_to_int _ (by omega) (by omega), Int.floor_intCast]
    · rw [if_pos hi]
      rw [binary64_refilled_same_instant cfg now
        { tokens := burst_tokens cfg i - cfg.token_cost, last_update := now,
          last_access := now } rfl
        (by
          show Double.representable (burst_tokens cfg i - cfg.token_cost)
          rw [hval]
          exact representable_int _ (by rw [abs_le]; norm_num; omega))]
      show Double.fin (min cfg.max_tokens (burst_tokens cfg i - cfg.token_cost)) = _
      rw [min_eq_right hmax]
  · have hlt : burst_tokens cfg i < cfg.token_cost :=
      not_le.1 (fun hc => hi ((burst_admit_iff cfg i hcost).1 hc))
    rw [if_neg hi] at hmax
    refine ⟨_, _, binary64_check_denied cfg now b _ h hlt, ?_, rfl, ?_⟩
    · rw [if_neg hi]
    · rw [if_neg hi]
      rw [binary64_refilled_same_instant cfg now
        { tokens := burst_tokens cfg i, last_update := now, last_access := now } rfl
        (by
          show Double.representable (burst_tokens cfg i)
          rw [hz]
          exact representable_int _ (by rw [abs_le]; norm_num; omega))]
      show Double.fin (min cfg.max_tokens (burst_tokens cfg i)) = _
      rw [min_eq_right hmax]

theorem binary64_run_burst (hash : String → Nat) (now : Nat) (key : String) (n : Nat)
    (M C : ℤ) (hC0 : 0 < C) (hM2 : |M| ≤ 2147483647) (hC2 : C ≤ 2147483647) :
    ∀ (i : Nat) (m : RateLimitManager), m.valid → m.cfg_.max_tokens = M →
      m.cfg_.token_cost = C →
      binary64.refilled m.cfg_ now (current m hash key)
        = Double.fin (burst_tokens m.cfg_ i) →
      ∃ m1 outs, binary64.run hash (List.replicate n (Event.check key now)) m
          = some (m1, outs) ∧
        outs.map (fun o => (o.allowed, o.remaining))
          = (List.range' i n).map (fun j =>
              ((burst_outcome m.cfg_ j).allowed, (burst_outcome m.cfg_ j).remaining)) := by
  induction n with
  | zero =>
    intro i m _ _ _ _
    exact ⟨m, [], rfl, rfl⟩
  | succ n ih =>
    intro i m hv hM hC hst
    obtain ⟨b1, o, hc, ho, hupd, hnext⟩ :=
      binary64_check_at_burst m.cfg_ now (current m hash key) i M C hM hC hC0 hM2 hC2 hst
    obtain ⟨ma, h, hl, hcfg, hva, _⟩ := binary64_is_allowed_check hash now key m hv b1 o hc
    have hcur1 : current ma hash key = b1 := by
      unfold current
      rw [hl]
      rfl
    obtain ⟨m1, outs, hrun, houts⟩ := ih (i + 1) ma hva (by rw [hcfg]; exact hM)
      (by rw [hcfg]; exact hC) (by rw [hcur1, hcfg]; exact hnext)
    refine ⟨m1, o :: outs, binary64_run_check_cons hash key now _ m ma o m1 outs h hrun, ?_⟩
    rw [List.map_cons, houts, List.range'_succ, List.map_cons, ho, hcfg]

/-- C2 fails as stated.  With `max_tokens = 3` and `token_cost = 0.6` (the
`double` nearest to it), five back-to-back calls at one clock reading on a
bucket that starts full admit only four: the fourth leaves
`0.5999999999999998` tokens, below `token_cost`, and the fifth is denied, while
`floor(max_tokens / token_cost) = 5`. -/
theorem burst_exhaustion_counterexample :
    ∃ m1 outs, lookup fraction_manager sample_hash "1.1.1.1" = none ∧
      0 < fraction_manager.cfg_.token_cost ∧
      binary64.refilled fraction_manager.cfg_ 1000000000 TokenBucket.value_init
        = Double.fin fraction_manager.cfg_.max_tokens ∧
      binary64.run sample_hash (List.replicate 5 (Event.check "1.1.1.1" 1000000000))
        fraction_manager = some (m1, outs) ∧
      outs.map (fun o => o.allowed) = [true, true, true, true, false] ∧
      ⌊fraction_manager.cfg_.max_tokens / fraction_manager.cfg_.token_cost⌋ = 5 := by
  obtain ⟨m1, o1, o2, o3, o4, o5, hrun, h1, h2, h3, h4, h5⟩ := fraction_burst
  have hm : fraction_manager.cfg_.max_tokens = 3 := rfl
  have hc : fraction_manager.cfg_.token_cost = 5404319552844595 / 9007199254740992 := rfl
  refine ⟨m1, _, by decide, by rw [hc]; norm_num, ?_, hrun, ?_, ?_⟩
  · rw [binary64_refilled_whole _ _ _ 1 0 10 (by norm_num [TokenBucket.value_init])
      (by norm_num) (by norm_num [TokenBucket.value_init])
      (by norm_num [fraction_manager, get_test_cfg]) (by norm_num) (by norm_num)]
    norm_num [refilled, fraction_manager, get_test_cfg, elapsed_seconds, TokenBucket.value_init]
  · simp [h1, h2, h3, h4, h5]
  · rw [hm, hc, Int.floor_eq_iff]
    norm_num

/-- C2, as amended.  With `max_tokens` and `token_cost > 0` whole numbers of
magnitude at most 2147483647 (so that `double` arithmetic on the token count
is exact and `remaining` fits an `int`), `n` consecutive `is_allowed` calls at
one clock reading (zero elapsed time) for a never-seen identity whose bucket
starts full behave as follows: call number `i + 1` is admitted exactly when
`i + 1 ≤ floor(max_tokens / token_cost)`, an admitted call returns
`remaining = floor(max_tokens - (i + 1) * token_cost)`, and every later call is
denied with `remaining = 0`. -/
theorem burst_exhaustion (hash : String → Nat) (now : Nat) (key : String) (n : Nat)
    (m : RateLimitManager) (M C : ℤ) (hv : m.valid) (hnew : lookup m hash key = none)
    (hM : m.cfg_.max_tokens = M) (hC : m.cfg_.token_cost = C)
    (hM2 : |M| ≤ 2147483647) (hC2 : C ≤ 2147483647)
    (hcost : 0 < m.cfg_.token_cost)
    (hfull : binary64.refilled m.cfg_ now TokenBucket.value_init
      = Double.fin m.cfg_.max_tokens) :
    ∃ m1 outs, binary64.run hash (List.replicate n (Event.check key now)) m
        = some (m1, outs) ∧
      outs.map (fun o => (o.allowed, o.remaining)) =
        (List.range n).map (fun (i : Nat) =>
          if (i : ℤ) + 1 ≤ ⌊m.cfg_.max_tokens / m.cfg_.token_cost⌋ then
            (true, ⌊m.cfg_.max_tokens - ((i : ℚ) + 1) * m.cfg_.token_cost⌋)
          else (false, 0)) := by
  have hcur : current m hash key = TokenBucket.value_init := by simp [current, hnew]
  have hC0 : 0 < C := by
    rw [hC] at hcost
    exact_mod_cast hcost
  have h0 : binary64.refilled m.cfg_ now (current m hash key)
      = Double.fin (burst_tokens m.cfg_ 0) := by
    rw [hcur, hfull]
    simp [burst_tokens]
  obtain ⟨m1, outs, h, houts⟩ :=
    binary64_run_burst hash now key n M C hC0 hM2 hC2 0 m hv hM hC h0
  refine ⟨m1, outs, h, ?_⟩
  rw [houts, List.range_eq_range']
  apply List.map_congr_left
  intro i _
  exact burst_outcome_view m.cfg_ i

/-- Witness for C2 as amended: the scenario of `BlockedWhenEmpty`
(`max_tokens = 3`, `token_cost = 1`): four calls give `remaining` 2, 1, 0 and
then a denial. -/
theorem burst_exhaustion_witness :
    test_manager.valid ∧ lookup test_manager sample_hash "1.1.1.1" = none ∧
    test_manager.cfg_.max_tokens = ((3 : ℤ) : ℚ) ∧
    test_manager.cfg_.token_cost = ((1 : ℤ) : ℚ) ∧
    0 < test_manager.cfg_.token_cost ∧
    binary64.refilled test_manager.cfg_ 5000000000 TokenBucket.value_init
      = Double.fin test_manager.cfg_.max_tokens ∧
    ∃ m1 outs, binary64.run sample_hash (List.replicate 4 (Event.check "1.1.1.1" 5000000000))
        test_manager = some (m1, outs) ∧
      outs.map (fun o => (o.allowed, o.remaining)) =
        [(true, 2), (true, 1), (true, 0), (false, 0)] := by
  have h1 : lookup test_manager sample_hash "1.1.1.1" = none := by decide
  have hM : test_manager.cfg_.max_tokens = ((3 : ℤ) : ℚ) := by
    norm_num [test_manager, get_test_cfg]
  have hC : test_manager.cfg_.token_cost = ((1 : ℤ) : ℚ) := by
    norm_num [test_manager, get_test_cfg]
  have h2 : 0 < test_manager.cfg_.token_cost := by norm_num [test_manager, get_test_cfg]
  have h3 : binary64.refilled test_manager.cfg_ 5000000000 TokenBucket.value_init
      = Double.fin test_manager.cfg_.max_tokens := by
    rw [binary64_refilled_whole _ _ _ 5 0 50 (by norm_num [TokenBucket.value_init])
      (by norm_num) (by norm_num [TokenBucket.value_init])
      (by norm_num [test_manager, get_test_cfg]) (by norm_num) (by norm_num)]
    norm_num [refilled, test_manager, get_test_cfg, elapsed_seconds, TokenBucket.value_init]
  obtain ⟨m1, outs, hrun, houts⟩ :=
    burst_exhaustion sample_hash 5000000000 "1.1.1.1" 4 test_manager 3 1 test_manager_valid h1
      hM hC (by norm_num) (by norm_num) h2 h3
  refine ⟨test_manager_valid, h1, hM, hC, h2, h3, m1, outs, hrun, ?_⟩
  rw [houts]
  have hm : test_manager.cfg_.max_tokens = 3 := rfl
  have hc : test_manager.cfg_.token_cost = 1 := rfl
  rw [hm, hc]
  norm_num [List.range, List.range.loop]

/-! ## C17: a full bucket admits every call it can pay for -/

theorem binary64_run_admits_all (hash : String → Nat) (key : String) (M C : ℤ) (hC0 : 0 ≤ C)
    (hM2 : M ≤ 9007199254740992) (ts : List Nat) :
    ∀ (m : RateLimitManager) (t n : Nat) (b : TokenBucket), m.valid →
      lookup m hash key = some b → b.last_update = t →
      m.cfg_.max_tokens = M → m.cfg_.token_cost = C → 0 ≤ m.cfg_.refill_rate →
      (((M - (n : ℤ) * C : ℤ)) : ℚ) ≤ b.tokens →
      ((n + ts.length : Nat) : ℤ) * C ≤ M →
      List.Chain (fun a b => a ≤ b) t ts →
      ∃ m1 outs, binary64.run hash (ts.map (Event.check key)) m = some (m1, outs) ∧
        outs.length = ts.length ∧ ∀ o ∈ outs, o.allowed = true := by
  induction ts with
  | nil =>
    intro m t n b _ _ _ _ _ _ _ _ _
    exact ⟨m, [], rfl, rfl, by simp⟩
  | cons t1 rest ih =>
    intro m t n b hv hb hupd hM hC hrate hlow hk hch
    rw [List.chain_cons] at hch
    obtain ⟨ht, hch⟩ := hch
    have hcur : current m hash key = b := by
      unfold current
      rw [hb]
      rfl
    have hn0 : (0 : ℤ) ≤ (n : ℤ) := Int.natCast_nonneg n
    have hlen0 : (0 : ℤ) ≤ (rest.length : ℤ) := Int.natCast_nonneg _
    have hk' : ((n : ℤ) + ((rest.length : ℤ) + 1)) * C ≤ M := by
      have := hk
      simp only [List.length_cons] at this
      push_cast at this
      exact this
    have hnC : 0 ≤ (n : ℤ) * C := mul_nonneg hn0 hC0
    have hlC : 0 ≤ (rest.length : ℤ) * C := mul_nonneg hlen0 hC0
    have hlow0 : 0 ≤ M - (n : ℤ) * C := by nlinarith
    have hlowC : C ≤ M - (n : ℤ) * C := by nlinarith
    have hM0 : 0 ≤ M := by omega
    obtain ⟨T, hT, hTc⟩ := binary64_refilled_finite m.cfg_ t1 b (((M - (n : ℤ) * C : ℤ)) : ℚ)
      hrate (by rw [hupd]; exact ht) (by exact_mod_cast hlow0) hlow
      (representable_int _ (by rw [abs_of_nonneg hlow0]; norm_num; omega))
    have hTlow : (((M - (n : ℤ) * C : ℤ)) : ℚ) ≤ T := by
      rcases hTc with h | h
      · rw [h, hM]
        exact_mod_cast (by omega : M - (n : ℤ) * C ≤ M)
      · exact h.1
    have hTmax : T ≤ (M : ℚ) := by
      rcases hTc with h | h
      · rw [h, hM]
      · rw [← hM]; exact h.2.le
    have hCq : (C : ℚ) ≤ (((M - (n : ℤ) * C : ℤ)) : ℚ) := by exact_mod_cast hlowC
    have hle : m.cfg_.token_cost ≤ T := by rw [hC]; linarith
    have hC0q : (0 : ℚ) ≤ (C : ℚ) := by exact_mod_cast hC0
    obtain ⟨left, hsub, _, hleftM⟩ := round_le_of_le (sub_nonneg.2 hle)
      (by rw [hC]; linarith : T - m.cfg_.token_cost ≤ (M : ℚ))
      (representable_int M (by rw [abs_of_nonneg hM0]; norm_num; omega))
    have hleft : (((M - ((n + 1 : ℕ) : ℤ) * C : ℤ)) : ℚ) ≤ left := by
      have hl1 : (0 : ℤ) ≤ M - ((n + 1 : ℕ) : ℤ) * C := by push_cast; nlinarith
      rcases round_ge_of_ge (by exact_mod_cast hl1 : (0 : ℚ) ≤ (((M - ((n + 1 : ℕ) : ℤ) * C : ℤ)) : ℚ))
        (by rw [hC]; push_cast at hTlow ⊢; linarith :
          (((M - ((n + 1 : ℕ) : ℤ) * C : ℤ)) : ℚ) ≤ T - m.cfg_.token_cost)
        (representable_int _ (by rw [abs_of_nonneg hl1]; norm_num; nlinarith))
        with h | ⟨r, h, hr⟩
      · rw [hsub] at h
        exact absurd h (by simp)
      · rw [hsub] at h
        cases h
        exact hr
    rw [← hcur] at hT
    obtain ⟨ma, o, h, ha, _, hl, hcfg, hva⟩ :=
      binary64_admitted_call hash t1 key m hv T left hT hle hsub
    obtain ⟨m1, outs, hrun, hlen1, hall⟩ := ih ma t1 (n + 1) _ hva hl rfl
      (by rw [hcfg]; exact hM) (by rw [hcfg]; exact hC) (by rw [hcfg]; exact hrate)
      hleft
      (by push_cast; linarith)
      hch
    refine ⟨m1, o :: outs, binary64_run_check_cons hash key t1 _ m ma o m1 outs h hrun,
      by simp [hlen1], ?_⟩
    intro o2 ho
    rcases List.mem_cons.1 ho with ho | ho
    · rw [ho]; exact ha
    · exact hall o2 ho

/-- C17 fails as stated.  With `max_tokens = 3`, `token_cost = 0.6` (the
`double` nearest to it) and `refill_rate = 10`, five calls at one clock
reading on a never-seen identity whose bucket starts full satisfy
`5 * token_cost ≤ max_tokens`, and the fifth is denied: the four subtractions
before it have left `0.5999999999999998` tokens. -/
theorem full_bucket_admits_all_counterexample :
    ∃ m1 outs, lookup fraction_manager sample_hash "1.1.1.1" = none ∧
      binary64.refilled fraction_manager.cfg_ 1000000000 TokenBucket.value_init
        = Double.fin fraction_manager.cfg_.max_tokens ∧
      0 ≤ fraction_manager.cfg_.token_cost ∧ 0 ≤ fraction_manager.cfg_.refill_rate ∧
      (((List.replicate 5 1000000000).length : Nat) : ℚ) * fraction_manager.cfg_.token_cost
        ≤ fraction_manager.cfg_.max_tokens ∧
      List.Chain' (fun a b => a ≤ b) (List.replicate 5 1000000000) ∧
      binary64.run sample_hash
        ((List.replicate 5 1000000000).map (Event.check "1.1.1.1")) fraction_manager
        = some (m1, outs) ∧
      ∃ o ∈ outs, o.allowed = false := by
  obtain ⟨m1, o1, o2, o3, o4, o5, hrun, _, _, _, _, h5⟩ := fraction_burst
  have hm : fraction_manager.cfg_.max_tokens = 3 := rfl
  have hc : fraction_manager.cfg_.token_cost = 5404319552844595 / 9007199254740992 := rfl
  have hr : fraction_manager.cfg_.refill_rate = 10 := rfl
  refine ⟨m1, _, by decide, ?_, by rw [hc]; norm_num, by rw [hr]; norm_num, ?_, by simp [List.replicate],
    hrun, o5, by simp, h5⟩
  · rw [binary64_refilled_whole _ _ _ 1 0 10 (by norm_num [TokenBucket.value_init])
      (by norm_num) (by norm_num [TokenBucket.value_init])
      (by norm_num [fraction_manager, get_test_cfg]) (by norm_num) (by norm_num)]
    norm_num [refilled, fraction_manager, get_test_cfg, elapsed_seconds, TokenBucket.value_init]
  · rw [hm, hc]
    norm_num

/-- C17, as amended.  Let `k` calls of `is_allowed` be made for one never-seen
identity at non-decreasing clock readings, with the bucket full after the
refill step of the first call, `max_tokens` and `token_cost ≥ 0` whole numbers
(`max_tokens` at most `2^53`, so that `double` arithmetic represents every
multiple of `token_cost` up to it), `refill_rate ≥ 0` and
`k * token_cost ≤ max_tokens`.  Then all `k` calls are admitted. -/
theorem full_bucket_admits_all (hash : String → Nat) (key : String) (times : List Nat)
    (m : RateLimitManager) (M C : ℤ) (hv : m.valid) (hnew : lookup m hash key = none)
    (hM : m.cfg_.max_tokens = M) (hC : m.cfg_.token_cost = C)
    (hM2 : M ≤ 9007199254740992)
    (hfull : ∀ t1 ∈ times.head?,
      binary64.refilled m.cfg_ t1 TokenBucket.value_init = Double.fin m.cfg_.max_tokens)
    (hcost : 0 ≤ m.cfg_.token_cost) (hrate : 0 ≤ m.cfg_.refill_rate)
    (hk : (times.length : ℚ) * m.cfg_.token_cost ≤ m.cfg_.max_tokens)
    (hclock : List.Chain' (fun a b => a ≤ b) times) :
    ∃ m1 outs, binary64.run hash (times.map (Event.check key)) m = some (m1, outs) ∧
      outs.length = times.length ∧ ∀ o ∈ outs, o.allowed = true := by
  cases times with
  | nil => exact ⟨m, [], rfl, rfl, by simp⟩
  | cons t1 rest =>
    have hfull1 := hfull t1 (by simp)
    have hcur : current m hash key = TokenBucket.value_init := by simp [current, hnew]
    have hC0 : 0 ≤ C := by
      rw [hC] at hcost
      exact_mod_cast hcost
    have hlen0 : (0 : ℤ) ≤ (rest.length : ℤ) := Int.natCast_nonneg _
    have hk' : ((rest.length : ℤ) + 1) * C ≤ M := by
      have := hk
      simp only [List.length_cons] at this
      rw [hM, hC] at this
      exact_mod_cast this
    have hlC : 0 ≤ (rest.length : ℤ) * C := mul_nonneg hlen0 hC0
    have hCM : C ≤ M := by nlinarith
    have hM0 : 0 ≤ M := by omega
    have hsub : Double.round (m.cfg_.max_tokens - m.cfg_.token_cost)
        = Double.fin (((M - C : ℤ)) : ℚ) := by
      rw [hM, hC]
      have := round_int (M - C) (by rw [abs_of_nonneg (by omega)]; norm_num; omega)
      push_cast at this ⊢
      exact this
    rw [← hcur] at hfull1
    obtain ⟨ma, o, h, ha, _, hl, hcfg, hva⟩ :=
      binary64_admitted_call hash t1 key m hv _ _ hfull1
        (by rw [hM, hC]; exact_mod_cast hCM) hsub
    obtain ⟨m1, outs, hrun, hlen1, hall⟩ :=
      binary64_run_admits_all hash key M C hC0 hM2 rest ma t1 1 _ hva hl rfl
        (by rw [hcfg]; exact hM) (by rw [hcfg]; exact hC) (by rw [hcfg]; exact hrate)
        (by
          show (((M - ((1 : ℕ) : ℤ) * C : ℤ)) : ℚ) ≤ (((M - C : ℤ)) : ℚ)
          push_cast
          linarith)
        (by push_cast; linarith)
        hclock
    refine ⟨m1, o :: outs, binary64_run_check_cons hash key t1 _ m ma o m1 outs h hrun,
      by simp [hlen1], ?_⟩
    intro o2 ho
    rcases List.mem_cons.1 ho with ho | ho
    · rw [ho]; exact ha
    · exact hall o2 ho

theorem concurrent_manager_valid : concurrent_manager.valid := by
  refine ⟨by decide, by decide, by decide, by decide⟩

/-- Witness for C17 as amended: the scenario of `ConcurrentAccess`, 50 calls of
cost 1 against 100 tokens, at clock readings 20 s, 20 s + 1 ns, and so on. -/
theorem full_bucket_admits_all_witness :
    concurrent_manager.valid ∧ lookup concurrent_manager sample_hash "thread_user" = none ∧
    concurrent_manager.cfg_.max_tokens = ((100 : ℤ) : ℚ) ∧
    concurrent_manager.cfg_.token_cost = ((1 : ℤ) : ℚ) ∧
    (∀ t1 ∈ ((List.range 50).map fun i => 20000000000 + i).head?,
      binary64.refilled concurrent_manager.cfg_ t1 TokenBucket.value_init
        = Double.fin concurrent_manager.cfg_.max_tokens) ∧
    0 ≤ concurrent_manager.cfg_.token_cost ∧ 0 ≤ concurrent_manager.cfg_.refill_rate ∧
    ((((List.range 50).map fun i => 20000000000 + i).length : Nat) : ℚ)
      * concurrent_manager.cfg_.token_cost ≤ concurrent_manager.cfg_.max_tokens ∧
    List.Chain' (fun a b => a ≤ b) ((List.range 50).map fun i => 20000000000 + i) ∧
    ∃ m1 outs, binary64.run sample_hash
        (((List.range 50).map fun i => 20000000000 + i).map (Event.check "thread_user"))
        concurrent_manager = some (m1, outs) ∧
      outs.length = ((List.range 50).map fun i => 20000000000 + i).length ∧
      ∀ o ∈ outs, o.allowed = true :=
  have h1 : lookup concurrent_manager sample_hash "thread_user" = none := by decide
  have hM : concurrent_manager.cfg_.max_tokens = ((100 : ℤ) : ℚ) := by
    norm_num [concurrent_manager, get_test_cfg]
  have hC : concurrent_manager.cfg_.token_cost = ((1 : ℤ) : ℚ) := by
    norm_num [concurrent_manager, get_test_cfg]
  have h2 : ∀ t1 ∈ ((List.range 50).map fun i => 20000000000 + i).head?,
      binary64.refilled concurrent_manager.cfg_ t1 TokenBucket.value_init
        = Double.fin concurrent_manager.cfg_.max_tokens := by
    intro t1 ht
    have : t1 = 20000000000 := by
      have h0 : ((List.range 50).map fun i => 20000000000 + i).head? = some 20000000000 := by
        decide
      rw [h0] at ht
      exact (Option.some.inj ht).symm
    subst this
    rw [binary64_refilled_whole _ _ _ 20 0 200 (by norm_num [TokenBucket.value_init])
      (by norm_num) (by norm_num [TokenBucket.value_init])
      (by norm_num [concurrent_manager, get_test_cfg]) (by norm_num) (by norm_num)]
    norm_num [refilled, concurrent_manager, get_test_cfg, elapsed_seconds,
      TokenBucket.value_init]
  have h3 : 0 ≤ concurrent_manager.cfg_.token_cost := by
    norm_num [concurrent_manager, get_test_cfg]
  have h4 : 0 ≤ concurrent_manager.cfg_.refill_rate := by
    norm_num [concurrent_manager, get_test_cfg]
  have h5 : ((((List.range 50).map fun i => 20000000000 + i).length : Nat) : ℚ)
      * concurrent_manager.cfg_.token_cost ≤ concurrent_manager.cfg_.max_tokens := by
    norm_num [concurrent_manager, get_test_cfg]
  have h6 : List.Chain' (fun a b => a ≤ b) ((List.range 50).map fun i => 20000000000 + i) := by
    rw [List.chain'_iff_pairwise, List.pairwise_map]
    exact (List.pairwise_lt_range 50).imp (by intro a b h; omega)
  ⟨concurrent_manager_valid, h1, hM, hC, h2, h3, h4, h5, h6,
    full_bucket_admits_all sample_hash "thread_user"
      ((List.range 50).map fun i => 20000000000 + i) concurrent_manager 100 1
      concurrent_manager_valid h1 hM hC (by norm_num) h2 h3 h4 h5 h6⟩

/-! ## Calls on whole numbers: binary64 arithmetic is exact -/

end RateLimiter
